import Mathlib

/-!
# NFA-ε to DFA conversion: recognizers and subset construction

A shallow embedding of `Transition.h`, `FiniteStateMachine.h`, `CompiledDfa.cpp`,
`CompiledNfaEpsilon.cpp` and `convertNfaEpsilonToDfa.cpp`.

Modelling conventions
* `int` state identifiers are `Int` (the id counter is not wrapped: the C++ counter would
  need more than `2^31` discovered state-sets to overflow).
* `char` is `Char`; a `std::string` is a `List Char` (it may contain the character `'\0'`).
* `std::unordered_set<T>` is `Finset T`: equality is extensional, as `operator==` is.
* `std::list<Transition>` is `List Transition`; `push_front` is `::`.
* The two lookup tables of the recognizers are never iterated, so they are partial functions
  `Int × Char → Option _`; `count(k) > 0` is `isSome`, `at(k)` reads the value.
* `mapSetToDfaNode` is iterated, so it is a list of entries with distinct keys.
* `at` on a missing key throws in C++; functions that may call it return `Option`.
* The iteration order of an `unordered_set<char>` is unspecified and follows from the way the
  container was filled: the converter takes it as a parameter (`IterationOrder`) that may depend
  on the state-set being processed and on the value of the global at the call.
* The global `conversionData` is passed explicitly: every converter function takes the current
  value of the global and returns its new value.
-/

/-- A transition of a finite state machine (`struct Transition`). -/
structure Transition where
  source : Int
  transitionChar : Char
  destination : Int
deriving DecidableEq

/-- The pair of source node and transition character used as a table key. -/
abbrev TransitionPair := Int × Char

/-- The data of a finite state machine (`struct FiniteStateMachine`). -/
structure FiniteStateMachine where
  nodes : Finset Int
  startNode : Int
  goalNodes : Finset Int
  transitions : List Transition

/-- Two machines are equal when their four members are. -/
instance : DecidableEq FiniteStateMachine := fun a b =>
  decidable_of_iff
    (a.nodes = b.nodes ∧ a.startNode = b.startNode ∧ a.goalNodes = b.goalNodes ∧
      a.transitions = b.transitions)
    (by cases a; cases b; simp)

/-- The character for epsilon, `'\0'`. -/
def FiniteStateMachine.EPSILON : Char := Char.ofNat 0

/-! ## CompiledDfa -/

/-- The table type of `CompiledDfa`. -/
abbrev MapTransitionPairToDestination := TransitionPair → Option Int

/-- The class `CompiledDfa`: the machine and its compiled table. -/
structure CompiledDfa where
  internalFiniteStateMachine : FiniteStateMachine
  dfaGraph : MapTransitionPairToDestination

/-- `CompiledDfa::addTransitionToGraph`: `dfaGraph[pair] = destination`. -/
def CompiledDfa.addTransitionToGraph (dfaGraph : MapTransitionPairToDestination)
    (transitionToAdd : Transition) : MapTransitionPairToDestination :=
  Function.update dfaGraph (transitionToAdd.source, transitionToAdd.transitionChar)
    (some transitionToAdd.destination)

/-- The overloaded constructor of `CompiledDfa`: the table starts empty and every transition
of the machine is added in list order. -/
def CompiledDfa.new (originalFiniteStateMachine : FiniteStateMachine) : CompiledDfa where
  internalFiniteStateMachine := originalFiniteStateMachine
  dfaGraph := originalFiniteStateMachine.transitions.foldl CompiledDfa.addTransitionToGraph
    (fun _ => none)

/-- `CompiledDfa::isGoalState`. -/
def CompiledDfa.isGoalState (d : CompiledDfa) (state : Int) : Bool :=
  decide (state ∈ d.internalFiniteStateMachine.goalNodes)

/-- `CompiledDfa::processNextCharacter`: the new value of `currentState`. -/
def CompiledDfa.processNextCharacter (d : CompiledDfa) (characterToProcess : Char)
    (currentState : Int) : Int :=
  match d.dfaGraph (currentState, characterToProcess) with
  | some destination => destination
  | none => -1

/-- The loop of `CompiledDfa::isRecognized` over the rest of the string, followed by the final
`return isGoalState(currentState)`. -/
def CompiledDfa.isRecognizedFrom (d : CompiledDfa) : List Char → Int → Bool
  | [], currentState => d.isGoalState currentState
  | c :: rest, currentState =>
    if currentState = -1 then false
    else CompiledDfa.isRecognizedFrom d rest (d.processNextCharacter c currentState)

/-- `CompiledDfa::isRecognized`. -/
def CompiledDfa.isRecognized (d : CompiledDfa) (stringToTest : List Char) : Bool :=
  d.isRecognizedFrom stringToTest d.internalFiniteStateMachine.startNode

/-! ## CompiledNfaEpsilon -/

/-- The table type of `CompiledNfaEpsilon`. -/
abbrev MapTransitionPairToDestinations := TransitionPair → Option (Finset Int)

/-- The class `CompiledNfaEpsilon`: the machine and its compiled table. -/
structure CompiledNfaEpsilon where
  internalFiniteStateMachine : FiniteStateMachine
  nfaEpsilonGraph : MapTransitionPairToDestinations

/-- `CompiledNfaEpsilon::addTransitionToGraph`. -/
def CompiledNfaEpsilon.addTransitionToGraph (nfaEpsilonGraph : MapTransitionPairToDestinations)
    (transitionToAdd : Transition) : MapTransitionPairToDestinations :=
  let currentTransitionPair : TransitionPair :=
    (transitionToAdd.source, transitionToAdd.transitionChar)
  let destinations : Finset Int :=
    match nfaEpsilonGraph currentTransitionPair with
    | some known => known
    | none => ∅
  Function.update nfaEpsilonGraph currentTransitionPair
    (some (insert transitionToAdd.destination destinations))

/-- The overloaded constructor of `CompiledNfaEpsilon`. -/
def CompiledNfaEpsilon.new (originalFiniteStateMachine : FiniteStateMachine) :
    CompiledNfaEpsilon where
  internalFiniteStateMachine := originalFiniteStateMachine
  nfaEpsilonGraph :=
    originalFiniteStateMachine.transitions.foldl CompiledNfaEpsilon.addTransitionToGraph
      (fun _ => none)

/-- The destinations stored for a pair, empty when the table has no entry: the body of
`if (graph.count(pair) > 0) for (dest : graph.at(pair))`. -/
def CompiledNfaEpsilon.destinationsOf (n : CompiledNfaEpsilon) (pair : TransitionPair) :
    Finset Int :=
  match n.nfaEpsilonGraph pair with
  | some destinations => destinations
  | none => ∅

/-- One execution of the `for` loop of `CompiledNfaEpsilon::getEpsilonClosure`: the new value of
`states` and the value of `inserts`. The loop inserts into the set it iterates; the pass modelled
here visits the states present when it starts (whether the C++ loop also visits a state inserted
during the pass depends on the container). Every epsilon destination of a visited state that is
not yet in `states` is inserted and counted once. -/
def CompiledNfaEpsilon.epsilonPass (n : CompiledNfaEpsilon) (states : Finset Int) :
    Finset Int × Nat :=
  let reached := states.biUnion fun sourceState =>
    n.destinationsOf (sourceState, FiniteStateMachine.EPSILON)
  (states ∪ reached, (reached \ states).card)

/-- `CompiledNfaEpsilon::getEpsilonClosure` with a bound on the depth of the recursion;
`none` when the bound is reached. -/
def CompiledNfaEpsilon.getEpsilonClosureFuel (n : CompiledNfaEpsilon) :
    Nat → Finset Int → Option (Finset Int)
  | 0, _ => none
  | fuel + 1, states =>
    let pass := n.epsilonPass states
    if pass.2 > 0 then CompiledNfaEpsilon.getEpsilonClosureFuel n fuel pass.1
    else some pass.1

/-- `CompiledNfaEpsilon::getEpsilonClosure`: the new value of `states`. Every recursive call
follows the insertion of a transition destination, so one more call than there are transitions
is enough (`nfa_getEpsilonClosure_spec`). -/
def CompiledNfaEpsilon.getEpsilonClosure (n : CompiledNfaEpsilon) (states : Finset Int) :
    Finset Int :=
  (n.getEpsilonClosureFuel (n.internalFiniteStateMachine.transitions.length + 1) states).getD
    states

/-- `CompiledNfaEpsilon::isGoalState`. -/
def CompiledNfaEpsilon.isGoalState (n : CompiledNfaEpsilon) (states : Finset Int) : Bool :=
  decide (∃ state ∈ states, state ∈ n.internalFiniteStateMachine.goalNodes)

/-- `CompiledNfaEpsilon::processNextCharacter`: the new value of `currentStates`. -/
def CompiledNfaEpsilon.processNextCharacter (n : CompiledNfaEpsilon) (characterToProcess : Char)
    (currentStates : Finset Int) : Finset Int :=
  n.getEpsilonClosure
    (currentStates.biUnion fun sourceState => n.destinationsOf (sourceState, characterToProcess))

/-- The loop of `CompiledNfaEpsilon::isRecognized` over the rest of the string, followed by the
final `return isGoalState(currentStates)`. -/
def CompiledNfaEpsilon.isRecognizedFrom (n : CompiledNfaEpsilon) :
    List Char → Finset Int → Bool
  | [], currentStates => n.isGoalState currentStates
  | c :: rest, currentStates =>
    if currentStates = ∅ then false
    else CompiledNfaEpsilon.isRecognizedFrom n rest (n.processNextCharacter c currentStates)

/-- `CompiledNfaEpsilon::isRecognized`. -/
def CompiledNfaEpsilon.isRecognized (n : CompiledNfaEpsilon) (stringToTest : List Char) : Bool :=
  n.isRecognizedFrom stringToTest
    (n.getEpsilonClosure (insert n.internalFiniteStateMachine.startNode ∅))

/-! ## convertNfaEpsilonToDfa -/

/-- The map from discovered state-sets to DFA node numbers: a list of entries with distinct
keys. -/
structure MapStatesToInt where
  entries : List (Finset Int × Int)
  nodupKeys : (entries.map Prod.fst).Nodup

/-- The empty map. -/
def MapStatesToInt.empty : MapStatesToInt := ⟨[], List.nodup_nil⟩

/-- The value stored for a key: `count(key) > 0` is `isSome`, `at(key)` reads the value and
throws when there is none. -/
def MapStatesToInt.lookup (m : MapStatesToInt) (key : Finset Int) : Option Int :=
  (m.entries.find? fun entry => entry.1 = key).map Prod.snd

/-- The assignment `m[key] = value`: an entry with this key is replaced. -/
def MapStatesToInt.assign (m : MapStatesToInt) (key : Finset Int) (value : Int) :
    MapStatesToInt where
  entries := (key, value) :: m.entries.filter fun entry => entry.1 ≠ key
  nodupKeys := by
    rw [List.map_cons, List.nodup_cons]
    refine ⟨?_, m.nodupKeys.sublist ((List.filter_sublist m.entries).map Prod.fst)⟩
    intro h
    obtain ⟨entry, hentry, hkey⟩ := List.mem_map.mp h
    simpa [hkey] using (List.mem_filter.mp hentry).2

/-- The data of the conversion algorithm (`struct ConversionData`), the type of the global
variable `conversionData`. -/
structure ConversionData where
  dfa : FiniteStateMachine
  nfaEpsilon : FiniteStateMachine
  mapSetToDfaNode : MapStatesToInt
  nodeNumber : Int
  pendingSetsOfNodes : List (Finset Int)
  stateSet : Finset Int

/-- The value of the global `conversionData` at program start: the containers are empty, the
`int` members of the machines are zero-initialised and `nodeNumber` is `1`. -/
def ConversionData.initial : ConversionData where
  dfa := { nodes := ∅, startNode := 0, goalNodes := ∅, transitions := [] }
  nfaEpsilon := { nodes := ∅, startNode := 0, goalNodes := ∅, transitions := [] }
  mapSetToDfaNode := MapStatesToInt.empty
  nodeNumber := 1
  pendingSetsOfNodes := []
  stateSet := ∅

/-- The order in which the `for` loop of `processTransitionCharacters` visits the characters of
`nextTransitionChars`. The container is a fresh `std::unordered_set<char>` for every state-set
taken from the queue, filled by the scan of `getNextTransitionCharacters`; the order in which it
iterates is unspecified and follows from the insertions made, so two state-sets with the same
characters may have them visited in different orders. The enumeration is therefore a function of
the value of the global at the call, of the state-set being processed and of the set of
characters; every character is visited exactly once. -/
structure IterationOrder where
  enumerate : ConversionData → Finset Int → Finset Char → List Char
  nodup : ∀ cd currentSetOfNodes chars, (enumerate cd currentSetOfNodes chars).Nodup
  mem_enumerate : ∀ cd currentSetOfNodes chars c,
    c ∈ enumerate cd currentSetOfNodes chars ↔ c ∈ chars

/-- The iteration order that visits the characters in increasing order, whatever the state-set
being processed. -/
def IterationOrder.increasing : IterationOrder where
  enumerate _ _ chars := Quot.liftOn chars.val (fun l => l.insertionSort (· ≤ ·))
    (fun _ _ h => List.eq_of_perm_of_sorted
      ((List.perm_insertionSort _ _).trans (h.trans (List.perm_insertionSort _ _).symm))
      (List.sorted_insertionSort _ _) (List.sorted_insertionSort _ _))
  nodup _ _ chars := by
    obtain ⟨⟨l⟩, hl⟩ := chars
    exact (List.perm_insertionSort _ l).nodup_iff.mpr hl
  mem_enumerate _ _ chars c := by
    obtain ⟨⟨l⟩, hl⟩ := chars
    exact (List.perm_insertionSort _ l).mem_iff

/-- The body of the `for` loop of the free function `getEpsilonClosure`, on the pair of `states`
and `inserts`. -/
def epsilonScanStep (acc : Finset Int × Nat) (transition : Transition) : Finset Int × Nat :=
  if transition.source ∈ acc.1 ∧
      transition.transitionChar = FiniteStateMachine.EPSILON ∧
      transition.destination ∉ acc.1 then
    (insert transition.destination acc.1, acc.2 + 1)
  else acc

/-- One execution of the `for` loop of the free function `getEpsilonClosure`: the new value of
`states` and the value of `inserts`. -/
def epsilonScan (states : Finset Int) (transitions : List Transition) : Finset Int × Nat :=
  transitions.foldl epsilonScanStep (states, 0)

/-- The free function `getEpsilonClosure` with a bound on the depth of the recursion; `none`
when the bound is reached. -/
def getEpsilonClosureFuel : Nat → Finset Int → List Transition → Option (Finset Int)
  | 0, _, _ => none
  | fuel + 1, states, transitions =>
    let scan := epsilonScan states transitions
    if scan.2 > 0 then getEpsilonClosureFuel fuel scan.1 transitions
    else some scan.1

/-- The free function `getEpsilonClosure`: the new value of `states`. Every recursive call
follows the insertion of a transition destination, so one more call than there are transitions
is enough (`getEpsilonClosure_spec`). -/
def getEpsilonClosure (states : Finset Int) (transitions : List Transition) : Finset Int :=
  (getEpsilonClosureFuel (transitions.length + 1) states transitions).getD states

/-- The identifiers inserted for one goal node of the NFA-ε: the inner loop of
`getGoalNodesForDFA`. -/
def goalNodesForNode (cd : ConversionData) (node : Int) : Finset Int :=
  (cd.mapSetToDfaNode.entries.filterMap fun entry =>
    if node ∈ entry.1 then cd.mapSetToDfaNode.lookup entry.1 else none).toFinset

/-- `getGoalNodesForDFA`. -/
def getGoalNodesForDFA (cd : ConversionData) : ConversionData :=
  { cd with
    dfa := { cd.dfa with
      goalNodes := cd.dfa.goalNodes ∪ cd.nfaEpsilon.goalNodes.biUnion (goalNodesForNode cd) } }

/-- `getNextSetOfNodes`: the new value of `nextSetOfNodes`. -/
def getNextSetOfNodes (cd : ConversionData) (nextSetOfNodes currentSetOfNodes : Finset Int)
    (nextCharacter : Char) : Finset Int :=
  getEpsilonClosure
    (cd.nfaEpsilon.transitions.foldl
      (fun acc transition =>
        if transition.source ∈ currentSetOfNodes ∧ nextCharacter = transition.transitionChar then
          insert transition.destination acc
        else acc)
      nextSetOfNodes)
    cd.nfaEpsilon.transitions

/-- `getNextTransitionCharacters`: the new value of `nextTransitionChars`. -/
def getNextTransitionCharacters (cd : ConversionData) (nextTransitionChars : Finset Char)
    (currentSetOfNodes : Finset Int) : Finset Char :=
  cd.nfaEpsilon.transitions.foldl
    (fun acc transition =>
      if transition.source ∈ currentSetOfNodes ∧
          transition.transitionChar ≠ FiniteStateMachine.EPSILON then
        insert transition.transitionChar acc
      else acc)
    nextTransitionChars

/-- `getStartNodeForDFA`. -/
def getStartNodeForDFA (cd : ConversionData) : Option ConversionData :=
  let stateSet := getEpsilonClosure (insert cd.nfaEpsilon.startNode cd.stateSet)
    cd.nfaEpsilon.transitions
  let mapSetToDfaNode := cd.mapSetToDfaNode.assign stateSet cd.nodeNumber
  match mapSetToDfaNode.lookup stateSet with
  | none => none
  | some startNode =>
    some { cd with
      stateSet := stateSet
      pendingSetsOfNodes := cd.pendingSetsOfNodes ++ [stateSet]
      mapSetToDfaNode := mapSetToDfaNode
      dfa := { cd.dfa with nodes := insert cd.nodeNumber cd.dfa.nodes, startNode := startNode }
      nodeNumber := cd.nodeNumber + 1 }

/-- The `if` block of `processNextSetOfNodes`: a state-set without an entry in the map is queued
and mapped to a new node number. -/
def registerNextSetOfNodes (cd : ConversionData) (nextSetOfNodes : Finset Int) :
    ConversionData :=
  if cd.mapSetToDfaNode.lookup nextSetOfNodes = none then
    { cd with
      pendingSetsOfNodes := cd.pendingSetsOfNodes ++ [nextSetOfNodes]
      mapSetToDfaNode := cd.mapSetToDfaNode.assign nextSetOfNodes cd.nodeNumber
      dfa := { cd.dfa with nodes := insert cd.nodeNumber cd.dfa.nodes }
      nodeNumber := cd.nodeNumber + 1 }
  else cd

/-- `processNextSetOfNodes`. -/
def processNextSetOfNodes (cd : ConversionData) (currentSetOfNodes nextSetOfNodes : Finset Int)
    (nextCharacter : Char) : Option ConversionData :=
  let cd1 := registerNextSetOfNodes cd nextSetOfNodes
  match cd1.mapSetToDfaNode.lookup currentSetOfNodes,
      cd1.mapSetToDfaNode.lookup nextSetOfNodes with
  | some source, some destination =>
    some { cd1 with
      dfa := { cd1.dfa with
        transitions :=
          { source := source, transitionChar := nextCharacter, destination := destination } ::
            cd1.dfa.transitions } }
  | _, _ => none

/-- The loop of `processTransitionCharacters` over the characters still to visit, in the order
the set iterates them. -/
def processTransitionCharactersList (currentSetOfNodes : Finset Int) :
    List Char → ConversionData → Option ConversionData
  | [], cd => some cd
  | nextCharacter :: rest, cd =>
    match processNextSetOfNodes cd currentSetOfNodes
        (getNextSetOfNodes cd ∅ currentSetOfNodes nextCharacter) nextCharacter with
    | none => none
    | some cd1 => processTransitionCharactersList currentSetOfNodes rest cd1

/-- `processTransitionCharacters`. -/
def processTransitionCharacters (order : IterationOrder) (cd : ConversionData)
    (nextTransitionChars : Finset Char) (currentSetOfNodes : Finset Int) :
    Option ConversionData :=
  processTransitionCharactersList currentSetOfNodes
    (order.enumerate cd currentSetOfNodes nextTransitionChars) cd

/-- `processCurrentSetOfNodes`; it is called with a non-empty queue only. -/
def processCurrentSetOfNodes (order : IterationOrder) (cd : ConversionData) :
    Option ConversionData :=
  match cd.pendingSetsOfNodes with
  | [] => none
  | currentSetOfNodes :: rest =>
    let cd1 := { cd with pendingSetsOfNodes := rest }
    processTransitionCharacters order cd1 (getNextTransitionCharacters cd1 ∅ currentSetOfNodes)
      currentSetOfNodes

/-- The `while` loop of `convertNfaEpsilonToDfa` with a bound on the number of tests of the loop
condition; `none` when the bound is reached or a call throws. -/
def processPendingSets (order : IterationOrder) : Nat → ConversionData → Option ConversionData
  | 0, _ => none
  | fuel + 1, cd =>
    if cd.pendingSetsOfNodes = [] then some cd
    else
      match processCurrentSetOfNodes order cd with
      | none => none
      | some cd1 => processPendingSets order fuel cd1

/-- The bound given to the `while` loop: every iteration removes one queued state-set, and a
state-set is queued only when it is a set of transition destinations that has no entry in the
map yet. -/
def conversionFuel (cd : ConversionData) : Nat :=
  cd.pendingSetsOfNodes.length + 2 ^ cd.nfaEpsilon.transitions.length + 1

/-- `convertNfaEpsilonToDfa`: the returned machine and the new value of the global
`conversionData`; `none` when the call does not return. -/
def convertNfaEpsilonToDfa (order : IterationOrder) (conversionData : ConversionData)
    (inputNfaEpsilon : FiniteStateMachine) : Option (FiniteStateMachine × ConversionData) :=
  match getStartNodeForDFA { conversionData with nfaEpsilon := inputNfaEpsilon } with
  | none => none
  | some cd1 =>
    match processPendingSets order (conversionFuel cd1) cd1 with
    | none => none
    | some cd2 => some ((getGoalNodesForDFA cd2).dfa, getGoalNodesForDFA cd2)

/-! ## Specification notions -/

/-- The states reachable from a member of `states` by zero or more epsilon transitions. -/
inductive EpsilonReach (transitions : List Transition) (states : Finset Int) : Int → Prop
  | base {q : Int} : q ∈ states → EpsilonReach transitions states q
  | step {p q : Int} : EpsilonReach transitions states p →
      (∃ t ∈ transitions, t.source = p ∧ t.transitionChar = FiniteStateMachine.EPSILON ∧
        t.destination = q) →
      EpsilonReach transitions states q

/-- A state-set that no epsilon transition leaves. -/
def EpsilonClosed (transitions : List Transition) (states : Finset Int) : Prop :=
  ∀ t ∈ transitions, t.source ∈ states → t.transitionChar = FiniteStateMachine.EPSILON →
    t.destination ∈ states

/-- The destinations of all transitions. -/
def destinationSet (transitions : List Transition) : Finset Int :=
  (transitions.map Transition.destination).toFinset

/-- What a pass of an epsilon-closure loop has to satisfy for the recursion around it to compute
the epsilon-reachable states. -/
structure ClosurePass (ts : List Transition) (pass : Finset Int → Finset Int × Nat) : Prop where
  subset : ∀ s, s ⊆ (pass s).1
  reach : ∀ s, ∀ q ∈ (pass s).1, EpsilonReach ts s q
  closed : ∀ s, (pass s).2 = 0 → EpsilonClosed ts s
  fixed : ∀ s, (pass s).2 = 0 → (pass s).1 = s
  grows : ∀ s, 0 < (pass s).2 → ∃ q ∈ (pass s).1, q ∉ s

/-- The recursion shared by the two `getEpsilonClosure` functions. -/
def closureIterate (pass : Finset Int → Finset Int × Nat) :
    Nat → Finset Int → Option (Finset Int)
  | 0, _ => none
  | fuel + 1, states =>
    if (pass states).2 > 0 then closureIterate pass fuel (pass states).1
    else some (pass states).1

/-- The frontier of the non-deterministic recognizer after the characters of `consumed`, when
the simulation is continued without the short-circuit return. -/
def CompiledNfaEpsilon.frontierAfter (n : CompiledNfaEpsilon) (consumed : List Char) :
    Finset Int :=
  consumed.foldl (fun currentStates c => n.processNextCharacter c currentStates)
    (n.getEpsilonClosure (insert n.internalFiniteStateMachine.startNode ∅))

/-- The value of `currentState` in the deterministic recognizer after the characters of
`consumed`, when every character is processed. -/
def CompiledDfa.currentStateAfter (d : CompiledDfa) (consumed : List Char) : Int :=
  consumed.foldl (fun currentState c => d.processNextCharacter c currentState)
    d.internalFiniteStateMachine.startNode

/-- Following the transitions of a list from a state over the symbols of a string, in order:
`TableWalk ts p s q` when every step is defined and the state reached after the last symbol
is `q`. -/
inductive TableWalk (transitions : List Transition) : Int → List Char → Int → Prop
  | nil (p : Int) : TableWalk transitions p [] p
  | cons {p q r : Int} {c : Char} {rest : List Char} :
      (∃ t ∈ transitions, t.source = p ∧ t.transitionChar = c ∧ t.destination = q) →
      TableWalk transitions q rest r → TableWalk transitions p (c :: rest) r

/-- The (source, symbol) pair of a transition. -/
def Transition.pair (t : Transition) : TransitionPair := (t.source, t.transitionChar)

/-- The transitions have pairwise distinct (source, symbol) pairs. -/
def DistinctPairs (transitions : List Transition) : Prop :=
  (transitions.map Transition.pair).Nodup

instance (transitions : List Transition) : Decidable (DistinctPairs transitions) :=
  inferInstanceAs (Decidable (transitions.map Transition.pair).Nodup)

/-- The machine of the counterexample to unconditional rejection: the dead-state marker `-1`
is listed as a goal node. -/
def deadGoalMachine : FiniteStateMachine :=
  { nodes := {0, -1}, startNode := 0, goalNodes := {-1}, transitions := [] }

/-- A small deterministic machine: `0 -a-> 1`, goal `1`. -/
def smallDfaMachine : FiniteStateMachine :=
  { nodes := {0, 1}, startNode := 0, goalNodes := {1},
    transitions := [{ source := 0, transitionChar := 'a', destination := 1 }] }

/-- A small NFA-ε: `0 -ε-> 1`, `1 -a-> 2`, `2 -ε-> 0`, goal `2`. -/
def smallNfaMachine : FiniteStateMachine :=
  { nodes := {0, 1, 2}, startNode := 0, goalNodes := {2},
    transitions :=
      [{ source := 0, transitionChar := FiniteStateMachine.EPSILON, destination := 1 },
       { source := 1, transitionChar := 'a', destination := 2 },
       { source := 2, transitionChar := FiniteStateMachine.EPSILON, destination := 0 }] }

/-- Some transition of the machine leaves the state-set on the non-epsilon symbol `c`. -/
def HasSymbol (a : FiniteStateMachine) (states : Finset Int) (c : Char) : Prop :=
  c ≠ FiniteStateMachine.EPSILON ∧
    ∃ t ∈ a.transitions, t.source ∈ states ∧ t.transitionChar = c

/-- The subset-construction move: the frontier of the non-deterministic recognizer after one
symbol. -/
def subsetMove (a : FiniteStateMachine) (c : Char) (states : Finset Int) : Finset Int :=
  (CompiledNfaEpsilon.new a).processNextCharacter c states

/-- The pair of a state-set and a symbol is still to be processed: the state-set is queued, or
it is the one being processed and the symbol is still to be visited. -/
def Busy (cd : ConversionData) (current : Finset Int) (todo : List Char)
    (states : Finset Int) (c : Char) : Prop :=
  states ∈ cd.pendingSetsOfNodes ∨ (states = current ∧ c ∈ todo)

/-- The invariant of the conversion of `a`, while the state-set `current` is being processed and
the symbols `todo` are still to be visited (between two iterations of the `while` loop `todo`
is empty). -/
structure ConversionInvariant (a : FiniteStateMachine) (cd : ConversionData)
    (current : Finset Int) (todo : List Char) : Prop where
  nfa : cd.nfaEpsilon = a
  counter : 1 ≤ cd.nodeNumber
  idRange : ∀ s i, cd.mapSetToDfaNode.lookup s = some i → 1 ≤ i ∧ i < cd.nodeNumber
  idInj : ∀ s s' i, cd.mapSetToDfaNode.lookup s = some i →
    cd.mapSetToDfaNode.lookup s' = some i → s = s'
  nodes : ∀ i, i ∈ cd.dfa.nodes ↔ ∃ s, cd.mapSetToDfaNode.lookup s = some i
  pendingNodup : cd.pendingSetsOfNodes.Nodup
  pendingKnown : ∀ s ∈ cd.pendingSetsOfNodes, ∃ i, cd.mapSetToDfaNode.lookup s = some i
  currentKnown : todo ≠ [] →
    (∃ i, cd.mapSetToDfaNode.lookup current = some i) ∧ current ∉ cd.pendingSetsOfNodes
  todoNodup : todo.Nodup
  todoSymbols : ∀ c ∈ todo, HasSymbol a current c
  complete : ∀ s i c, cd.mapSetToDfaNode.lookup s = some i → HasSymbol a s c →
    ¬ Busy cd current todo s c →
    ∃ j, cd.mapSetToDfaNode.lookup (subsetMove a c s) = some j ∧
      { source := i, transitionChar := c, destination := j } ∈ cd.dfa.transitions
  sound : ∀ t ∈ cd.dfa.transitions, ∃ s, cd.mapSetToDfaNode.lookup s = some t.source ∧
    HasSymbol a s t.transitionChar ∧ ¬ Busy cd current todo s t.transitionChar ∧
    cd.mapSetToDfaNode.lookup (subsetMove a t.transitionChar s) = some t.destination
  distinct : DistinctPairs cd.dfa.transitions
  keyBound : ∀ s i, cd.mapSetToDfaNode.lookup s = some i →
    s.Nonempty ∧ s ⊆ insert a.startNode (destinationSet a.transitions)
  start : cd.mapSetToDfaNode.lookup (getEpsilonClosure (insert a.startNode ∅) a.transitions) =
    some cd.dfa.startNode
  noGoals : cd.dfa.goalNodes = ∅

/-- The sets of transition destinations that have no entry in the map yet. -/
def unseenSets (cd : ConversionData) : Finset (Finset Int) :=
  (destinationSet cd.nfaEpsilon.transitions).powerset.filter fun s =>
    cd.mapSetToDfaNode.lookup s = none

/-- The number of iterations the `while` loop can still make. -/
def conversionMeasure (cd : ConversionData) : Nat :=
  (unseenSets cd).card + cd.pendingSetsOfNodes.length

/-- What a finished conversion of `a` from the initial context establishes about the returned
machine `d` and the final map `m` from state-sets to node numbers. -/
structure ConversionResult (a d : FiniteStateMachine) (m : MapStatesToInt) : Prop where
  idPositive : ∀ s i, m.lookup s = some i → 1 ≤ i
  idInj : ∀ s s' i, m.lookup s = some i → m.lookup s' = some i → s = s'
  nodes : ∀ i, i ∈ d.nodes ↔ ∃ s, m.lookup s = some i
  complete : ∀ s i c, m.lookup s = some i → HasSymbol a s c →
    ∃ j, m.lookup (subsetMove a c s) = some j ∧
      { source := i, transitionChar := c, destination := j } ∈ d.transitions
  sound : ∀ t ∈ d.transitions, ∃ s, m.lookup s = some t.source ∧
    HasSymbol a s t.transitionChar ∧
    m.lookup (subsetMove a t.transitionChar s) = some t.destination
  distinct : DistinctPairs d.transitions
  keyBound : ∀ s i, m.lookup s = some i →
    s.Nonempty ∧ s ⊆ insert a.startNode (destinationSet a.transitions)
  start : m.lookup (getEpsilonClosure (insert a.startNode ∅) a.transitions) = some d.startNode
  goals : ∀ i, i ∈ d.goalNodes ↔ ∃ s, m.lookup s = some i ∧ ∃ q ∈ s, q ∈ a.goalNodes

/-- Well-formedness of a machine: the start node, the goal nodes and the endpoints of every
transition belong to `nodes`. -/
def FiniteStateMachine.WellFormed (m : FiniteStateMachine) : Prop :=
  m.startNode ∈ m.nodes ∧ m.goalNodes ⊆ m.nodes ∧
    ∀ t ∈ m.transitions, t.source ∈ m.nodes ∧ t.destination ∈ m.nodes

/-- Two successive calls of `convertNfaEpsilonToDfa` in one program run: the second call starts
from the value the first call left in the global `conversionData`. -/
def convertAfter (order : IterationOrder) (first second : FiniteStateMachine) :
    Option (FiniteStateMachine × ConversionData) :=
  match convertNfaEpsilonToDfa order ConversionData.initial first with
  | none => none
  | some result => convertNfaEpsilonToDfa order result.2 second

/-- A machine whose start node `1` has no transition: `0 -a-> 2`, goal `2`. It accepts no
string. -/
def unreachableGoalMachine : FiniteStateMachine :=
  { nodes := {0, 1, 2}, startNode := 1, goalNodes := {2},
    transitions := [{ source := 0, transitionChar := 'a', destination := 2 }] }

/-- The call returned the machine `d`. -/
def Returns (result : Option (FiniteStateMachine × ConversionData)) (d : FiniteStateMachine) :
    Prop :=
  ∃ cd, result = some (d, cd)

instance (result : Option (FiniteStateMachine × ConversionData)) (d : FiniteStateMachine) :
    Decidable (Returns result d) :=
  match result with
  | none => isFalse (fun h => by obtain ⟨_, h⟩ := h; cases h)
  | some r =>
    decidable_of_iff (r.1 = d)
      ⟨fun h => ⟨r.2, by rw [← h]⟩, fun h => by obtain ⟨_, h⟩ := h; cases h; rfl⟩

/-- The machine returned for `unreachableGoalMachine` when `smallDfaMachine` was converted
before it. -/
def staleConvertedMachine : FiniteStateMachine :=
  { nodes := {1, 2, 3, 4}, startNode := 3, goalNodes := {2, 4},
    transitions :=
      [{ source := 3, transitionChar := 'a', destination := 4 },
       { source := 1, transitionChar := 'a', destination := 2 }] }

/-- The machine returned for `unreachableGoalMachine` from the initial conversion context. -/
def freshConvertedMachine : FiniteStateMachine :=
  { nodes := {1}, startNode := 1, goalNodes := ∅, transitions := [] }

/-- The values the global `conversionData` can hold when a call of `convertNfaEpsilonToDfa`
starts: its initial value, or the value left by an earlier call that returned. -/
inductive ReachableContext : ConversionData → Prop
  | initial : ReachableContext ConversionData.initial
  | call {order : IterationOrder} {cd cd' : ConversionData} {a d : FiniteStateMachine} :
      ReachableContext cd → convertNfaEpsilonToDfa order cd a = some (d, cd') →
      ReachableContext cd'

/-- What holds of the global between two calls, whatever was converted before. -/
structure IdleContext (cd : ConversionData) : Prop where
  pendingEmpty : cd.pendingSetsOfNodes = []
  mapNodes : ∀ s i, cd.mapSetToDfaNode.lookup s = some i → i ∈ cd.dfa.nodes
  goalNodes : cd.dfa.goalNodes ⊆ cd.dfa.nodes
  transitions : ∀ t ∈ cd.dfa.transitions, t.source ∈ cd.dfa.nodes ∧
    t.destination ∈ cd.dfa.nodes ∧ t.transitionChar ≠ FiniteStateMachine.EPSILON

/-- The part of the conversion invariant that holds in every call, also when the global holds
the bookkeeping of earlier calls: lookups of queued state-sets succeed and the machine under
construction only mentions inserted nodes. -/
structure CallInvariant (a : FiniteStateMachine) (cd : ConversionData)
    (current : Finset Int) (todo : List Char) : Prop where
  nfa : cd.nfaEpsilon = a
  mapNodes : ∀ s i, cd.mapSetToDfaNode.lookup s = some i → i ∈ cd.dfa.nodes
  pendingKnown : ∀ s ∈ cd.pendingSetsOfNodes, ∃ i, cd.mapSetToDfaNode.lookup s = some i
  currentKnown : todo ≠ [] → ∃ i, cd.mapSetToDfaNode.lookup current = some i
  todoSymbols : ∀ c ∈ todo, c ≠ FiniteStateMachine.EPSILON
  startNode : cd.dfa.startNode ∈ cd.dfa.nodes
  goalNodes : cd.dfa.goalNodes ⊆ cd.dfa.nodes
  transitions : ∀ t ∈ cd.dfa.transitions, t.source ∈ cd.dfa.nodes ∧
    t.destination ∈ cd.dfa.nodes ∧ t.transitionChar ≠ FiniteStateMachine.EPSILON

/-- An order in which one pass of `CompiledNfaEpsilon::getEpsilonClosure` visits states: every
state present when the pass starts is visited, in any order, and states inserted during the pass
may be visited as well. -/
structure VisitOrder where
  visit : Finset Int → List Int
  visitsPresent : ∀ states, ∀ q ∈ states, q ∈ visit states

/-- The body of the outer `for` loop of `CompiledNfaEpsilon::getEpsilonClosure` for one visited
state, on the pair of `states` and `inserts`: every epsilon destination of the visited state
that is not yet in `states` is inserted and counted. -/
def CompiledNfaEpsilon.epsilonVisitStep (n : CompiledNfaEpsilon) (acc : Finset Int × Nat)
    (sourceState : Int) : Finset Int × Nat :=
  if sourceState ∈ acc.1 then
    (acc.1 ∪ n.destinationsOf (sourceState, FiniteStateMachine.EPSILON),
      acc.2 + (n.destinationsOf (sourceState, FiniteStateMachine.EPSILON) \ acc.1).card)
  else acc

/-- One execution of the `for` loop of `CompiledNfaEpsilon::getEpsilonClosure` that visits the
states in a given order and sees the insertions it makes. -/
def CompiledNfaEpsilon.epsilonPassVisiting (n : CompiledNfaEpsilon) (order : VisitOrder)
    (states : Finset Int) : Finset Int × Nat :=
  (order.visit states).foldl n.epsilonVisitStep (states, 0)

/-- `CompiledNfaEpsilon::getEpsilonClosure` with passes that visit the states in a given order,
with a bound on the depth of the recursion. -/
def CompiledNfaEpsilon.getEpsilonClosureVisitingFuel (n : CompiledNfaEpsilon)
    (order : VisitOrder) : Nat → Finset Int → Option (Finset Int)
  | 0, _ => none
  | fuel + 1, states =>
    let pass := n.epsilonPassVisiting order states
    if pass.2 > 0 then CompiledNfaEpsilon.getEpsilonClosureVisitingFuel n order fuel pass.1
    else some pass.1

/-- `CompiledNfaEpsilon::getEpsilonClosure` with passes that visit the states in a given
order. -/
def CompiledNfaEpsilon.getEpsilonClosureVisiting (n : CompiledNfaEpsilon) (order : VisitOrder)
    (states : Finset Int) : Finset Int :=
  (n.getEpsilonClosureVisitingFuel order
    (n.internalFiniteStateMachine.transitions.length + 1) states).getD states

/-- The visiting order that goes through the states present at the start in decreasing
order. -/
def VisitOrder.decreasing : VisitOrder where
  visit states := Quot.liftOn states.val (fun l => l.insertionSort (· ≥ ·))
    (fun _ _ h => List.eq_of_perm_of_sorted
      ((List.perm_insertionSort _ _).trans (h.trans (List.perm_insertionSort _ _).symm))
      (List.sorted_insertionSort _ _) (List.sorted_insertionSort _ _))
  visitsPresent states q hq := by
    obtain ⟨⟨l⟩, hl⟩ := states
    exact (List.perm_insertionSort _ l).mem_iff.mpr hq

/-- The destinations of the transitions of the machine on the symbol `c` with source in the
state-set. -/
def moveDestinations (a : FiniteStateMachine) (states : Finset Int) (c : Char) : Finset Int :=
  ((a.transitions.filter fun t => t.source ∈ states ∧ t.transitionChar = c).map
    Transition.destination).toFinset

/-- The state-sets the subset construction can discover: the epsilon-closure of the start node,
and the successor of such a set on a non-epsilon symbol that leaves it. -/
inductive SubsetReach (a : FiniteStateMachine) : Finset Int → Prop
  | start : SubsetReach a (getEpsilonClosure (insert a.startNode ∅) a.transitions)
  | move {states : Finset Int} {c : Char} : SubsetReach a states → HasSymbol a states c →
      SubsetReach a (subsetMove a c states)

/-- The state-sets that have an entry in the map. -/
def MapStatesToInt.keys (m : MapStatesToInt) : Finset (Finset Int) :=
  (m.entries.map Prod.fst).toFinset

/-- A control point of a conversion: the value of the global, the state-set taken from the queue
last and the characters of that state-set still to be visited (none between two iterations of the
`while` loop). -/
structure ConversionPoint where
  data : ConversionData
  current : Finset Int
  todo : List Char

/-- One step of the loops of `convertNfaEpsilonToDfa`: `processCurrentSetOfNodes` takes the
front of the queue and collects its characters, or `processTransitionCharacters` handles the
next character with a call of `processNextSetOfNodes`. -/
inductive ConversionStep (order : IterationOrder) : ConversionPoint → ConversionPoint → Prop
  | dequeue {cd : ConversionData} {x cur : Finset Int} {rest : List (Finset Int)} :
      cd.pendingSetsOfNodes = cur :: rest →
      ConversionStep order ⟨cd, x, []⟩
        ⟨{ cd with pendingSetsOfNodes := rest }, cur,
          order.enumerate { cd with pendingSetsOfNodes := rest } cur
            (getNextTransitionCharacters { cd with pendingSetsOfNodes := rest } ∅ cur)⟩
  | next {cd cd' : ConversionData} {cur : Finset Int} {c : Char} {todo : List Char} :
      processNextSetOfNodes cd cur (getNextSetOfNodes cd ∅ cur c) c = some cd' →
      ConversionStep order ⟨cd, cur, c :: todo⟩ ⟨cd', cur, todo⟩

/-- The control points a conversion of `a` from the initial context goes through, from the return
of `getStartNodeForDFA` to the exit of the `while` loop. -/
def ConversionPointOf (order : IterationOrder) (a : FiniteStateMachine)
    (p : ConversionPoint) : Prop :=
  ∃ cd1, getStartNodeForDFA { ConversionData.initial with nfaEpsilon := a } = some cd1 ∧
    Relation.ReflTransGen (ConversionStep order) ⟨cd1, ∅, []⟩ p

/-- One id per state-set: the map is injective, its image is the node set of the machine under
construction, and there are as many nodes as state-sets with an entry. -/
def OneIdPerSet (cd : ConversionData) : Prop :=
  (∀ s s' i, cd.mapSetToDfaNode.lookup s = some i → cd.mapSetToDfaNode.lookup s' = some i →
      s = s') ∧
    (∀ i, i ∈ cd.dfa.nodes ↔ ∃ s, cd.mapSetToDfaNode.lookup s = some i) ∧
    cd.dfa.nodes.card = cd.mapSetToDfaNode.keys.card

/-- The later context keeps every entry of the earlier one, and every entry it adds carries an
id the earlier context had not minted. -/
def ContextExtends (earlier later : ConversionData) : Prop :=
  earlier.nodeNumber ≤ later.nodeNumber ∧
    (∀ s i, earlier.mapSetToDfaNode.lookup s = some i →
      later.mapSetToDfaNode.lookup s = some i) ∧
    ∀ s j, later.mapSetToDfaNode.lookup s = some j →
      earlier.mapSetToDfaNode.lookup s = some j ∨ earlier.nodeNumber ≤ j

/-- The renaming of node ids between two maps from state-sets to ids: the id of a state-set in
the first map is sent to the id of the same state-set in the second map. -/
def renameNode (m m' : MapStatesToInt) (i : Int) : Int :=
  match m.entries.find? fun entry => entry.2 = i with
  | some entry => (m'.lookup entry.1).getD 0
  | none => 0

/-- The iteration order that visits the characters in decreasing order, whatever the state-set
being processed. -/
def IterationOrder.decreasing : IterationOrder where
  enumerate _ _ chars := Quot.liftOn chars.val (fun l => l.insertionSort (· ≥ ·))
    (fun _ _ h => List.eq_of_perm_of_sorted
      ((List.perm_insertionSort _ _).trans (h.trans (List.perm_insertionSort _ _).symm))
      (List.sorted_insertionSort _ _) (List.sorted_insertionSort _ _))
  nodup _ _ chars := by
    obtain ⟨⟨l⟩, hl⟩ := chars
    exact (List.perm_insertionSort _ l).nodup_iff.mpr hl
  mem_enumerate _ _ chars c := by
    obtain ⟨⟨l⟩, hl⟩ := chars
    exact (List.perm_insertionSort _ l).mem_iff

/-- The NFA-ε for `(ab*|b*c|a*c*)` built by `main`; every transition is added with
`push_front`, so the list is in the reverse of the order of the assignments. -/
def regexMachine : FiniteStateMachine :=
  { nodes := {0, 1, 2, 3, 4, 5, 6}, startNode := 0, goalNodes := {2, 4, 5, 6},
    transitions :=
      [{ source := 6, transitionChar := 'c', destination := 6 },
       { source := 5, transitionChar := FiniteStateMachine.EPSILON, destination := 6 },
       { source := 5, transitionChar := 'a', destination := 5 },
       { source := 0, transitionChar := FiniteStateMachine.EPSILON, destination := 5 },
       { source := 3, transitionChar := 'c', destination := 4 },
       { source := 3, transitionChar := 'b', destination := 3 },
       { source := 0, transitionChar := FiniteStateMachine.EPSILON, destination := 3 },
       { source := 2, transitionChar := 'b', destination := 2 },
       { source := 1, transitionChar := 'a', destination := 2 },
       { source := 0, transitionChar := FiniteStateMachine.EPSILON, destination := 1 }] }

/-- The positive cases of `main`. -/
def positiveStrings : List (List Char) :=
  ["".toList, "a".toList, "aaaaaaaaa".toList, "aaaaaaaaaccccccccc".toList, "aaaaaaaaac".toList,
   "ab".toList, "abbbbbbbbb".toList, "accccccccc".toList, "bbbbbbbbbc".toList, "bc".toList,
   "c".toList, "ccccccccc".toList]

/-- The negative cases of `main`. -/
def negativeStrings : List (List Char) :=
  ["aab".toList, "aba".toList, "aca".toList, "b".toList, "bbbbbbbbb".toList,
   "bbbbbbbbbcc".toList, "bcb".toList, "ca".toList, "cac".toList, "cb".toList]

/-- The machine returned for `regexMachine` from the initial conversion context when the
character sets are iterated in increasing order. -/
def regexConvertedMachine : FiniteStateMachine :=
  { nodes := {1, 2, 3, 4, 5, 6, 7, 8}, startNode := 1, goalNodes := {1, 2, 4, 5, 6, 7, 8},
    transitions :=
      [{ source := 7, transitionChar := 'c', destination := 7 },
       { source := 6, transitionChar := 'b', destination := 6 },
       { source := 5, transitionChar := 'c', destination := 7 },
       { source := 5, transitionChar := 'a', destination := 5 },
       { source := 4, transitionChar := 'c', destination := 7 },
       { source := 3, transitionChar := 'c', destination := 8 },
       { source := 3, transitionChar := 'b', destination := 3 },
       { source := 2, transitionChar := 'c', destination := 7 },
       { source := 2, transitionChar := 'b', destination := 6 },
       { source := 2, transitionChar := 'a', destination := 5 },
       { source := 1, transitionChar := 'c', destination := 4 },
       { source := 1, transitionChar := 'b', destination := 3 },
       { source := 1, transitionChar := 'a', destination := 2 }] }

/-- A machine whose epsilon transitions form a cycle and a self-loop: `0 -ε-> 1`, `1 -ε-> 0`,
`1 -ε-> 1`. -/
def epsilonCycleMachine : FiniteStateMachine :=
  { nodes := {0, 1}, startNode := 0, goalNodes := {1},
    transitions :=
      [{ source := 0, transitionChar := FiniteStateMachine.EPSILON, destination := 1 },
       { source := 1, transitionChar := FiniteStateMachine.EPSILON, destination := 0 },
       { source := 1, transitionChar := FiniteStateMachine.EPSILON, destination := 1 }] }

/-- A machine with two transitions for the pair `(0, 'a')`: `0 -a-> 1` then `0 -a-> 2`. -/
def duplicatePairMachine : FiniteStateMachine :=
  { nodes := {0, 1, 2}, startNode := 0, goalNodes := {2},
    transitions :=
      [{ source := 0, transitionChar := 'a', destination := 1 },
       { source := 0, transitionChar := 'a', destination := 2 }] }

instance (transitions : List Transition) (states : Finset Int) :
    Decidable (EpsilonClosed transitions states) :=
  inferInstanceAs (Decidable (∀ t ∈ transitions, t.source ∈ states →
    t.transitionChar = FiniteStateMachine.EPSILON → t.destination ∈ states))

/-- No state identifier of the machine is the dead-state marker `-1` of `CompiledDfa`: not a
member of `nodes`, not the start node, not a goal node, not an endpoint of a transition. -/
def NoDeadIdentifier (m : FiniteStateMachine) : Prop :=
  (-1 : Int) ∉ m.nodes ∧ m.startNode ≠ -1 ∧ (-1 : Int) ∉ m.goalNodes ∧
    ∀ t ∈ m.transitions, t.source ≠ -1 ∧ t.destination ≠ -1

instance (m : FiniteStateMachine) : Decidable (NoDeadIdentifier m) :=
  inferInstanceAs (Decidable ((-1 : Int) ∉ m.nodes ∧ m.startNode ≠ -1 ∧
    (-1 : Int) ∉ m.goalNodes ∧ ∀ t ∈ m.transitions, t.source ≠ -1 ∧ t.destination ≠ -1))

/-- The transitions of a list form a path from `p` to `q`: the first one leaves `p`, each one
leaves the state its predecessor enters, and the last one enters `q`; the empty list is a path
from a state to itself. -/
def IsPath : Int → List Transition → Int → Prop
  | p, [], q => p = q
  | p, t :: rest, q => t.source = p ∧ IsPath t.destination rest q

/-- The labels of a list of transitions, in order, with the epsilon labels deleted. -/
def pathLabels (path : List Transition) : List Char :=
  (path.map Transition.transitionChar).filter fun c => c ≠ FiniteStateMachine.EPSILON

/-- A deterministic machine with two transitions and a symbol without entry:
`0 -a-> 1`, `1 -b-> 0`, goal `1`. -/
def twoStepDfaMachine : FiniteStateMachine :=
  { nodes := {0, 1}, startNode := 0, goalNodes := {1},
    transitions := [{ source := 0, transitionChar := 'a', destination := 1 },
                    { source := 1, transitionChar := 'b', destination := 0 }] }

/-- The characters `getNextTransitionCharacters` inserts into `nextTransitionChars` for a
state-set, in the order of the calls of `insert` (a call for a character already present
included). -/
def insertedCharacters (cd : ConversionData) (currentSetOfNodes : Finset Int) : List Char :=
  (cd.nfaEpsilon.transitions.filter fun transition =>
    transition.source ∈ currentSetOfNodes ∧
      transition.transitionChar ≠ FiniteStateMachine.EPSILON).map Transition.transitionChar

/-- The iteration order that visits the characters of a state-set in the reverse of the order in
which `getNextTransitionCharacters` first inserted them: the order of a hash table that links
every new element at the head of its element list, when no two characters share a bucket. It
depends on the transition list and on the state-set, not only on the set of characters.
(Characters the scan did not insert are visited last, in increasing order; there are none when
the set is the one the scan filled.) -/
def IterationOrder.reverseInsertion : IterationOrder where
  enumerate cd currentSetOfNodes chars :=
    ((insertedCharacters cd currentSetOfNodes).reverse.dedup.filter fun c => c ∈ chars) ++
      IterationOrder.increasing.enumerate cd currentSetOfNodes
        (chars.filter fun c => c ∉ insertedCharacters cd currentSetOfNodes)
  nodup cd currentSetOfNodes chars := by
    rw [List.nodup_append]
    refine ⟨(List.nodup_dedup _).filter _, IterationOrder.increasing.nodup _ _ _, ?_⟩
    intro c h1 h2
    rw [IterationOrder.increasing.mem_enumerate, Finset.mem_filter] at h2
    have h3 := (List.mem_filter.mp h1).1
    rw [List.mem_dedup, List.mem_reverse] at h3
    exact h2.2 h3
  mem_enumerate cd currentSetOfNodes chars c := by
    rw [List.mem_append, IterationOrder.increasing.mem_enumerate, Finset.mem_filter,
      List.mem_filter, List.mem_dedup, List.mem_reverse]
    constructor
    · rintro (⟨_, h⟩ | ⟨h, _⟩)
      · exact of_decide_eq_true h
      · exact h
    · intro h
      by_cases hc : c ∈ insertedCharacters cd currentSetOfNodes
      · exact Or.inl ⟨hc, decide_eq_true h⟩
      · exact Or.inr ⟨h, hc⟩

/-- A machine on which two state-sets have the same characters inserted in different orders:
`0 -a-> 1`, `0 -b-> 2`, `1 -b-> 3`, `1 -a-> 4`, goal `3`. -/
def insertionHistoryMachine : FiniteStateMachine :=
  { nodes := {0, 1, 2, 3, 4}, startNode := 0, goalNodes := {3},
    transitions :=
      [{ source := 0, transitionChar := 'a', destination := 1 },
       { source := 0, transitionChar := 'b', destination := 2 },
       { source := 1, transitionChar := 'b', destination := 3 },
       { source := 1, transitionChar := 'a', destination := 4 }] }

/-- The machine returned for `insertionHistoryMachine` from the initial conversion context when
the characters of `{0}` are visited as `'b'`, `'a'` and those of `{1}` as `'a'`, `'b'`. -/
def insertionHistoryConvertedMachine : FiniteStateMachine :=
  { nodes := {1, 2, 3, 4, 5}, startNode := 1, goalNodes := {5},
    transitions :=
      [{ source := 3, transitionChar := 'b', destination := 5 },
       { source := 3, transitionChar := 'a', destination := 4 },
       { source := 1, transitionChar := 'a', destination := 3 },
       { source := 1, transitionChar := 'b', destination := 2 }] }

/-- The machine returned for `regexMachine` from the initial conversion context when the
characters of every state-set are visited in the reverse of the order of their insertion. -/
def regexReverseInsertionMachine : FiniteStateMachine :=
  { nodes := {1, 2, 3, 4, 5, 6, 7, 8}, startNode := 1, goalNodes := {1, 3, 4, 5, 6, 7, 8},
    transitions :=
      [{ source := 8, transitionChar := 'c', destination := 8 },
       { source := 7, transitionChar := 'c', destination := 8 },
       { source := 7, transitionChar := 'a', destination := 7 },
       { source := 6, transitionChar := 'b', destination := 6 },
       { source := 4, transitionChar := 'c', destination := 8 },
       { source := 3, transitionChar := 'c', destination := 8 },
       { source := 3, transitionChar := 'a', destination := 7 },
       { source := 3, transitionChar := 'b', destination := 6 },
       { source := 2, transitionChar := 'c', destination := 5 },
       { source := 2, transitionChar := 'b', destination := 2 },
       { source := 1, transitionChar := 'c', destination := 4 },
       { source := 1, transitionChar := 'a', destination := 3 },
       { source := 1, transitionChar := 'b', destination := 2 }] }

/-- The machine returned from the initial conversion context for `regexMachine` with its
transition list reversed, when the characters of every state-set are visited in the reverse of
the order of their insertion. -/
def regexReversedListMachine : FiniteStateMachine :=
  { nodes := {1, 2, 3, 4, 5, 6, 7, 8}, startNode := 1, goalNodes := {1, 2, 4, 5, 6, 7, 8},
    transitions :=
      [{ source := 8, transitionChar := 'b', destination := 8 },
       { source := 7, transitionChar := 'a', destination := 7 },
       { source := 7, transitionChar := 'c', destination := 5 },
       { source := 5, transitionChar := 'c', destination := 5 },
       { source := 4, transitionChar := 'b', destination := 8 },
       { source := 4, transitionChar := 'a', destination := 7 },
       { source := 4, transitionChar := 'c', destination := 5 },
       { source := 3, transitionChar := 'b', destination := 3 },
       { source := 3, transitionChar := 'c', destination := 6 },
       { source := 2, transitionChar := 'c', destination := 5 },
       { source := 1, transitionChar := 'a', destination := 4 },
       { source := 1, transitionChar := 'b', destination := 3 },
       { source := 1, transitionChar := 'c', destination := 2 }] }

/-- The value of the global inside `getStartNodeForDFA`, between the assignment
`mapSetToDfaNode[stateSet] = nodeNumber` and the statement `dfa.nodes.insert(nodeNumber++)`: the
start node has been inserted into `stateSet`, the closure has been taken, and the set has been
queued and mapped to `nodeNumber`. -/
def getStartNodeForDFAMapAssigned (cd : ConversionData) : ConversionData :=
  let stateSet := getEpsilonClosure (insert cd.nfaEpsilon.startNode cd.stateSet)
    cd.nfaEpsilon.transitions
  { cd with
    stateSet := stateSet
    pendingSetsOfNodes := cd.pendingSetsOfNodes ++ [stateSet]
    mapSetToDfaNode := cd.mapSetToDfaNode.assign stateSet cd.nodeNumber }

/-! # Proofs -/

/-! ## Epsilon closure -/

theorem EpsilonReach.mono {ts : List Transition} {s s' : Finset Int} {q : Int}
    (h : EpsilonReach ts s q) (hs : ∀ p ∈ s, EpsilonReach ts s' p) : EpsilonReach ts s' q := by
  induction h with
  | base hq => exact hs _ hq
  | step _ ht ih => exact EpsilonReach.step ih ht

theorem EpsilonReach.mem_of_closed {ts : List Transition} {s r : Finset Int} {q : Int}
    (h : EpsilonReach ts s q) (hs : s ⊆ r) (hr : EpsilonClosed ts r) : q ∈ r := by
  induction h with
  | base hq => exact hs hq
  | step _ ht ih =>
    obtain ⟨t, ht, hp, hc, hq⟩ := ht
    subst hp hq
    exact hr t ht ih hc

theorem EpsilonReach.mem_or_destination {ts : List Transition} {s : Finset Int} {q : Int}
    (h : EpsilonReach ts s q) : q ∈ s ∨ q ∈ destinationSet ts := by
  cases h with
  | base hq => exact Or.inl hq
  | step _ ht =>
    obtain ⟨t, ht, _, _, hq⟩ := ht
    exact Or.inr (by simpa [destinationSet] using ⟨t, ht, hq⟩)

theorem closureIterate_spec {ts : List Transition} {pass : Finset Int → Finset Int × Nat}
    (hp : ClosurePass ts pass) :
    ∀ (fuel : Nat) (s : Finset Int), (destinationSet ts \ s).card < fuel →
      ∃ r, closureIterate pass fuel s = some r ∧ s ⊆ r ∧ EpsilonClosed ts r ∧
        ∀ q ∈ r, EpsilonReach ts s q := by
  intro fuel
  induction fuel with
  | zero => intro s h; omega
  | succ fuel ih =>
    intro s h
    unfold closureIterate
    by_cases hk : (pass s).2 > 0
    · rw [if_pos hk]
      obtain ⟨q, hq, hqs⟩ := hp.grows s hk
      have hqd : q ∈ destinationSet ts := by
        rcases (hp.reach s q hq).mem_or_destination with h1 | h1
        · exact absurd h1 hqs
        · exact h1
      have hlt : (destinationSet ts \ (pass s).1).card < (destinationSet ts \ s).card := by
        apply Finset.card_lt_card
        refine ⟨fun x hx => ?_, fun hsub => ?_⟩
        · rw [Finset.mem_sdiff] at hx ⊢
          exact ⟨hx.1, fun hxs => hx.2 (hp.subset s hxs)⟩
        · have := hsub (Finset.mem_sdiff.mpr ⟨hqd, hqs⟩)
          exact (Finset.mem_sdiff.mp this).2 hq
      obtain ⟨r, hr, hsub, hcl, hreach⟩ := ih (pass s).1 (by omega)
      refine ⟨r, hr, (hp.subset s).trans hsub, hcl, fun x hx => ?_⟩
      exact (hreach x hx).mono (hp.reach s)
    · rw [if_neg hk]
      have hk0 : (pass s).2 = 0 := by omega
      refine ⟨(pass s).1, rfl, hp.subset s, ?_, hp.reach s⟩
      rw [hp.fixed s hk0]
      exact hp.closed s hk0

theorem destinationSet_card_le (ts : List Transition) (s : Finset Int) :
    (destinationSet ts \ s).card < ts.length + 1 := by
  have h1 : (destinationSet ts \ s).card ≤ (destinationSet ts).card :=
    Finset.card_le_card Finset.sdiff_subset
  have h2 : (destinationSet ts).card ≤ ts.length := by
    unfold destinationSet
    exact (List.toFinset_card_le _).trans (by simp)
  omega

theorem epsilonScan_fold_subset (ts : List Transition) :
    ∀ acc : Finset Int × Nat, acc.1 ⊆ (ts.foldl epsilonScanStep acc).1 := by
  induction ts with
  | nil => intro acc; exact Finset.Subset.refl _
  | cons t ts ih =>
    intro acc
    rw [List.foldl_cons]
    refine Finset.Subset.trans ?_ (ih _)
    unfold epsilonScanStep
    split
    · exact Finset.subset_insert _ _
    · exact Finset.Subset.refl _

theorem epsilonScan_fold_card (ts : List Transition) :
    ∀ acc : Finset Int × Nat,
      (ts.foldl epsilonScanStep acc).1.card + acc.2 = acc.1.card + (ts.foldl epsilonScanStep acc).2 := by
  induction ts with
  | nil => intro acc; simp
  | cons t ts ih =>
    intro acc
    rw [List.foldl_cons]
    have h := ih (epsilonScanStep acc t)
    unfold epsilonScanStep at h ⊢
    split at h
    · rename_i hc
      rw [if_pos hc]
      rw [Finset.card_insert_of_not_mem hc.2.2] at h
      simp only at h ⊢
      omega
    · rename_i hc
      rw [if_neg hc]
      exact h

theorem epsilonScan_fold_reach (ts0 : List Transition) (s : Finset Int) (ts : List Transition) :
    ∀ acc : Finset Int × Nat, (∀ t ∈ ts, t ∈ ts0) → (∀ q ∈ acc.1, EpsilonReach ts0 s q) →
      ∀ q ∈ (ts.foldl epsilonScanStep acc).1, EpsilonReach ts0 s q := by
  induction ts with
  | nil => intro acc _ h; exact h
  | cons t ts ih =>
    intro acc hts hacc
    rw [List.foldl_cons]
    apply ih _ (fun t' ht' => hts t' (List.mem_cons_of_mem _ ht'))
    unfold epsilonScanStep
    split
    · rename_i hc
      intro q hq
      rcases Finset.mem_insert.mp hq with h1 | h1
      · exact EpsilonReach.step (hacc _ hc.1) ⟨t, hts t (List.mem_cons_self _ _), rfl, hc.2.1, h1.symm⟩
      · exact hacc q h1
    · exact hacc

theorem epsilonScan_fold_closed (ts : List Transition) :
    ∀ acc : Finset Int × Nat, (ts.foldl epsilonScanStep acc).2 = acc.2 →
      ∀ t ∈ ts, t.source ∈ acc.1 → t.transitionChar = FiniteStateMachine.EPSILON →
        t.destination ∈ acc.1 := by
  induction ts with
  | nil => intro acc _ t ht; cases ht
  | cons t ts ih =>
    intro acc h
    rw [List.foldl_cons] at h
    have hcard := epsilonScan_fold_card ts (epsilonScanStep acc t)
    have hsub := epsilonScan_fold_subset ts (epsilonScanStep acc t)
    have hle := Finset.card_le_card hsub
    by_cases hc : t.source ∈ acc.1 ∧ t.transitionChar = FiniteStateMachine.EPSILON ∧
        t.destination ∉ acc.1
    · exfalso
      have hstep : epsilonScanStep acc t = (insert t.destination acc.1, acc.2 + 1) := by
        unfold epsilonScanStep; rw [if_pos hc]
      rw [hstep] at hcard hle h
      simp only at hcard hle
      omega
    · have hstep : epsilonScanStep acc t = acc := by
        unfold epsilonScanStep; rw [if_neg hc]
      rw [hstep] at h
      intro t' ht' hsrc hch
      rcases List.mem_cons.mp ht' with h1 | h1
      · subst h1
        by_contra hd
        exact hc ⟨hsrc, hch, hd⟩
      · exact ih acc h t' h1 hsrc hch

theorem epsilonScan_closurePass (ts : List Transition) :
    ClosurePass ts (fun s => epsilonScan s ts) where
  subset s := epsilonScan_fold_subset ts (s, 0)
  reach s := epsilonScan_fold_reach ts s ts (s, 0) (fun _ h => h) (fun _ h => EpsilonReach.base h)
  closed s h := epsilonScan_fold_closed ts (s, 0) h
  fixed s h := by
    have hcard := epsilonScan_fold_card ts (s, 0)
    have hsub := epsilonScan_fold_subset ts (s, 0)
    unfold epsilonScan at h ⊢
    simp only at hcard hsub h ⊢
    exact (Finset.eq_of_subset_of_card_le hsub (by omega)).symm
  grows s h := by
    have hcard := epsilonScan_fold_card ts (s, 0)
    have hsub := epsilonScan_fold_subset ts (s, 0)
    unfold epsilonScan at h ⊢
    simp only at hcard hsub h ⊢
    by_contra hne
    push_neg at hne
    have : (ts.foldl epsilonScanStep (s, 0)).1 ⊆ s := fun q hq => hne q hq
    have := Finset.card_le_card this
    omega

theorem getEpsilonClosureFuel_eq_closureIterate (ts : List Transition) :
    ∀ (fuel : Nat) (s : Finset Int),
      getEpsilonClosureFuel fuel s ts = closureIterate (fun s => epsilonScan s ts) fuel s := by
  intro fuel
  induction fuel with
  | zero => intro s; rfl
  | succ fuel ih =>
    intro s
    unfold getEpsilonClosureFuel closureIterate
    simp only [ih]

/-- The bound used by `getEpsilonClosure` is never reached, and the result is the least
epsilon-closed superset. -/
theorem getEpsilonClosure_spec (s : Finset Int) (ts : List Transition) :
    getEpsilonClosureFuel (ts.length + 1) s ts = some (getEpsilonClosure s ts) ∧
      s ⊆ getEpsilonClosure s ts ∧ EpsilonClosed ts (getEpsilonClosure s ts) ∧
      ∀ q ∈ getEpsilonClosure s ts, EpsilonReach ts s q := by
  obtain ⟨r, hr, h⟩ := closureIterate_spec (epsilonScan_closurePass ts) (ts.length + 1) s
    (destinationSet_card_le ts s)
  rw [← getEpsilonClosureFuel_eq_closureIterate] at hr
  have : getEpsilonClosure s ts = r := by
    unfold getEpsilonClosure
    rw [hr]
    rfl
  rw [this]
  exact ⟨hr, h⟩

theorem mem_getEpsilonClosure {s : Finset Int} {ts : List Transition} {q : Int} :
    q ∈ getEpsilonClosure s ts ↔ EpsilonReach ts s q := by
  obtain ⟨_, hsub, hcl, hreach⟩ := getEpsilonClosure_spec s ts
  exact ⟨hreach q, fun h => h.mem_of_closed hsub hcl⟩

/-! ## The table of the non-deterministic recognizer -/

theorem nfa_destinationsOf_add (m : FiniteStateMachine) (g : MapTransitionPairToDestinations)
    (t : Transition) (pair : TransitionPair) :
    CompiledNfaEpsilon.destinationsOf ⟨m, CompiledNfaEpsilon.addTransitionToGraph g t⟩ pair =
      if pair = (t.source, t.transitionChar) then
        insert t.destination (CompiledNfaEpsilon.destinationsOf ⟨m, g⟩ pair)
      else CompiledNfaEpsilon.destinationsOf ⟨m, g⟩ pair := by
  unfold CompiledNfaEpsilon.destinationsOf CompiledNfaEpsilon.addTransitionToGraph
  by_cases h : pair = (t.source, t.transitionChar)
  · subst h
    simp only [Function.update_same, if_true]
  · simp only [Function.update_noteq h, if_neg h]

theorem nfa_mem_destinationsOf_fold (m : FiniteStateMachine) (ts : List Transition) :
    ∀ (g : MapTransitionPairToDestinations) (q : Int) (c : Char) (d : Int),
      d ∈ CompiledNfaEpsilon.destinationsOf
          ⟨m, ts.foldl CompiledNfaEpsilon.addTransitionToGraph g⟩ (q, c) ↔
        d ∈ CompiledNfaEpsilon.destinationsOf ⟨m, g⟩ (q, c) ∨
          ∃ t ∈ ts, t.source = q ∧ t.transitionChar = c ∧ t.destination = d := by
  induction ts with
  | nil => intro g q c d; simp
  | cons t ts ih =>
    intro g q c d
    rw [List.foldl_cons, ih, nfa_destinationsOf_add]
    by_cases h : (q, c) = (t.source, t.transitionChar)
    · rw [if_pos h, Finset.mem_insert]
      obtain ⟨hq, hc⟩ := Prod.mk.inj h
      constructor
      · rintro ((h1 | h1) | ⟨t', ht', h2⟩)
        · exact Or.inr ⟨t, List.mem_cons_self _ _, hq.symm, hc.symm, h1.symm⟩
        · exact Or.inl h1
        · exact Or.inr ⟨t', List.mem_cons_of_mem _ ht', h2⟩
      · rintro (h1 | ⟨t', ht', h2⟩)
        · exact Or.inl (Or.inr h1)
        · rcases List.mem_cons.mp ht' with h3 | h3
          · subst h3
            exact Or.inl (Or.inl h2.2.2.symm)
          · exact Or.inr ⟨t', h3, h2⟩
    · rw [if_neg h]
      constructor
      · rintro (h1 | ⟨t', ht', h2⟩)
        · exact Or.inl h1
        · exact Or.inr ⟨t', List.mem_cons_of_mem _ ht', h2⟩
      · rintro (h1 | ⟨t', ht', h2⟩)
        · exact Or.inl h1
        · rcases List.mem_cons.mp ht' with h3 | h3
          · subst h3
            exact absurd (by rw [h2.1, h2.2.1]) h
          · exact Or.inr ⟨t', h3, h2⟩

/-- The compiled table of the non-deterministic recognizer stores, for a pair, the destinations
of the transitions with that source and character. -/
theorem nfa_mem_destinationsOf (m : FiniteStateMachine) (q : Int) (c : Char) (d : Int) :
    d ∈ (CompiledNfaEpsilon.new m).destinationsOf (q, c) ↔
      ∃ t ∈ m.transitions, t.source = q ∧ t.transitionChar = c ∧ t.destination = d := by
  unfold CompiledNfaEpsilon.new
  rw [nfa_mem_destinationsOf_fold]
  simp [CompiledNfaEpsilon.destinationsOf]

theorem nfa_epsilonPass_closurePass (m : FiniteStateMachine) :
    ClosurePass m.transitions (CompiledNfaEpsilon.new m).epsilonPass where
  subset s := Finset.subset_union_left
  reach s q hq := by
    unfold CompiledNfaEpsilon.epsilonPass at hq
    rcases Finset.mem_union.mp hq with h | h
    · exact EpsilonReach.base h
    · obtain ⟨p, hp, hd⟩ := Finset.mem_biUnion.mp h
      exact EpsilonReach.step (EpsilonReach.base hp) ((nfa_mem_destinationsOf m p _ q).mp hd)
  closed s h := by
    unfold CompiledNfaEpsilon.epsilonPass at h
    simp only [Finset.card_eq_zero, Finset.sdiff_eq_empty_iff_subset] at h
    intro t ht hsrc hch
    apply h
    exact Finset.mem_biUnion.mpr ⟨t.source, hsrc,
      (nfa_mem_destinationsOf m _ _ _).mpr ⟨t, ht, rfl, hch, rfl⟩⟩
  fixed s h := by
    unfold CompiledNfaEpsilon.epsilonPass at h ⊢
    simp only [Finset.card_eq_zero, Finset.sdiff_eq_empty_iff_subset] at h
    exact Finset.union_eq_left.mpr h
  grows s h := by
    unfold CompiledNfaEpsilon.epsilonPass at h ⊢
    simp only [Finset.card_pos] at h
    obtain ⟨q, hq⟩ := h
    rw [Finset.mem_sdiff] at hq
    exact ⟨q, Finset.mem_union_right _ hq.1, hq.2⟩

theorem nfa_getEpsilonClosureFuel_eq_closureIterate (n : CompiledNfaEpsilon) :
    ∀ (fuel : Nat) (s : Finset Int),
      n.getEpsilonClosureFuel fuel s = closureIterate n.epsilonPass fuel s := by
  intro fuel
  induction fuel with
  | zero => intro s; rfl
  | succ fuel ih =>
    intro s
    unfold CompiledNfaEpsilon.getEpsilonClosureFuel closureIterate
    simp only [ih]

/-- The bound used by `CompiledNfaEpsilon::getEpsilonClosure` is never reached, and the result
is the least epsilon-closed superset. -/
theorem nfa_getEpsilonClosure_spec (m : FiniteStateMachine) (s : Finset Int) :
    (CompiledNfaEpsilon.new m).getEpsilonClosureFuel (m.transitions.length + 1) s =
        some ((CompiledNfaEpsilon.new m).getEpsilonClosure s) ∧
      s ⊆ (CompiledNfaEpsilon.new m).getEpsilonClosure s ∧
      EpsilonClosed m.transitions ((CompiledNfaEpsilon.new m).getEpsilonClosure s) ∧
      ∀ q ∈ (CompiledNfaEpsilon.new m).getEpsilonClosure s, EpsilonReach m.transitions s q := by
  obtain ⟨r, hr, h⟩ := closureIterate_spec (nfa_epsilonPass_closurePass m)
    (m.transitions.length + 1) s (destinationSet_card_le m.transitions s)
  rw [← nfa_getEpsilonClosureFuel_eq_closureIterate] at hr
  have : (CompiledNfaEpsilon.new m).getEpsilonClosure s = r := by
    unfold CompiledNfaEpsilon.getEpsilonClosure
    show (Option.getD ((CompiledNfaEpsilon.new m).getEpsilonClosureFuel
      (m.transitions.length + 1) s) s) = r
    rw [hr]
    rfl
  rw [this]
  exact ⟨hr, h⟩

theorem nfa_mem_getEpsilonClosure {m : FiniteStateMachine} {s : Finset Int} {q : Int} :
    q ∈ (CompiledNfaEpsilon.new m).getEpsilonClosure s ↔ EpsilonReach m.transitions s q := by
  obtain ⟨_, hsub, hcl, hreach⟩ := nfa_getEpsilonClosure_spec m s
  exact ⟨hreach q, fun h => h.mem_of_closed hsub hcl⟩

/-- The two epsilon-closure functions compute the same set. -/
theorem nfa_getEpsilonClosure_eq (m : FiniteStateMachine) (s : Finset Int) :
    (CompiledNfaEpsilon.new m).getEpsilonClosure s = getEpsilonClosure s m.transitions := by
  ext q
  rw [nfa_mem_getEpsilonClosure, mem_getEpsilonClosure]

theorem getEpsilonClosure_empty (ts : List Transition) : getEpsilonClosure ∅ ts = ∅ := by
  ext q
  rw [mem_getEpsilonClosure]
  constructor
  · intro h
    induction h with
    | base hq => exact hq
    | step _ _ ih => simp at ih
  · intro h; simp at h

theorem subset_getEpsilonClosure (s : Finset Int) (ts : List Transition) :
    s ⊆ getEpsilonClosure s ts :=
  (getEpsilonClosure_spec s ts).2.1

/-! ## The non-deterministic recognizer -/

theorem nfa_processNextCharacter_eq (m : FiniteStateMachine) (c : Char) (s : Finset Int) :
    (CompiledNfaEpsilon.new m).processNextCharacter c s =
      getEpsilonClosure
        (s.biUnion fun q => (CompiledNfaEpsilon.new m).destinationsOf (q, c)) m.transitions := by
  unfold CompiledNfaEpsilon.processNextCharacter
  rw [nfa_getEpsilonClosure_eq]

theorem nfa_processNextCharacter_empty (m : FiniteStateMachine) (c : Char) :
    (CompiledNfaEpsilon.new m).processNextCharacter c ∅ = ∅ := by
  rw [nfa_processNextCharacter_eq, Finset.biUnion_empty, getEpsilonClosure_empty]

theorem nfa_foldl_empty (m : FiniteStateMachine) (s : List Char) :
    s.foldl (fun f c => (CompiledNfaEpsilon.new m).processNextCharacter c f) ∅ = ∅ := by
  induction s with
  | nil => rfl
  | cons c rest ih => rw [List.foldl_cons, nfa_processNextCharacter_empty, ih]

theorem nfa_isGoalState_empty (n : CompiledNfaEpsilon) : n.isGoalState ∅ = false := by
  simp [CompiledNfaEpsilon.isGoalState]

/-- The short-circuit return of the loop gives the answer of the full simulation. -/
theorem nfa_isRecognizedFrom_eq (m : FiniteStateMachine) (s : List Char) :
    ∀ f : Finset Int, (CompiledNfaEpsilon.new m).isRecognizedFrom s f =
      (CompiledNfaEpsilon.new m).isGoalState
        (s.foldl (fun f c => (CompiledNfaEpsilon.new m).processNextCharacter c f) f) := by
  induction s with
  | nil => intro f; rfl
  | cons c rest ih =>
    intro f
    unfold CompiledNfaEpsilon.isRecognizedFrom
    by_cases hf : f = ∅
    · subst hf
      rw [if_pos rfl, nfa_foldl_empty, nfa_isGoalState_empty]
    · rw [if_neg hf, ih, List.foldl_cons]

theorem nfa_isRecognized_eq (m : FiniteStateMachine) (s : List Char) :
    (CompiledNfaEpsilon.new m).isRecognized s =
      (CompiledNfaEpsilon.new m).isGoalState ((CompiledNfaEpsilon.new m).frontierAfter s) := by
  unfold CompiledNfaEpsilon.isRecognized CompiledNfaEpsilon.frontierAfter
  exact nfa_isRecognizedFrom_eq m s _

/-- C10: if the frontier of the non-deterministic recognizer is empty after a prefix of the
string (the whole string included), `isRecognized` returns false; and the short-circuit return
gives the same answer as continuing the simulation to the end of the string. -/
theorem nfa_empty_frontier_rejects (m : FiniteStateMachine) (consumed rest : List Char) :
    ((CompiledNfaEpsilon.new m).frontierAfter consumed = ∅ →
        (CompiledNfaEpsilon.new m).isRecognized (consumed ++ rest) = false) ∧
      (CompiledNfaEpsilon.new m).isRecognized (consumed ++ rest) =
        (CompiledNfaEpsilon.new m).isGoalState
          ((CompiledNfaEpsilon.new m).frontierAfter (consumed ++ rest)) := by
  refine ⟨fun h => ?_, nfa_isRecognized_eq m _⟩
  rw [nfa_isRecognized_eq]
  unfold CompiledNfaEpsilon.frontierAfter at h ⊢
  rw [List.foldl_append, h, nfa_foldl_empty, nfa_isGoalState_empty]

/-- An instance of `nfa_empty_frontier_rejects`: on `smallNfaMachine` the frontier is empty after
`"ab"`, and `"aba"` is rejected. -/
theorem nfa_empty_frontier_rejects_witness :
    (CompiledNfaEpsilon.new smallNfaMachine).frontierAfter ['a', 'b'] = ∅ ∧
      (CompiledNfaEpsilon.new smallNfaMachine).isRecognized (['a', 'b'] ++ ['a']) = false :=
  ⟨by decide, (nfa_empty_frontier_rejects smallNfaMachine ['a', 'b'] ['a']).1 (by decide)⟩

/-! ## The deterministic recognizer -/

theorem dfa_fold_of_not_mem (ts : List Transition) (p : TransitionPair) :
    ∀ g : MapTransitionPairToDestination, (∀ t ∈ ts, t.pair ≠ p) →
      ts.foldl CompiledDfa.addTransitionToGraph g p = g p := by
  induction ts with
  | nil => intro g _; rfl
  | cons t ts ih =>
    intro g h
    rw [List.foldl_cons, ih _ (fun t' ht' => h t' (List.mem_cons_of_mem _ ht'))]
    unfold CompiledDfa.addTransitionToGraph
    exact Function.update_noteq (fun hp => h t (List.mem_cons_self _ _) hp.symm) _ _

theorem dfa_fold_some (ts : List Transition) (p : TransitionPair) (d : Int) :
    ∀ g : MapTransitionPairToDestination,
      ts.foldl CompiledDfa.addTransitionToGraph g p = some d →
        g p = some d ∨ ∃ t ∈ ts, t.pair = p ∧ t.destination = d := by
  induction ts with
  | nil => intro g h; exact Or.inl h
  | cons t ts ih =>
    intro g h
    rw [List.foldl_cons] at h
    rcases ih _ h with h1 | ⟨t', ht', h1⟩
    · unfold CompiledDfa.addTransitionToGraph at h1
      by_cases hp : p = (t.source, t.transitionChar)
      · subst hp
        rw [Function.update_same] at h1
        exact Or.inr ⟨t, List.mem_cons_self _ _, rfl, Option.some.inj h1⟩
      · rw [Function.update_noteq hp] at h1
        exact Or.inl h1
    · exact Or.inr ⟨t', List.mem_cons_of_mem _ ht', h1⟩

theorem dfa_fold_of_mem (ts : List Transition) :
    ∀ g : MapTransitionPairToDestination, DistinctPairs ts → ∀ t ∈ ts,
      ts.foldl CompiledDfa.addTransitionToGraph g t.pair = some t.destination := by
  induction ts with
  | nil => intro g _ t ht; cases ht
  | cons t0 ts ih =>
    intro g hd t ht
    unfold DistinctPairs at hd
    rw [List.map_cons, List.nodup_cons] at hd
    rw [List.foldl_cons]
    rcases List.mem_cons.mp ht with h | h
    · subst h
      rw [dfa_fold_of_not_mem]
      · unfold CompiledDfa.addTransitionToGraph
        exact Function.update_same _ _ _
      · intro t' ht' hp
        exact hd.1 (List.mem_map.mpr ⟨t', ht', hp⟩)
    · exact ih _ hd.2 t h

/-- An entry of the compiled table comes from a transition of the machine. -/
theorem dfaGraph_some (m : FiniteStateMachine) (p : TransitionPair) (d : Int)
    (h : (CompiledDfa.new m).dfaGraph p = some d) :
    ∃ t ∈ m.transitions, t.pair = p ∧ t.destination = d := by
  rcases dfa_fold_some m.transitions p d _ h with h1 | h1
  · cases h1
  · exact h1

/-- Under distinct (source, symbol) pairs every transition is the entry of its pair. -/
theorem dfaGraph_of_mem (m : FiniteStateMachine) (hd : DistinctPairs m.transitions)
    (t : Transition) (ht : t ∈ m.transitions) :
    (CompiledDfa.new m).dfaGraph t.pair = some t.destination :=
  dfa_fold_of_mem m.transitions _ hd t ht

theorem dfaGraph_none (m : FiniteStateMachine) (p : TransitionPair)
    (h : ∀ t ∈ m.transitions, t.pair ≠ p) : (CompiledDfa.new m).dfaGraph p = none :=
  dfa_fold_of_not_mem m.transitions p _ h

theorem dfa_isRecognizedFrom_cons (d : CompiledDfa) (c : Char) (rest : List Char) (q : Int) :
    d.isRecognizedFrom (c :: rest) q =
      if q = -1 then false else d.isRecognizedFrom rest (d.processNextCharacter c q) := rfl

theorem dfa_processNextCharacter_none (d : CompiledDfa) (c : Char) (q : Int)
    (h : d.dfaGraph (q, c) = none) : d.processNextCharacter c q = -1 := by
  unfold CompiledDfa.processNextCharacter
  rw [h]

theorem dfa_processNextCharacter_some (d : CompiledDfa) (c : Char) (q r : Int)
    (h : d.dfaGraph (q, c) = some r) : d.processNextCharacter c q = r := by
  unfold CompiledDfa.processNextCharacter
  rw [h]

theorem dfa_isRecognizedFrom_dead (d : CompiledDfa)
    (s : List Char) (h : -1 ∉ d.internalFiniteStateMachine.goalNodes ∨ s ≠ []) :
    d.isRecognizedFrom s (-1) = false := by
  cases s with
  | nil =>
    rcases h with h | h
    · simpa [CompiledDfa.isRecognizedFrom, CompiledDfa.isGoalState] using h
    · exact absurd rfl h
  | cons c rest => simp [CompiledDfa.isRecognizedFrom]

theorem dfa_isRecognizedFrom_append (d : CompiledDfa) (pre : List Char) :
    ∀ (q : Int) (post : List Char), d.isRecognizedFrom (pre ++ post) q = false ∨
      d.isRecognizedFrom (pre ++ post) q =
        d.isRecognizedFrom post (pre.foldl (fun q c => d.processNextCharacter c q) q) := by
  induction pre with
  | nil => intro q post; exact Or.inr rfl
  | cons c pre ih =>
    intro q post
    rw [List.cons_append, List.foldl_cons, dfa_isRecognizedFrom_cons]
    by_cases hq : q = -1
    · rw [if_pos hq]; exact Or.inl rfl
    · rw [if_neg hq]; exact ih _ post

/-- Rejection after a missing entry does not hold for every machine: on `deadGoalMachine` the
table has no entry for the start state and `'a'`, and the one-character string `"a"` is
accepted. -/
theorem dfa_missing_transition_accepts_when_dead_is_goal :
    ¬ ∀ (m : FiniteStateMachine) (consumed : List Char) (c : Char) (rest : List Char),
        (CompiledDfa.new m).dfaGraph ((CompiledDfa.new m).currentStateAfter consumed, c) = none →
          (CompiledDfa.new m).isRecognized (consumed ++ c :: rest) = false := by
  intro h
  have h1 := h deadGoalMachine [] 'a' [] (by decide)
  revert h1
  decide

/-- If at some position of the string the table has no entry for the current state and the
symbol, `isRecognized` returns false, provided `-1` is not a goal node or the missing entry is
not met on the last symbol. -/
theorem dfa_missing_transition_rejects (m : FiniteStateMachine) (consumed : List Char)
    (c : Char) (rest : List Char)
    (hmissing : (CompiledDfa.new m).dfaGraph
      ((CompiledDfa.new m).currentStateAfter consumed, c) = none)
    (hdead : -1 ∉ m.goalNodes ∨ rest ≠ []) :
    (CompiledDfa.new m).isRecognized (consumed ++ c :: rest) = false := by
  unfold CompiledDfa.isRecognized
  rcases dfa_isRecognizedFrom_append (CompiledDfa.new m) consumed
    (CompiledDfa.new m).internalFiniteStateMachine.startNode (c :: rest) with h | h
  · exact h
  · unfold CompiledDfa.currentStateAfter at hmissing
    rw [h, dfa_isRecognizedFrom_cons]
    split
    · rfl
    · rw [dfa_processNextCharacter_none _ _ _ hmissing]
      exact dfa_isRecognizedFrom_dead _ rest hdead

/-- An instance of `dfa_missing_transition_rejects`: on `smallDfaMachine` the table has no entry
for the state reached after `"a"` and the symbol `'a'`, met on the last symbol of `"aa"`. -/
theorem dfa_missing_transition_rejects_witness :
    (CompiledDfa.new smallDfaMachine).dfaGraph
        ((CompiledDfa.new smallDfaMachine).currentStateAfter ['a'], 'a') = none ∧
      (-1 ∉ smallDfaMachine.goalNodes ∨ ([] : List Char) ≠ []) ∧
      (CompiledDfa.new smallDfaMachine).isRecognized (['a'] ++ 'a' :: []) = false :=
  ⟨by decide, Or.inl (by decide),
    dfa_missing_transition_rejects smallDfaMachine ['a'] 'a' [] (by decide)
      (Or.inl (by decide))⟩

/-- C9 fails on the code: the dead state is the in-band value `-1`, tested only at the top of
the loop. `deadGoalMachine` is a valid deterministic machine (no epsilon transition, distinct
(source, symbol) pairs) that lists `-1` as a goal node; its table has no entry for the start
state and `'a'` and no walk from its start state spells `"a"`, yet `isRecognized` accepts `"a"`,
while it rejects `"ab"`, where the same missing entry is followed by one more symbol. -/
theorem dfa_dead_marker_accepted :
    (∀ t ∈ deadGoalMachine.transitions, t.transitionChar ≠ FiniteStateMachine.EPSILON) ∧
      DistinctPairs deadGoalMachine.transitions ∧
      (CompiledDfa.new deadGoalMachine).dfaGraph
        ((CompiledDfa.new deadGoalMachine).currentStateAfter [], 'a') = none ∧
      (∀ q, ¬ TableWalk deadGoalMachine.transitions deadGoalMachine.startNode ['a'] q) ∧
      (CompiledDfa.new deadGoalMachine).isRecognized ['a'] = true ∧
      (CompiledDfa.new deadGoalMachine).isRecognized ['a', 'b'] = false := by
  refine ⟨by decide, by decide, by decide, ?_, by decide, by decide⟩
  intro q h
  cases h with
  | cons hstep _ =>
    obtain ⟨t, ht, _⟩ := hstep
    cases ht

theorem tableWalk_nil_iff (ts : List Transition) (p q : Int) :
    TableWalk ts p [] q ↔ q = p := by
  constructor
  · intro h; cases h; rfl
  · intro h; subst h; exact TableWalk.nil _

theorem tableWalk_cons_iff (ts : List Transition) (p r : Int) (c : Char) (rest : List Char) :
    TableWalk ts p (c :: rest) r ↔
      ∃ q, (∃ t ∈ ts, t.source = p ∧ t.transitionChar = c ∧ t.destination = q) ∧
        TableWalk ts q rest r := by
  constructor
  · intro h
    cases h with
    | cons ht hw => exact ⟨_, ht, hw⟩
  · rintro ⟨q, ht, hw⟩
    exact TableWalk.cons ht hw

theorem dfa_isRecognizedFrom_iff_walk (m : FiniteStateMachine) (hgoal : -1 ∉ m.goalNodes)
    (hends : ∀ t ∈ m.transitions, t.source ≠ -1 ∧ t.destination ≠ -1)
    (hdet : DistinctPairs m.transitions) (s : List Char) :
    ∀ p : Int, p ≠ -1 → ((CompiledDfa.new m).isRecognizedFrom s p = true ↔
      ∃ q, TableWalk m.transitions p s q ∧ q ∈ m.goalNodes) := by
  induction s with
  | nil =>
    intro p _
    simp only [CompiledDfa.isRecognizedFrom, CompiledDfa.isGoalState, decide_eq_true_eq,
      tableWalk_nil_iff, exists_eq_left]
    rfl
  | cons c rest ih =>
    intro p hp
    rw [dfa_isRecognizedFrom_cons, if_neg hp]
    simp only [tableWalk_cons_iff]
    cases hg : (CompiledDfa.new m).dfaGraph (p, c) with
    | none =>
      rw [dfa_processNextCharacter_none _ _ _ hg,
        dfa_isRecognizedFrom_dead _ rest (Or.inl hgoal)]
      constructor
      · intro h; cases h
      rintro ⟨_, ⟨q, ⟨t, ht, hsrc, hch, _⟩, _⟩, _⟩
      have := dfaGraph_of_mem m hdet t ht
      unfold Transition.pair at this
      rw [hsrc, hch, hg] at this
      cases this
    | some d =>
      rw [dfa_processNextCharacter_some _ _ _ _ hg]
      obtain ⟨t, ht, htp, htd⟩ := dfaGraph_some m _ _ hg
      have hd : d ≠ -1 := htd ▸ (hends t ht).2
      rw [ih d hd]
      constructor
      · rintro ⟨q, hw, hq⟩
        refine ⟨q, ⟨d, ⟨t, ht, ?_, ?_, htd⟩, hw⟩, hq⟩
        · exact (Prod.mk.inj htp).1
        · exact (Prod.mk.inj htp).2
      · rintro ⟨q, ⟨q', ⟨t', ht', hsrc, hch, hdst⟩, hw⟩, hq⟩
        have := dfaGraph_of_mem m hdet t' ht'
        unfold Transition.pair at this
        rw [hsrc, hch, hg, hdst] at this
        rw [Option.some.inj this]
        exact ⟨q, hw, hq⟩

/-- C8: for a machine in which `-1` is not a state identifier and whose transitions have pairwise
distinct (source, symbol) pairs, `CompiledDfa::isRecognized` is true iff following the transitions
from `startNode` over the symbols of the string is defined at every step and ends in a goal
node. -/
theorem dfa_isRecognized_iff_tableWalk (m : FiniteStateMachine) (s : List Char)
    (hstart : m.startNode ≠ -1) (hgoal : -1 ∉ m.goalNodes)
    (hends : ∀ t ∈ m.transitions, t.source ≠ -1 ∧ t.destination ≠ -1)
    (hdet : DistinctPairs m.transitions) :
    (CompiledDfa.new m).isRecognized s = true ↔
      ∃ q, TableWalk m.transitions m.startNode s q ∧ q ∈ m.goalNodes :=
  dfa_isRecognizedFrom_iff_walk m hgoal hends hdet s m.startNode hstart

/-- An instance of `dfa_isRecognized_iff_tableWalk` on `smallDfaMachine` and `"a"`. -/
theorem dfa_isRecognized_iff_tableWalk_witness :
    smallDfaMachine.startNode ≠ -1 ∧ -1 ∉ smallDfaMachine.goalNodes ∧
      (∀ t ∈ smallDfaMachine.transitions, t.source ≠ -1 ∧ t.destination ≠ -1) ∧
      DistinctPairs smallDfaMachine.transitions ∧
      ((CompiledDfa.new smallDfaMachine).isRecognized ['a'] = true ↔
        ∃ q, TableWalk smallDfaMachine.transitions smallDfaMachine.startNode ['a'] q ∧
          q ∈ smallDfaMachine.goalNodes) :=
  ⟨by decide, by decide, by decide, by decide,
    dfa_isRecognized_iff_tableWalk smallDfaMachine ['a'] (by decide) (by decide) (by decide)
      (by decide)⟩

/-! ## The map from state-sets to node numbers -/

theorem MapStatesToInt.lookup_empty (k : Finset Int) : MapStatesToInt.empty.lookup k = none :=
  rfl

theorem MapStatesToInt.lookup_assign_same (m : MapStatesToInt) (k : Finset Int) (v : Int) :
    (m.assign k v).lookup k = some v := by
  simp [MapStatesToInt.lookup, MapStatesToInt.assign]

theorem MapStatesToInt.find_filter_ne (l : List (Finset Int × Int)) (k k' : Finset Int)
    (h : k' ≠ k) :
    (l.filter fun entry => entry.1 ≠ k).find? (fun entry => entry.1 = k') =
      l.find? (fun entry => entry.1 = k') := by
  induction l with
  | nil => rfl
  | cons e l ih =>
    by_cases he : e.1 = k
    · have hk' : ¬ e.1 = k' := fun h' => h (h'.symm.trans he)
      rw [List.filter_cons_of_neg (by simpa using he), ih,
        List.find?_cons_of_neg _ (by simpa using hk')]
    · rw [List.filter_cons_of_pos (by simpa using he)]
      by_cases hk' : e.1 = k'
      · rw [List.find?_cons_of_pos _ (by simpa using hk'),
          List.find?_cons_of_pos _ (by simpa using hk')]
      · rw [List.find?_cons_of_neg _ (by simpa using hk'), ih,
          List.find?_cons_of_neg _ (by simpa using hk')]

theorem MapStatesToInt.lookup_assign_ne (m : MapStatesToInt) (k k' : Finset Int) (v : Int)
    (h : k' ≠ k) : (m.assign k v).lookup k' = m.lookup k' := by
  unfold MapStatesToInt.lookup MapStatesToInt.assign
  have hk : ¬ k = k' := fun h' => h h'.symm
  simp only [List.find?_cons, hk, decide_False]
  rw [MapStatesToInt.find_filter_ne _ _ _ h]

theorem MapStatesToInt.lookup_assign (m : MapStatesToInt) (k k' : Finset Int) (v : Int) :
    (m.assign k v).lookup k' = if k' = k then some v else m.lookup k' := by
  by_cases h : k' = k
  · subst h; rw [if_pos rfl, MapStatesToInt.lookup_assign_same]
  · rw [if_neg h, MapStatesToInt.lookup_assign_ne _ _ _ _ h]

theorem MapStatesToInt.mem_entries_iff_find (l : List (Finset Int × Int))
    (hl : (l.map Prod.fst).Nodup) (k : Finset Int) (v : Int) :
    (k, v) ∈ l ↔ (l.find? fun entry => entry.1 = k).map Prod.snd = some v := by
  induction l with
  | nil => simp
  | cons e l ih =>
    rw [List.map_cons, List.nodup_cons] at hl
    by_cases he : e.1 = k
    · simp only [List.mem_cons, List.find?_cons, he, decide_True, Option.map_some',
        Option.some.injEq]
      constructor
      · rintro (h | h)
        · rw [← h]
        · exact absurd (List.mem_map.mpr ⟨(k, v), h, rfl⟩) (he ▸ hl.1)
      · intro h
        exact Or.inl (by rw [← h, ← he])
    · simp only [List.mem_cons, List.find?_cons, he, decide_False]
      rw [← ih hl.2]
      constructor
      · rintro (h | h)
        · exact absurd (by rw [← h]) he
        · exact h
      · exact Or.inr

theorem MapStatesToInt.mem_entries_iff (m : MapStatesToInt) (k : Finset Int) (v : Int) :
    (k, v) ∈ m.entries ↔ m.lookup k = some v :=
  MapStatesToInt.mem_entries_iff_find m.entries m.nodupKeys k v

/-! ## The helper functions of the converter -/

theorem mem_moveFold (ts : List Transition) (s : Finset Int) (c : Char) :
    ∀ (acc : Finset Int) (q : Int),
      q ∈ ts.foldl
          (fun acc transition =>
            if transition.source ∈ s ∧ c = transition.transitionChar then
              insert transition.destination acc
            else acc) acc ↔
        q ∈ acc ∨ ∃ t ∈ ts, t.source ∈ s ∧ t.transitionChar = c ∧ t.destination = q := by
  induction ts with
  | nil => intro acc q; simp
  | cons t ts ih =>
    intro acc q
    rw [List.foldl_cons, ih]
    by_cases h : t.source ∈ s ∧ c = t.transitionChar
    · rw [if_pos h, Finset.mem_insert]
      constructor
      · rintro ((h1 | h1) | ⟨t', ht', h2⟩)
        · exact Or.inr ⟨t, List.mem_cons_self _ _, h.1, h.2.symm, h1.symm⟩
        · exact Or.inl h1
        · exact Or.inr ⟨t', List.mem_cons_of_mem _ ht', h2⟩
      · rintro (h1 | ⟨t', ht', h2⟩)
        · exact Or.inl (Or.inr h1)
        · rcases List.mem_cons.mp ht' with h3 | h3
          · subst h3
            exact Or.inl (Or.inl h2.2.2.symm)
          · exact Or.inr ⟨t', h3, h2⟩
    · rw [if_neg h]
      constructor
      · rintro (h1 | ⟨t', ht', h2⟩)
        · exact Or.inl h1
        · exact Or.inr ⟨t', List.mem_cons_of_mem _ ht', h2⟩
      · rintro (h1 | ⟨t', ht', h2⟩)
        · exact Or.inl h1
        · rcases List.mem_cons.mp ht' with h3 | h3
          · subst h3
            exact absurd ⟨h2.1, h2.2.1.symm⟩ h
          · exact Or.inr ⟨t', h3, h2⟩

/-- The converter and the non-deterministic recognizer compute the same successor set. -/
theorem getNextSetOfNodes_eq (cd : ConversionData) (s : Finset Int) (c : Char) :
    getNextSetOfNodes cd ∅ s c = subsetMove cd.nfaEpsilon c s := by
  unfold getNextSetOfNodes subsetMove
  rw [nfa_processNextCharacter_eq]
  congr 1
  ext q
  rw [mem_moveFold, Finset.mem_biUnion]
  simp only [Finset.not_mem_empty, false_or]
  constructor
  · rintro ⟨t, ht, hs, hc, hd⟩
    exact ⟨t.source, hs, (nfa_mem_destinationsOf _ _ _ _).mpr ⟨t, ht, rfl, hc, hd⟩⟩
  · rintro ⟨p, hp, hq⟩
    obtain ⟨t, ht, hs, hc, hd⟩ := (nfa_mem_destinationsOf _ _ _ _).mp hq
    exact ⟨t, ht, hs ▸ hp, hc, hd⟩

theorem mem_charsFold (ts : List Transition) (s : Finset Int) :
    ∀ (acc : Finset Char) (c : Char),
      c ∈ ts.foldl
          (fun acc transition =>
            if transition.source ∈ s ∧
                transition.transitionChar ≠ FiniteStateMachine.EPSILON then
              insert transition.transitionChar acc
            else acc) acc ↔
        c ∈ acc ∨ (c ≠ FiniteStateMachine.EPSILON ∧
          ∃ t ∈ ts, t.source ∈ s ∧ t.transitionChar = c) := by
  induction ts with
  | nil => intro acc c; simp
  | cons t ts ih =>
    intro acc c
    rw [List.foldl_cons, ih]
    by_cases h : t.source ∈ s ∧ t.transitionChar ≠ FiniteStateMachine.EPSILON
    · rw [if_pos h, Finset.mem_insert]
      constructor
      · rintro ((h1 | h1) | ⟨hc, t', ht', h2⟩)
        · exact Or.inr ⟨h1 ▸ h.2, t, List.mem_cons_self _ _, h.1, h1.symm⟩
        · exact Or.inl h1
        · exact Or.inr ⟨hc, t', List.mem_cons_of_mem _ ht', h2⟩
      · rintro (h1 | ⟨hc, t', ht', h2⟩)
        · exact Or.inl (Or.inr h1)
        · rcases List.mem_cons.mp ht' with h3 | h3
          · subst h3
            exact Or.inl (Or.inl h2.2.symm)
          · exact Or.inr ⟨hc, t', h3, h2⟩
    · rw [if_neg h]
      constructor
      · rintro (h1 | ⟨hc, t', ht', h2⟩)
        · exact Or.inl h1
        · exact Or.inr ⟨hc, t', List.mem_cons_of_mem _ ht', h2⟩
      · rintro (h1 | ⟨hc, t', ht', h2⟩)
        · exact Or.inl h1
        · rcases List.mem_cons.mp ht' with h3 | h3
          · subst h3
            exact absurd ⟨h2.1, h2.2 ▸ hc⟩ h
          · exact Or.inr ⟨hc, t', h3, h2⟩

/-- The next transition characters of a state-set are the non-epsilon symbols that leave it. -/
theorem mem_getNextTransitionCharacters (cd : ConversionData) (s : Finset Int) (c : Char) :
    c ∈ getNextTransitionCharacters cd ∅ s ↔ HasSymbol cd.nfaEpsilon s c := by
  unfold getNextTransitionCharacters HasSymbol
  rw [mem_charsFold]
  simp

theorem subsetMove_nonempty (a : FiniteStateMachine) (s : Finset Int) (c : Char)
    (h : HasSymbol a s c) : (subsetMove a c s).Nonempty := by
  obtain ⟨_, t, ht, hs, hc⟩ := h
  refine ⟨t.destination, ?_⟩
  unfold subsetMove
  rw [nfa_processNextCharacter_eq]
  apply subset_getEpsilonClosure
  exact Finset.mem_biUnion.mpr ⟨t.source, hs,
    (nfa_mem_destinationsOf _ _ _ _).mpr ⟨t, ht, rfl, hc, rfl⟩⟩

theorem subsetMove_subset (a : FiniteStateMachine) (s : Finset Int) (c : Char) :
    subsetMove a c s ⊆ destinationSet a.transitions := by
  intro q hq
  unfold subsetMove at hq
  rw [nfa_processNextCharacter_eq, mem_getEpsilonClosure] at hq
  rcases hq.mem_or_destination with h | h
  · obtain ⟨p, _, hd⟩ := Finset.mem_biUnion.mp h
    obtain ⟨t, ht, _, _, hdst⟩ := (nfa_mem_destinationsOf _ _ _ _).mp hd
    unfold destinationSet
    exact List.mem_toFinset.mpr (List.mem_map.mpr ⟨t, ht, hdst⟩)
  · exact h

theorem subsetMove_of_not_hasSymbol (a : FiniteStateMachine) (s : Finset Int) (c : Char)
    (hc : c ≠ FiniteStateMachine.EPSILON) (h : ¬ HasSymbol a s c) : subsetMove a c s = ∅ := by
  unfold subsetMove
  rw [nfa_processNextCharacter_eq]
  have : (s.biUnion fun q => (CompiledNfaEpsilon.new a).destinationsOf (q, c)) = ∅ := by
    apply Finset.eq_empty_of_forall_not_mem
    intro q hq
    obtain ⟨p, hp, hd⟩ := Finset.mem_biUnion.mp hq
    obtain ⟨t, ht, hsrc, hch, _⟩ := (nfa_mem_destinationsOf _ _ _ _).mp hd
    exact h ⟨hc, t, ht, hsrc ▸ hp, hch⟩
  rw [this, getEpsilonClosure_empty]

/-! ## The invariant of the conversion -/

theorem registerNextSetOfNodes_of_known (cd : ConversionData) (s : Finset Int)
    (h : cd.mapSetToDfaNode.lookup s ≠ none) : registerNextSetOfNodes cd s = cd := by
  unfold registerNextSetOfNodes
  rw [if_neg h]

theorem registerNextSetOfNodes_of_new (cd : ConversionData) (s : Finset Int)
    (h : cd.mapSetToDfaNode.lookup s = none) :
    registerNextSetOfNodes cd s =
      { cd with
        pendingSetsOfNodes := cd.pendingSetsOfNodes ++ [s]
        mapSetToDfaNode := cd.mapSetToDfaNode.assign s cd.nodeNumber
        dfa := { cd.dfa with nodes := insert cd.nodeNumber cd.dfa.nodes }
        nodeNumber := cd.nodeNumber + 1 } := by
  unfold registerNextSetOfNodes
  rw [if_pos h]

theorem ConversionInvariant.register_new {a : FiniteStateMachine} {cd : ConversionData}
    {cur : Finset Int} {todo : List Char} (h : ConversionInvariant a cd cur todo)
    (s' : Finset Int) (hnone : cd.mapSetToDfaNode.lookup s' = none) (hne : s'.Nonempty)
    (hsub : s' ⊆ insert a.startNode (destinationSet a.transitions)) :
    ConversionInvariant a
      { cd with
        pendingSetsOfNodes := cd.pendingSetsOfNodes ++ [s']
        mapSetToDfaNode := cd.mapSetToDfaNode.assign s' cd.nodeNumber
        dfa := { cd.dfa with nodes := insert cd.nodeNumber cd.dfa.nodes }
        nodeNumber := cd.nodeNumber + 1 } cur todo := by
  have hmono : ∀ t i, cd.mapSetToDfaNode.lookup t = some i →
      (cd.mapSetToDfaNode.assign s' cd.nodeNumber).lookup t = some i := by
    intro t i ht
    rw [MapStatesToInt.lookup_assign_ne _ _ _ _ (fun e => by rw [e, hnone] at ht; cases ht)]
    exact ht
  have hold : ∀ t i, (cd.mapSetToDfaNode.assign s' cd.nodeNumber).lookup t = some i →
      t ≠ s' → cd.mapSetToDfaNode.lookup t = some i := by
    intro t i ht hts
    rwa [MapStatesToInt.lookup_assign_ne _ _ _ _ hts] at ht
  have hnew : ∀ i, (cd.mapSetToDfaNode.assign s' cd.nodeNumber).lookup s' = some i →
      i = cd.nodeNumber := by
    intro i hi
    rw [MapStatesToInt.lookup_assign_same] at hi
    exact (Option.some.inj hi).symm
  have hcount := h.counter
  have hnotPending : s' ∉ cd.pendingSetsOfNodes := by
    intro hp
    obtain ⟨i, hi⟩ := h.pendingKnown s' hp
    rw [hnone] at hi
    cases hi
  refine
    { nfa := h.nfa
      counter := ?_
      idRange := ?_
      idInj := ?_
      nodes := ?_
      pendingNodup := ?_
      pendingKnown := ?_
      currentKnown := ?_
      todoNodup := h.todoNodup
      todoSymbols := h.todoSymbols
      complete := ?_
      sound := ?_
      distinct := h.distinct
      keyBound := ?_
      start := hmono _ _ h.start
      noGoals := h.noGoals }
  · show 1 ≤ cd.nodeNumber + 1
    omega
  · intro s i hs
    show 1 ≤ i ∧ i < cd.nodeNumber + 1
    by_cases hss : s = s'
    · subst hss
      rw [hnew i hs]
      omega
    · have := h.idRange s i (hold s i hs hss)
      omega
  · intro s t i hs ht
    by_cases hss : s = s'
    · by_cases hts : t = s'
      · rw [hss, hts]
      · subst hss
        have h1 := hnew i hs
        have h2 := h.idRange t i (hold t i ht hts)
        omega
    · by_cases hts : t = s'
      · subst hts
        have h1 := hnew i ht
        have h2 := h.idRange s i (hold s i hs hss)
        omega
      · exact h.idInj s t i (hold s i hs hss) (hold t i ht hts)
  · intro i
    show i ∈ insert cd.nodeNumber cd.dfa.nodes ↔ _
    rw [Finset.mem_insert, h.nodes]
    constructor
    · rintro (h1 | ⟨s, hs⟩)
      · exact ⟨s', by rw [h1]; exact MapStatesToInt.lookup_assign_same _ _ _⟩
      · exact ⟨s, hmono s i hs⟩
    · rintro ⟨s, hs⟩
      by_cases hss : s = s'
      · subst hss
        exact Or.inl (hnew i hs)
      · exact Or.inr ⟨s, hold s i hs hss⟩
  · show (cd.pendingSetsOfNodes ++ [s']).Nodup
    rw [List.nodup_append]
    refine ⟨h.pendingNodup, List.nodup_singleton _, ?_⟩
    intro x hx hx'
    rw [List.mem_singleton] at hx'
    exact hnotPending (hx' ▸ hx)
  · intro s hs
    rcases List.mem_append.mp hs with h1 | h1
    · obtain ⟨i, hi⟩ := h.pendingKnown s h1
      exact ⟨i, hmono s i hi⟩
    · rw [List.mem_singleton] at h1
      subst h1
      exact ⟨cd.nodeNumber, MapStatesToInt.lookup_assign_same _ _ _⟩
  · intro htodo
    obtain ⟨⟨i, hi⟩, hcur⟩ := h.currentKnown htodo
    refine ⟨⟨i, hmono _ _ hi⟩, ?_⟩
    intro hmem
    rcases List.mem_append.mp hmem with h1 | h1
    · exact hcur h1
    · rw [List.mem_singleton] at h1
      rw [h1, hnone] at hi
      cases hi
  · intro s i c hs hsym hnb
    have hss : s ≠ s' := by
      intro e
      exact hnb (Or.inl (List.mem_append.mpr (Or.inr (by rw [e]; exact List.mem_singleton.mpr rfl))))
    have hnb' : ¬ Busy cd cur todo s c := by
      rintro (hb | hb)
      · exact hnb (Or.inl (List.mem_append.mpr (Or.inl hb)))
      · exact hnb (Or.inr hb)
    obtain ⟨j, hj, hmem⟩ := h.complete s i c (hold s i hs hss) hsym hnb'
    exact ⟨j, hmono _ _ hj, hmem⟩
  · intro t ht
    obtain ⟨s, hs, hsym, hnb, hmv⟩ := h.sound t ht
    refine ⟨s, hmono _ _ hs, hsym, ?_, hmono _ _ hmv⟩
    rintro (hb | hb)
    · rcases List.mem_append.mp hb with h1 | h1
      · exact hnb (Or.inl h1)
      · rw [List.mem_singleton] at h1
        rw [h1, hnone] at hs
        cases hs
    · exact hnb (Or.inr hb)
  · intro s i hs
    by_cases hss : s = s'
    · rw [hss]
      exact ⟨hne, hsub⟩
    · exact h.keyBound s i (hold s i hs hss)

theorem ConversionInvariant.register {a : FiniteStateMachine} {cd : ConversionData}
    {cur : Finset Int} {todo : List Char} (h : ConversionInvariant a cd cur todo)
    (s' : Finset Int) (hne : s'.Nonempty)
    (hsub : s' ⊆ insert a.startNode (destinationSet a.transitions)) :
    ConversionInvariant a (registerNextSetOfNodes cd s') cur todo ∧
      ∃ j, (registerNextSetOfNodes cd s').mapSetToDfaNode.lookup s' = some j := by
  by_cases hnone : cd.mapSetToDfaNode.lookup s' = none
  · rw [registerNextSetOfNodes_of_new cd s' hnone]
    exact ⟨h.register_new s' hnone hne hsub, cd.nodeNumber,
      MapStatesToInt.lookup_assign_same _ _ _⟩
  · rw [registerNextSetOfNodes_of_known cd s' hnone]
    obtain ⟨j, hj⟩ := Option.ne_none_iff_exists'.mp hnone
    exact ⟨h, j, hj⟩

theorem ConversionInvariant.addTransition {a : FiniteStateMachine} {cd : ConversionData}
    {cur : Finset Int} {c : Char} {todo : List Char}
    (h : ConversionInvariant a cd cur (c :: todo)) (i j : Int)
    (hi : cd.mapSetToDfaNode.lookup cur = some i)
    (hj : cd.mapSetToDfaNode.lookup (subsetMove a c cur) = some j) :
    ConversionInvariant a
      { cd with
        dfa := { cd.dfa with
          transitions :=
            { source := i, transitionChar := c, destination := j } :: cd.dfa.transitions } }
      cur todo := by
  have hnodup := List.nodup_cons.mp h.todoNodup
  have hcur := h.currentKnown (List.cons_ne_nil _ _)
  refine
    { nfa := h.nfa
      counter := h.counter
      idRange := h.idRange
      idInj := h.idInj
      nodes := h.nodes
      pendingNodup := h.pendingNodup
      pendingKnown := h.pendingKnown
      currentKnown := fun _ => hcur
      todoNodup := hnodup.2
      todoSymbols := fun c' hc' => h.todoSymbols c' (List.mem_cons_of_mem _ hc')
      complete := ?_
      sound := ?_
      distinct := ?_
      keyBound := h.keyBound
      start := h.start
      noGoals := h.noGoals }
  · intro s i0 c0 hs hsym hnb
    by_cases hcase : s = cur ∧ c0 = c
    · obtain ⟨h1, h2⟩ := hcase
      subst h1 h2
      have hs' : cd.mapSetToDfaNode.lookup s = some i0 := hs
      rw [hi] at hs'
      rw [← Option.some.inj hs']
      exact ⟨j, hj, List.mem_cons_self _ _⟩
    · have hnb' : ¬ Busy cd cur (c :: todo) s c0 := by
        rintro (hb | ⟨h1, h2⟩)
        · exact hnb (Or.inl hb)
        · rcases List.mem_cons.mp h2 with h3 | h3
          · exact hcase ⟨h1, h3⟩
          · exact hnb (Or.inr ⟨h1, h3⟩)
      obtain ⟨j0, hj0, hmem⟩ := h.complete s i0 c0 hs hsym hnb'
      exact ⟨j0, hj0, List.mem_cons_of_mem _ hmem⟩
  · intro t ht
    rcases List.mem_cons.mp ht with h1 | h1
    · subst h1
      refine ⟨cur, hi, h.todoSymbols c (List.mem_cons_self _ _), ?_, hj⟩
      rintro (hb | ⟨_, hb⟩)
      · exact hcur.2 hb
      · exact hnodup.1 hb
    · obtain ⟨s, hs, hsym, hnb, hmv⟩ := h.sound t h1
      refine ⟨s, hs, hsym, ?_, hmv⟩
      rintro (hb | ⟨h2, h3⟩)
      · exact hnb (Or.inl hb)
      · exact hnb (Or.inr ⟨h2, List.mem_cons_of_mem _ h3⟩)
  · show DistinctPairs (_ :: cd.dfa.transitions)
    unfold DistinctPairs
    rw [List.map_cons, List.nodup_cons]
    refine ⟨?_, h.distinct⟩
    intro hmem
    obtain ⟨t, ht, hpair⟩ := List.mem_map.mp hmem
    obtain ⟨s, hs, _, hnb, _⟩ := h.sound t ht
    have hsrc : t.source = i := (Prod.mk.inj hpair).1
    have hch : t.transitionChar = c := (Prod.mk.inj hpair).2
    rw [hsrc] at hs
    have hscur : s = cur := h.idInj s cur i hs hi
    exact hnb (Or.inr ⟨hscur, by rw [hch]; exact List.mem_cons_self _ _⟩)

theorem conversionMeasure_register (cd : ConversionData) (s' : Finset Int)
    (hsub : s' ⊆ destinationSet cd.nfaEpsilon.transitions) :
    conversionMeasure (registerNextSetOfNodes cd s') ≤ conversionMeasure cd := by
  by_cases hnone : cd.mapSetToDfaNode.lookup s' = none
  · rw [registerNextSetOfNodes_of_new cd s' hnone]
    unfold conversionMeasure
    have hmem : s' ∈ unseenSets cd := by
      unfold unseenSets
      rw [Finset.mem_filter, Finset.mem_powerset]
      exact ⟨hsub, hnone⟩
    have hle : (unseenSets
        { cd with
          pendingSetsOfNodes := cd.pendingSetsOfNodes ++ [s']
          mapSetToDfaNode := cd.mapSetToDfaNode.assign s' cd.nodeNumber
          dfa := { cd.dfa with nodes := insert cd.nodeNumber cd.dfa.nodes }
          nodeNumber := cd.nodeNumber + 1 }) ⊆ (unseenSets cd).erase s' := by
      intro t ht
      unfold unseenSets at ht ⊢
      simp only [Finset.mem_filter, Finset.mem_powerset, Finset.mem_erase] at ht ⊢
      have hts : t ≠ s' := by
        intro e
        rw [e, MapStatesToInt.lookup_assign_same] at ht
        cases ht.2
      refine ⟨hts, ht.1, ?_⟩
      rw [← MapStatesToInt.lookup_assign_ne _ _ _ cd.nodeNumber hts]
      exact ht.2
    have h1 := Finset.card_le_card hle
    rw [Finset.card_erase_of_mem hmem] at h1
    have h2 : 0 < (unseenSets cd).card := Finset.card_pos.mpr ⟨s', hmem⟩
    show _ + (cd.pendingSetsOfNodes ++ [s']).length ≤ _
    rw [List.length_append, List.length_singleton]
    omega
  · rw [registerNextSetOfNodes_of_known cd s' hnone]

theorem ConversionInvariant.nextSet {a : FiniteStateMachine}
    {cd : ConversionData} {cur : Finset Int} {c : Char} {todo : List Char}
    (h : ConversionInvariant a cd cur (c :: todo)) :
    ∃ cd', processNextSetOfNodes cd cur (subsetMove a c cur) c = some cd' ∧
      ConversionInvariant a cd' cur todo ∧ conversionMeasure cd' ≤ conversionMeasure cd := by
  have hsym := h.todoSymbols c (List.mem_cons_self _ _)
  have hsub := subsetMove_subset a cur c
  obtain ⟨hreg, j, hj⟩ := h.register (subsetMove a c cur) (subsetMove_nonempty a cur c hsym)
    (hsub.trans (Finset.subset_insert _ _))
  obtain ⟨⟨i, hi⟩, _⟩ := hreg.currentKnown (List.cons_ne_nil _ _)
  have hm := conversionMeasure_register cd (subsetMove a c cur) (by rw [h.nfa]; exact hsub)
  refine ⟨_, ?_, hreg.addTransition i j hi hj, hm⟩
  unfold processNextSetOfNodes
  simp only [hi, hj]

theorem ConversionInvariant.processList {a : FiniteStateMachine} {cur : Finset Int}
    (todo : List Char) :
    ∀ cd : ConversionData, ConversionInvariant a cd cur todo →
      ∃ cd', processTransitionCharactersList cur todo cd = some cd' ∧
        ConversionInvariant a cd' cur [] ∧ conversionMeasure cd' ≤ conversionMeasure cd := by
  induction todo with
  | nil => intro cd h; exact ⟨cd, rfl, h, le_refl _⟩
  | cons c todo ih =>
    intro cd h
    obtain ⟨cd1, h1, hinv1, hm1⟩ := h.nextSet
    obtain ⟨cd2, h2, hinv2, hm2⟩ := ih cd1 hinv1
    refine ⟨cd2, ?_, hinv2, hm2.trans hm1⟩
    unfold processTransitionCharactersList
    rw [getNextSetOfNodes_eq, h.nfa, h1]
    exact h2

theorem ConversionInvariant.idle {a : FiniteStateMachine} {cd : ConversionData}
    {cur : Finset Int} (h : ConversionInvariant a cd cur []) (x : Finset Int) :
    ConversionInvariant a cd x [] := by
  have hb : ∀ s c, Busy cd x [] s c → Busy cd cur [] s c := by
    rintro s c (hb | ⟨_, hb⟩)
    · exact Or.inl hb
    · cases hb
  refine
    { nfa := h.nfa
      counter := h.counter
      idRange := h.idRange
      idInj := h.idInj
      nodes := h.nodes
      pendingNodup := h.pendingNodup
      pendingKnown := h.pendingKnown
      currentKnown := fun hne => absurd rfl hne
      todoNodup := List.nodup_nil
      todoSymbols := fun c hc => by cases hc
      complete := fun s i c hs hsym hnb => h.complete s i c hs hsym (fun hb' => hnb ?_)
      sound := ?_
      distinct := h.distinct
      keyBound := h.keyBound
      start := h.start
      noGoals := h.noGoals }
  · rcases hb' with hb' | ⟨_, hb'⟩
    · exact Or.inl hb'
    · cases hb'
  · intro t ht
    obtain ⟨s, hs, hsym, hnb, hmv⟩ := h.sound t ht
    exact ⟨s, hs, hsym, fun hb' => hnb (hb s _ hb'), hmv⟩

theorem ConversionInvariant.pop {a : FiniteStateMachine} {cd : ConversionData}
    {x : Finset Int} (h : ConversionInvariant a cd x []) (cur : Finset Int)
    (rest : List (Finset Int)) (hp : cd.pendingSetsOfNodes = cur :: rest)
    (order : IterationOrder) :
    ConversionInvariant a { cd with pendingSetsOfNodes := rest } cur
      (order.enumerate { cd with pendingSetsOfNodes := rest } cur
        (getNextTransitionCharacters { cd with pendingSetsOfNodes := rest } ∅ cur)) := by
  have hnodup := h.pendingNodup
  rw [hp, List.nodup_cons] at hnodup
  have hchars : ∀ c, c ∈ order.enumerate { cd with pendingSetsOfNodes := rest } cur
      (getNextTransitionCharacters { cd with pendingSetsOfNodes := rest } ∅ cur) ↔
        HasSymbol a cur c := by
    intro c
    rw [order.mem_enumerate, mem_getNextTransitionCharacters]
    show HasSymbol cd.nfaEpsilon cur c ↔ _
    rw [h.nfa]
  refine
    { nfa := h.nfa
      counter := h.counter
      idRange := h.idRange
      idInj := h.idInj
      nodes := h.nodes
      pendingNodup := hnodup.2
      pendingKnown := fun s hs => h.pendingKnown s (by rw [hp]; exact List.mem_cons_of_mem _ hs)
      currentKnown := fun _ =>
        ⟨h.pendingKnown cur (by rw [hp]; exact List.mem_cons_self _ _), hnodup.1⟩
      todoNodup := order.nodup _ _ _
      todoSymbols := fun c hc => (hchars c).mp hc
      complete := ?_
      sound := ?_
      distinct := h.distinct
      keyBound := h.keyBound
      start := h.start
      noGoals := h.noGoals }
  · intro s i c hs hsym hnb
    apply h.complete s i c hs hsym
    rintro (hb | ⟨_, hb⟩)
    · rw [hp] at hb
      rcases List.mem_cons.mp hb with h1 | h1
      · subst h1
        exact hnb (Or.inr ⟨rfl, (hchars c).mpr hsym⟩)
      · exact hnb (Or.inl h1)
    · cases hb
  · intro t ht
    obtain ⟨s, hs, hsym, hnb, hmv⟩ := h.sound t ht
    refine ⟨s, hs, hsym, ?_, hmv⟩
    rintro (hb | ⟨h1, _⟩)
    · exact hnb (Or.inl (by rw [hp]; exact List.mem_cons_of_mem _ hb))
    · exact hnb (Or.inl (by rw [hp, h1]; exact List.mem_cons_self _ _))

theorem ConversionInvariant.currentSet {a : FiniteStateMachine}
    {cd : ConversionData} {x : Finset Int} (h : ConversionInvariant a cd x [])
    (hp : cd.pendingSetsOfNodes ≠ []) (order : IterationOrder) :
    ∃ cd', processCurrentSetOfNodes order cd = some cd' ∧ ConversionInvariant a cd' x [] ∧
      conversionMeasure cd' + 1 ≤ conversionMeasure cd := by
  cases hq : cd.pendingSetsOfNodes with
  | nil => exact absurd hq hp
  | cons cur rest =>
    obtain ⟨cd', h1, hinv, hm⟩ := ConversionInvariant.processList _ _ (h.pop cur rest hq order)
    refine ⟨cd', ?_, hinv.idle x, ?_⟩
    · unfold processCurrentSetOfNodes processTransitionCharacters
      rw [hq]
      exact h1
    · have : conversionMeasure { cd with pendingSetsOfNodes := rest } + 1 =
          conversionMeasure cd := by
        unfold conversionMeasure
        rw [hq]
        rfl
      omega

theorem ConversionInvariant.pendingSets {a : FiniteStateMachine} {x : Finset Int}
    (order : IterationOrder) (fuel : Nat) :
    ∀ cd : ConversionData, ConversionInvariant a cd x [] → conversionMeasure cd < fuel →
      ∃ cd', processPendingSets order fuel cd = some cd' ∧ ConversionInvariant a cd' x [] ∧
        cd'.pendingSetsOfNodes = [] := by
  induction fuel with
  | zero => intro cd _ hm; omega
  | succ fuel ih =>
    intro cd h hm
    unfold processPendingSets
    by_cases hp : cd.pendingSetsOfNodes = []
    · rw [if_pos hp]
      exact ⟨cd, rfl, h, hp⟩
    · rw [if_neg hp]
      obtain ⟨cd1, h1, hinv1, hm1⟩ := h.currentSet hp order
      rw [h1]
      exact ih cd1 hinv1 (by omega)

theorem unseenSets_card_le (cd : ConversionData) :
    (unseenSets cd).card ≤ 2 ^ cd.nfaEpsilon.transitions.length := by
  unfold unseenSets
  refine (Finset.card_filter_le _ _).trans ?_
  rw [Finset.card_powerset]
  apply Nat.pow_le_pow_right (by decide)
  unfold destinationSet
  exact (List.toFinset_card_le _).trans (by simp)

/-- The state of the conversion after `getStartNodeForDFA`, from the initial context. -/
theorem getStartNodeForDFA_initial (a : FiniteStateMachine) :
    ∃ cd1, getStartNodeForDFA { ConversionData.initial with nfaEpsilon := a } = some cd1 ∧
      ConversionInvariant a cd1 ∅ [] ∧ conversionMeasure cd1 < conversionFuel cd1 := by
  have hlook : ∀ t, (MapStatesToInt.empty.assign
      (getEpsilonClosure (insert a.startNode ∅) a.transitions) 1).lookup t =
        if t = getEpsilonClosure (insert a.startNode ∅) a.transitions then some 1 else none := by
    intro t
    rw [MapStatesToInt.lookup_assign, MapStatesToInt.lookup_empty]
  have hkey : ∀ t i, (MapStatesToInt.empty.assign
      (getEpsilonClosure (insert a.startNode ∅) a.transitions) 1).lookup t = some i →
        t = getEpsilonClosure (insert a.startNode ∅) a.transitions ∧ i = 1 := by
    intro t i ht
    rw [hlook] at ht
    split at ht
    · rename_i h
      exact ⟨h, (Option.some.inj ht).symm⟩
    · cases ht
  refine ⟨
    { dfa := { nodes := insert 1 ∅, startNode := 1, goalNodes := ∅, transitions := [] }
      nfaEpsilon := a
      mapSetToDfaNode := MapStatesToInt.empty.assign
        (getEpsilonClosure (insert a.startNode ∅) a.transitions) 1
      nodeNumber := 1 + 1
      pendingSetsOfNodes := [] ++ [getEpsilonClosure (insert a.startNode ∅) a.transitions]
      stateSet := getEpsilonClosure (insert a.startNode ∅) a.transitions }, ?_, ?_, ?_⟩
  · unfold getStartNodeForDFA
    simp only [ConversionData.initial, MapStatesToInt.lookup_assign_same]
  · refine
      { nfa := rfl
        counter := show (1 : Int) ≤ 1 + 1 by decide
        idRange := ?_
        idInj := ?_
        nodes := ?_
        pendingNodup := List.nodup_singleton _
        pendingKnown := ?_
        currentKnown := fun hne => absurd rfl hne
        todoNodup := List.nodup_nil
        todoSymbols := fun c hc => by cases hc
        complete := ?_
        sound := fun t ht => by cases ht
        distinct := List.nodup_nil
        keyBound := ?_
        start := MapStatesToInt.lookup_assign_same _ _ _
        noGoals := rfl }
    · intro s i hs
      rw [(hkey s i hs).2]
      show (1 : Int) ≤ 1 ∧ (1 : Int) < 1 + 1
      decide
    · intro s s' i hs hs'
      rw [(hkey s i hs).1, (hkey s' i hs').1]
    · intro i
      show i ∈ insert 1 ∅ ↔ _
      constructor
      · intro hi
        rw [Finset.mem_insert] at hi
        rcases hi with hi | hi
        · exact ⟨_, by rw [hi]; exact MapStatesToInt.lookup_assign_same _ _ _⟩
        · simp at hi
      · rintro ⟨s, hs⟩
        rw [(hkey s i hs).2]
        exact Finset.mem_insert_self _ _
    · intro s hs
      have : s = getEpsilonClosure (insert a.startNode ∅) a.transitions := by
        simpa using hs
      exact ⟨1, by rw [this]; exact MapStatesToInt.lookup_assign_same _ _ _⟩
    · intro s i c hs _ hnb
      exfalso
      apply hnb
      left
      show s ∈ [] ++ [getEpsilonClosure (insert a.startNode ∅) a.transitions]
      rw [(hkey s i hs).1]
      simp
    · intro s i hs
      rw [(hkey s i hs).1]
      constructor
      · exact ⟨a.startNode, subset_getEpsilonClosure _ _ (Finset.mem_insert_self _ _)⟩
      · intro q hq
        rcases (mem_getEpsilonClosure.mp hq).mem_or_destination with h | h
        · rw [Finset.mem_insert] at h
          rcases h with h | h
          · rw [h]; exact Finset.mem_insert_self _ _
          · simp at h
        · exact Finset.mem_insert_of_mem h
  · unfold conversionMeasure conversionFuel
    have := unseenSets_card_le
      { dfa := { nodes := insert 1 ∅, startNode := 1, goalNodes := ∅, transitions := [] }
        nfaEpsilon := a
        mapSetToDfaNode := MapStatesToInt.empty.assign
          (getEpsilonClosure (insert a.startNode ∅) a.transitions) 1
        nodeNumber := 1 + 1
        pendingSetsOfNodes := [] ++ [getEpsilonClosure (insert a.startNode ∅) a.transitions]
        stateSet := getEpsilonClosure (insert a.startNode ∅) a.transitions }
    omega

theorem mem_getGoalNodesForDFA (cd : ConversionData) (hg : cd.dfa.goalNodes = ∅) (i : Int) :
    i ∈ (getGoalNodesForDFA cd).dfa.goalNodes ↔
      ∃ s, cd.mapSetToDfaNode.lookup s = some i ∧ ∃ q ∈ s, q ∈ cd.nfaEpsilon.goalNodes := by
  unfold getGoalNodesForDFA
  show i ∈ cd.dfa.goalNodes ∪ cd.nfaEpsilon.goalNodes.biUnion (goalNodesForNode cd) ↔ _
  rw [hg, Finset.empty_union, Finset.mem_biUnion]
  unfold goalNodesForNode
  constructor
  · rintro ⟨node, hnode, hi⟩
    rw [List.mem_toFinset, List.mem_filterMap] at hi
    obtain ⟨entry, _, he⟩ := hi
    split at he
    · rename_i hmem
      exact ⟨entry.1, he, node, hmem, hnode⟩
    · cases he
  · rintro ⟨s, hs, q, hq, hgoal⟩
    refine ⟨q, hgoal, ?_⟩
    rw [List.mem_toFinset, List.mem_filterMap]
    refine ⟨(s, i), (MapStatesToInt.mem_entries_iff _ _ _).mpr hs, ?_⟩
    show (if q ∈ s then cd.mapSetToDfaNode.lookup s else none) = some i
    rw [if_pos hq, hs]

/-- The conversion from the initial context returns, with an empty queue, and the returned machine
is the subset construction recorded by the final map. -/
theorem convertNfaEpsilonToDfa_spec (order : IterationOrder) (a : FiniteStateMachine) :
    ∃ d cd, convertNfaEpsilonToDfa order ConversionData.initial a = some (d, cd) ∧
      cd.pendingSetsOfNodes = [] ∧ ConversionResult a d cd.mapSetToDfaNode := by
  obtain ⟨cd1, h1, hinv1, hm1⟩ := getStartNodeForDFA_initial a
  obtain ⟨cd2, h2, hinv2, hp2⟩ :=
    ConversionInvariant.pendingSets order (conversionFuel cd1) cd1 hinv1 hm1
  refine ⟨(getGoalNodesForDFA cd2).dfa, getGoalNodesForDFA cd2, ?_, hp2, ?_⟩
  · unfold convertNfaEpsilonToDfa
    rw [h1]
    simp only [h2]
  · have hnb : ∀ s c, ¬ Busy cd2 ∅ [] s c := by
      rintro s c (hb | ⟨_, hb⟩)
      · rw [hp2] at hb; cases hb
      · cases hb
    exact
      { idPositive := fun s i hs => (hinv2.idRange s i hs).1
        idInj := hinv2.idInj
        nodes := hinv2.nodes
        complete := fun s i c hs hsym => hinv2.complete s i c hs hsym (hnb s c)
        sound := fun t ht => by
          obtain ⟨s, hs, hsym, _, hmv⟩ := hinv2.sound t ht
          exact ⟨s, hs, hsym, hmv⟩
        distinct := hinv2.distinct
        keyBound := hinv2.keyBound
        start := hinv2.start
        goals := fun i => by
          rw [mem_getGoalNodesForDFA cd2 hinv2.noGoals, hinv2.nfa]
          rfl }

/-! ## Calls in a context left by earlier calls -/

theorem registerNextSetOfNodes_lookup_mono (cd : ConversionData) (s' t : Finset Int) (i : Int)
    (h : cd.mapSetToDfaNode.lookup t = some i) :
    (registerNextSetOfNodes cd s').mapSetToDfaNode.lookup t = some i := by
  by_cases hnone : cd.mapSetToDfaNode.lookup s' = none
  · rw [registerNextSetOfNodes_of_new cd s' hnone]
    show (cd.mapSetToDfaNode.assign s' cd.nodeNumber).lookup t = some i
    rw [MapStatesToInt.lookup_assign_ne _ _ _ _ (fun e => by rw [e, hnone] at h; cases h)]
    exact h
  · rw [registerNextSetOfNodes_of_known cd s' hnone]
    exact h

theorem CallInvariant.callRegister {a : FiniteStateMachine} {cd : ConversionData}
    {cur : Finset Int} {todo : List Char} (h : CallInvariant a cd cur todo) (s' : Finset Int) :
    CallInvariant a (registerNextSetOfNodes cd s') cur todo ∧
      ∃ j, (registerNextSetOfNodes cd s').mapSetToDfaNode.lookup s' = some j := by
  by_cases hnone : cd.mapSetToDfaNode.lookup s' = none
  · have hmono := registerNextSetOfNodes_lookup_mono cd s'
    rw [registerNextSetOfNodes_of_new cd s' hnone] at hmono ⊢
    refine ⟨?_, cd.nodeNumber, MapStatesToInt.lookup_assign_same _ _ _⟩
    refine
      { nfa := h.nfa
        mapNodes := ?_
        pendingKnown := ?_
        currentKnown := fun hne => by
          obtain ⟨i, hi⟩ := h.currentKnown hne
          exact ⟨i, hmono _ _ hi⟩
        todoSymbols := h.todoSymbols
        startNode := Finset.mem_insert_of_mem h.startNode
        goalNodes := h.goalNodes.trans (Finset.subset_insert _ _)
        transitions := fun t ht =>
          ⟨Finset.mem_insert_of_mem (h.transitions t ht).1,
            Finset.mem_insert_of_mem (h.transitions t ht).2.1, (h.transitions t ht).2.2⟩ }
    · intro s i hs
      show i ∈ insert cd.nodeNumber cd.dfa.nodes
      have hs' : (cd.mapSetToDfaNode.assign s' cd.nodeNumber).lookup s = some i := hs
      rw [MapStatesToInt.lookup_assign] at hs'
      split at hs'
      · rw [← Option.some.inj hs']
        exact Finset.mem_insert_self _ _
      · exact Finset.mem_insert_of_mem (h.mapNodes s i hs')
    · intro s hs
      rcases List.mem_append.mp hs with h1 | h1
      · obtain ⟨i, hi⟩ := h.pendingKnown s h1
        exact ⟨i, hmono _ _ hi⟩
      · rw [List.mem_singleton] at h1
        subst h1
        exact ⟨cd.nodeNumber, MapStatesToInt.lookup_assign_same _ _ _⟩
  · rw [registerNextSetOfNodes_of_known cd s' hnone]
    obtain ⟨j, hj⟩ := Option.ne_none_iff_exists'.mp hnone
    exact ⟨h, j, hj⟩

theorem CallInvariant.callNextSet {a : FiniteStateMachine} {cd : ConversionData}
    {cur : Finset Int} {c : Char} {todo : List Char}
    (h : CallInvariant a cd cur (c :: todo)) :
    ∃ cd', processNextSetOfNodes cd cur (subsetMove a c cur) c = some cd' ∧
      CallInvariant a cd' cur todo ∧ conversionMeasure cd' ≤ conversionMeasure cd := by
  obtain ⟨hreg, j, hj⟩ := h.callRegister (subsetMove a c cur)
  obtain ⟨i, hi⟩ := hreg.currentKnown (List.cons_ne_nil _ _)
  have hm := conversionMeasure_register cd (subsetMove a c cur)
    (by rw [h.nfa]; exact subsetMove_subset a cur c)
  refine ⟨
    { registerNextSetOfNodes cd (subsetMove a c cur) with
      dfa := { (registerNextSetOfNodes cd (subsetMove a c cur)).dfa with
        transitions :=
          { source := i, transitionChar := c, destination := j } ::
            (registerNextSetOfNodes cd (subsetMove a c cur)).dfa.transitions } }, ?_, ?_, hm⟩
  · unfold processNextSetOfNodes
    simp only [hi, hj]
  · exact
      { nfa := hreg.nfa
        mapNodes := hreg.mapNodes
        pendingKnown := hreg.pendingKnown
        currentKnown := fun _ => ⟨i, hi⟩
        todoSymbols := fun c' hc' => h.todoSymbols c' (List.mem_cons_of_mem _ hc')
        startNode := hreg.startNode
        goalNodes := hreg.goalNodes
        transitions := fun t ht => by
          rcases List.mem_cons.mp ht with h1 | h1
          · subst h1
            exact ⟨hreg.mapNodes _ _ hi, hreg.mapNodes _ _ hj,
              h.todoSymbols c (List.mem_cons_self _ _)⟩
          · exact hreg.transitions t h1 }

theorem CallInvariant.callProcessList {a : FiniteStateMachine} {cur : Finset Int}
    (todo : List Char) :
    ∀ cd : ConversionData, CallInvariant a cd cur todo →
      ∃ cd', processTransitionCharactersList cur todo cd = some cd' ∧
        CallInvariant a cd' cur [] ∧ conversionMeasure cd' ≤ conversionMeasure cd := by
  induction todo with
  | nil => intro cd h; exact ⟨cd, rfl, h, le_refl _⟩
  | cons c todo ih =>
    intro cd h
    obtain ⟨cd1, h1, hinv1, hm1⟩ := h.callNextSet
    obtain ⟨cd2, h2, hinv2, hm2⟩ := ih cd1 hinv1
    refine ⟨cd2, ?_, hinv2, hm2.trans hm1⟩
    unfold processTransitionCharactersList
    rw [getNextSetOfNodes_eq, h.nfa, h1]
    exact h2

theorem CallInvariant.callCurrentSet {a : FiniteStateMachine} {cd : ConversionData}
    {x : Finset Int} (h : CallInvariant a cd x []) (hp : cd.pendingSetsOfNodes ≠ [])
    (order : IterationOrder) :
    ∃ cd', processCurrentSetOfNodes order cd = some cd' ∧ CallInvariant a cd' x [] ∧
      conversionMeasure cd' + 1 ≤ conversionMeasure cd := by
  cases hq : cd.pendingSetsOfNodes with
  | nil => exact absurd hq hp
  | cons cur rest =>
    have hpop : CallInvariant a { cd with pendingSetsOfNodes := rest } cur
        (order.enumerate { cd with pendingSetsOfNodes := rest } cur
          (getNextTransitionCharacters { cd with pendingSetsOfNodes := rest } ∅ cur)) :=
      { nfa := h.nfa
        mapNodes := h.mapNodes
        pendingKnown := fun s hs =>
          h.pendingKnown s (by rw [hq]; exact List.mem_cons_of_mem _ hs)
        currentKnown := fun _ => h.pendingKnown cur (by rw [hq]; exact List.mem_cons_self _ _)
        todoSymbols := fun c hc => by
          rw [order.mem_enumerate, mem_getNextTransitionCharacters] at hc
          exact hc.1
        startNode := h.startNode
        goalNodes := h.goalNodes
        transitions := h.transitions }
    obtain ⟨cd', h1, hinv, hm⟩ := CallInvariant.callProcessList _ _ hpop
    refine ⟨cd', ?_, ?_, ?_⟩
    · unfold processCurrentSetOfNodes processTransitionCharacters
      rw [hq]
      exact h1
    · exact
        { nfa := hinv.nfa
          mapNodes := hinv.mapNodes
          pendingKnown := hinv.pendingKnown
          currentKnown := fun hne => absurd rfl hne
          todoSymbols := hinv.todoSymbols
          startNode := hinv.startNode
          goalNodes := hinv.goalNodes
          transitions := hinv.transitions }
    · have : conversionMeasure { cd with pendingSetsOfNodes := rest } + 1 =
          conversionMeasure cd := by
        unfold conversionMeasure
        rw [hq]
        rfl
      omega

theorem CallInvariant.callPendingSets {a : FiniteStateMachine} {x : Finset Int}
    (order : IterationOrder) (fuel : Nat) :
    ∀ cd : ConversionData, CallInvariant a cd x [] → conversionMeasure cd < fuel →
      ∃ cd', processPendingSets order fuel cd = some cd' ∧ CallInvariant a cd' x [] ∧
        cd'.pendingSetsOfNodes = [] := by
  induction fuel with
  | zero => intro cd _ hm; omega
  | succ fuel ih =>
    intro cd h hm
    unfold processPendingSets
    by_cases hp : cd.pendingSetsOfNodes = []
    · rw [if_pos hp]
      exact ⟨cd, rfl, h, hp⟩
    · rw [if_neg hp]
      obtain ⟨cd1, h1, hinv1, hm1⟩ := h.callCurrentSet hp order
      rw [h1]
      exact ih cd1 hinv1 (by omega)

theorem getStartNodeForDFA_idle (cd : ConversionData) (h : IdleContext cd)
    (a : FiniteStateMachine) :
    ∃ cd1, getStartNodeForDFA { cd with nfaEpsilon := a } = some cd1 ∧
      CallInvariant a cd1 ∅ [] ∧ conversionMeasure cd1 < conversionFuel cd1 := by
  refine ⟨
    { cd with
      nfaEpsilon := a
      stateSet := getEpsilonClosure (insert a.startNode cd.stateSet) a.transitions
      pendingSetsOfNodes := cd.pendingSetsOfNodes ++
        [getEpsilonClosure (insert a.startNode cd.stateSet) a.transitions]
      mapSetToDfaNode := cd.mapSetToDfaNode.assign
        (getEpsilonClosure (insert a.startNode cd.stateSet) a.transitions) cd.nodeNumber
      dfa := { cd.dfa with
        nodes := insert cd.nodeNumber cd.dfa.nodes, startNode := cd.nodeNumber }
      nodeNumber := cd.nodeNumber + 1 }, ?_, ?_, ?_⟩
  · unfold getStartNodeForDFA
    simp only [MapStatesToInt.lookup_assign_same]
  · refine
      { nfa := rfl
        mapNodes := ?_
        pendingKnown := ?_
        currentKnown := fun hne => absurd rfl hne
        todoSymbols := fun c hc => by cases hc
        startNode := Finset.mem_insert_self _ _
        goalNodes := h.goalNodes.trans (Finset.subset_insert _ _)
        transitions := fun t ht =>
          ⟨Finset.mem_insert_of_mem (h.transitions t ht).1,
            Finset.mem_insert_of_mem (h.transitions t ht).2.1, (h.transitions t ht).2.2⟩ }
    · intro s i hs
      show i ∈ insert cd.nodeNumber cd.dfa.nodes
      have hs' : (cd.mapSetToDfaNode.assign
          (getEpsilonClosure (insert a.startNode cd.stateSet) a.transitions)
          cd.nodeNumber).lookup s = some i := hs
      rw [MapStatesToInt.lookup_assign] at hs'
      split at hs'
      · rw [← Option.some.inj hs']
        exact Finset.mem_insert_self _ _
      · exact Finset.mem_insert_of_mem (h.mapNodes s i hs')
    · intro s hs
      have hs' : s ∈ cd.pendingSetsOfNodes ++
          [getEpsilonClosure (insert a.startNode cd.stateSet) a.transitions] := hs
      rw [h.pendingEmpty, List.nil_append, List.mem_singleton] at hs'
      exact ⟨cd.nodeNumber, by rw [hs']; exact MapStatesToInt.lookup_assign_same _ _ _⟩
  · unfold conversionMeasure conversionFuel
    have := unseenSets_card_le
      { cd with
        nfaEpsilon := a
        stateSet := getEpsilonClosure (insert a.startNode cd.stateSet) a.transitions
        pendingSetsOfNodes := cd.pendingSetsOfNodes ++
          [getEpsilonClosure (insert a.startNode cd.stateSet) a.transitions]
        mapSetToDfaNode := cd.mapSetToDfaNode.assign
          (getEpsilonClosure (insert a.startNode cd.stateSet) a.transitions) cd.nodeNumber
        dfa := { cd.dfa with
          nodes := insert cd.nodeNumber cd.dfa.nodes, startNode := cd.nodeNumber }
        nodeNumber := cd.nodeNumber + 1 }
    omega

/-- A call of `convertNfaEpsilonToDfa` in an idle context returns, leaves an idle context, and
the returned machine is the one held by the global. -/
theorem convertNfaEpsilonToDfa_idle (order : IterationOrder) (cd : ConversionData)
    (h : IdleContext cd) (a : FiniteStateMachine) :
    ∃ cd1 cd2, getStartNodeForDFA { cd with nfaEpsilon := a } = some cd1 ∧
      processPendingSets order (conversionFuel cd1) cd1 = some cd2 ∧
      convertNfaEpsilonToDfa order cd a =
        some ((getGoalNodesForDFA cd2).dfa, getGoalNodesForDFA cd2) ∧
      IdleContext (getGoalNodesForDFA cd2) ∧
      (getGoalNodesForDFA cd2).dfa.startNode ∈ (getGoalNodesForDFA cd2).dfa.nodes := by
  obtain ⟨cd1, h1, hinv1, hm1⟩ := getStartNodeForDFA_idle cd h a
  obtain ⟨cd2, h2, hinv2, hp2⟩ :=
    CallInvariant.callPendingSets order (conversionFuel cd1) cd1 hinv1 hm1
  refine ⟨cd1, cd2, h1, h2, ?_, ?_, hinv2.startNode⟩
  · unfold convertNfaEpsilonToDfa
    rw [h1]
    simp only [h2]
  · refine
      { pendingEmpty := hp2
        mapNodes := hinv2.mapNodes
        goalNodes := ?_
        transitions := hinv2.transitions }
    intro i hi
    have hi' : i ∈ cd2.dfa.goalNodes ∪
        cd2.nfaEpsilon.goalNodes.biUnion (goalNodesForNode cd2) := hi
    rcases Finset.mem_union.mp hi' with h3 | h3
    · exact hinv2.goalNodes h3
    · obtain ⟨node, _, hnode⟩ := Finset.mem_biUnion.mp h3
      unfold goalNodesForNode at hnode
      rw [List.mem_toFinset, List.mem_filterMap] at hnode
      obtain ⟨entry, _, he⟩ := hnode
      split at he
      · exact hinv2.mapNodes _ _ he
      · cases he

theorem ConversionData.initial_idle : IdleContext ConversionData.initial where
  pendingEmpty := rfl
  mapNodes := fun s i hs => by cases hs
  goalNodes := Finset.Subset.refl _
  transitions := fun t ht => by cases ht

theorem ReachableContext.idleContext {cd : ConversionData} (h : ReachableContext cd) :
    IdleContext cd := by
  induction h with
  | initial => exact ConversionData.initial_idle
  | @call order cd0 cd' a d _ hconv ih =>
    obtain ⟨_, cd2, _, _, hc, hidle, _⟩ := convertNfaEpsilonToDfa_idle order cd0 ih a
    rw [hc] at hconv
    have := (Prod.mk.inj (Option.some.inj hconv)).2
    rw [← this]
    exact hidle

/-! ## The converted machine -/

theorem ConversionResult.dead_not_goal {a d : FiniteStateMachine} {m : MapStatesToInt}
    (r : ConversionResult a d m) : -1 ∉ d.goalNodes := by
  intro h
  obtain ⟨s, hs, _⟩ := (r.goals (-1)).mp h
  have := r.idPositive s (-1) hs
  omega

theorem ConversionResult.graph_of_hasSymbol {a d : FiniteStateMachine} {m : MapStatesToInt}
    (r : ConversionResult a d m) (s : Finset Int) (i : Int) (c : Char)
    (hs : m.lookup s = some i) (hsym : HasSymbol a s c) :
    ∃ j, m.lookup (subsetMove a c s) = some j ∧ (CompiledDfa.new d).dfaGraph (i, c) = some j := by
  obtain ⟨j, hj, hmem⟩ := r.complete s i c hs hsym
  exact ⟨j, hj, dfaGraph_of_mem d r.distinct _ hmem⟩

theorem ConversionResult.graph_of_not_hasSymbol {a d : FiniteStateMachine}
    {m : MapStatesToInt} (r : ConversionResult a d m) (s : Finset Int) (i : Int) (c : Char)
    (hs : m.lookup s = some i) (hsym : ¬ HasSymbol a s c) :
    (CompiledDfa.new d).dfaGraph (i, c) = none := by
  apply dfaGraph_none
  intro t ht hpair
  obtain ⟨s', hs', hsym', _⟩ := r.sound t ht
  have hsrc : t.source = i := (Prod.mk.inj hpair).1
  have hch : t.transitionChar = c := (Prod.mk.inj hpair).2
  rw [hsrc] at hs'
  rw [r.idInj s' s i hs' hs, hch] at hsym'
  exact hsym hsym'

theorem nfa_isRecognizedFrom_empty (a : FiniteStateMachine) (s : List Char) :
    (CompiledNfaEpsilon.new a).isRecognizedFrom s ∅ = false := by
  rw [nfa_isRecognizedFrom_eq, nfa_foldl_empty, nfa_isGoalState_empty]

theorem nfa_isRecognizedFrom_cons (n : CompiledNfaEpsilon) (c : Char) (rest : List Char)
    (f : Finset Int) :
    n.isRecognizedFrom (c :: rest) f =
      if f = ∅ then false else n.isRecognizedFrom rest (n.processNextCharacter c f) := rfl

/-- The deterministic recognizer on the converted machine, started in the node of a state-set,
answers as the non-deterministic recognizer started with that state-set as frontier. -/
theorem ConversionResult.simulation {a d : FiniteStateMachine} {m : MapStatesToInt}
    (r : ConversionResult a d m) (str : List Char) :
    FiniteStateMachine.EPSILON ∉ str → ∀ (s : Finset Int) (i : Int), m.lookup s = some i →
      (CompiledDfa.new d).isRecognizedFrom str i =
        (CompiledNfaEpsilon.new a).isRecognizedFrom str s := by
  induction str with
  | nil =>
    intro _ s i hs
    show decide (i ∈ d.goalNodes) = decide (∃ q ∈ s, q ∈ a.goalNodes)
    apply decide_eq_decide.mpr
    rw [r.goals]
    constructor
    · rintro ⟨s', hs', h⟩
      rwa [r.idInj s' s i hs' hs] at h
    · intro h
      exact ⟨s, hs, h⟩
  | cons c rest ih =>
    intro hstr s i hs
    have hc : c ≠ FiniteStateMachine.EPSILON := fun e => hstr (e ▸ List.mem_cons_self _ _)
    have hrest : FiniteStateMachine.EPSILON ∉ rest := fun h => hstr (List.mem_cons_of_mem _ h)
    have hi : i ≠ -1 := by
      have := r.idPositive s i hs
      omega
    have hne : s ≠ ∅ := Finset.nonempty_iff_ne_empty.mp (r.keyBound s i hs).1
    rw [dfa_isRecognizedFrom_cons, if_neg hi, nfa_isRecognizedFrom_cons, if_neg hne]
    by_cases hsym : HasSymbol a s c
    · obtain ⟨j, hj, hg⟩ := r.graph_of_hasSymbol s i c hs hsym
      rw [dfa_processNextCharacter_some _ _ _ _ hg]
      exact ih hrest _ j hj
    · rw [dfa_processNextCharacter_none _ _ _ (r.graph_of_not_hasSymbol s i c hs hsym),
        dfa_isRecognizedFrom_dead _ rest (Or.inl r.dead_not_goal)]
      have : (CompiledNfaEpsilon.new a).processNextCharacter c s = ∅ :=
        subsetMove_of_not_hasSymbol a s c hc hsym
      rw [this, nfa_isRecognizedFrom_empty]

/-- C1: language equivalence. For every NFA-ε machine and every string without the epsilon
character, the non-deterministic recognizer on the machine and the deterministic recognizer on
the machine returned by `convertNfaEpsilonToDfa`, run from the initial conversion context, give
the same answer (and the conversion does return a machine). -/
theorem convert_language_equivalence (order : IterationOrder) (a : FiniteStateMachine)
    (s : List Char) (hs : FiniteStateMachine.EPSILON ∉ s) :
    ∃ d cd, convertNfaEpsilonToDfa order ConversionData.initial a = some (d, cd) ∧
      (CompiledNfaEpsilon.new a).isRecognized s = (CompiledDfa.new d).isRecognized s := by
  obtain ⟨d, cd, hconv, _, r⟩ := convertNfaEpsilonToDfa_spec order a
  refine ⟨d, cd, hconv, ?_⟩
  unfold CompiledNfaEpsilon.isRecognized CompiledDfa.isRecognized
  show (CompiledNfaEpsilon.new a).isRecognizedFrom s
      ((CompiledNfaEpsilon.new a).getEpsilonClosure (insert a.startNode ∅)) =
    (CompiledDfa.new d).isRecognizedFrom s d.startNode
  rw [nfa_getEpsilonClosure_eq]
  exact (r.simulation s hs _ _ r.start).symm

/-- An instance of `convert_language_equivalence` on `insertionHistoryMachine` and `"ab"`, with
the characters of every state-set visited in the reverse of the order of their insertion: those
of `{0}` as `'b'`, `'a'` and those of `{1}` as `'a'`, `'b'`. -/
theorem convert_language_equivalence_witness :
    FiniteStateMachine.EPSILON ∉ ['a', 'b'] ∧
      ∃ d cd, convertNfaEpsilonToDfa IterationOrder.reverseInsertion ConversionData.initial
          insertionHistoryMachine = some (d, cd) ∧
        (CompiledNfaEpsilon.new insertionHistoryMachine).isRecognized ['a', 'b'] =
          (CompiledDfa.new d).isRecognized ['a', 'b'] :=
  ⟨by decide,
    convert_language_equivalence IterationOrder.reverseInsertion insertionHistoryMachine
      ['a', 'b'] (by decide)⟩

/-- C2: determinism of the converted machine. In the transition list returned by
`convertNfaEpsilonToDfa`, run from the initial conversion context, no two transitions share
their (source, symbol) pair. -/
theorem convert_deterministic (order : IterationOrder) (a : FiniteStateMachine) :
    ∃ d cd, convertNfaEpsilonToDfa order ConversionData.initial a = some (d, cd) ∧
      DistinctPairs d.transitions ∧
      ∀ t1 ∈ d.transitions, ∀ t2 ∈ d.transitions,
        t1.source = t2.source → t1.transitionChar = t2.transitionChar → t1 = t2 := by
  obtain ⟨d, cd, hconv, _, r⟩ := convertNfaEpsilonToDfa_spec order a
  refine ⟨d, cd, hconv, r.distinct, ?_⟩
  intro t1 h1 t2 h2 hsrc hch
  apply List.inj_on_of_nodup_map r.distinct h1 h2
  show (t1.source, t1.transitionChar) = (t2.source, t2.transitionChar)
  rw [hsrc, hch]

/-- C3: the machine returned by a call of `convertNfaEpsilonToDfa` is well-formed, in the initial
conversion context and in every context left by earlier calls: the call returns, and the start
node, the goal nodes and the endpoints of the transitions of the returned machine are members of
its nodes. -/
theorem convert_wellFormed (order : IterationOrder) (cd : ConversionData)
    (hcd : ReachableContext cd) (a : FiniteStateMachine) :
    ∃ d cd', convertNfaEpsilonToDfa order cd a = some (d, cd') ∧
      d.startNode ∈ d.nodes ∧ d.goalNodes ⊆ d.nodes ∧
      ∀ t ∈ d.transitions, t.source ∈ d.nodes ∧ t.destination ∈ d.nodes := by
  obtain ⟨_, cd2, _, _, hconv, hidle, hstart⟩ := convertNfaEpsilonToDfa_idle order cd hcd.idleContext a
  exact ⟨_, _, hconv, hstart, hidle.goalNodes,
    fun t ht => ⟨(hidle.transitions t ht).1, (hidle.transitions t ht).2.1⟩⟩

/-- An instance of `convert_wellFormed`: the first call of a program run, on `smallNfaMachine`. -/
theorem convert_wellFormed_witness :
    ReachableContext ConversionData.initial ∧
      ∃ d cd', convertNfaEpsilonToDfa IterationOrder.increasing ConversionData.initial
          smallNfaMachine = some (d, cd') ∧
        d.startNode ∈ d.nodes ∧ d.goalNodes ⊆ d.nodes ∧
        ∀ t ∈ d.transitions, t.source ∈ d.nodes ∧ t.destination ∈ d.nodes :=
  ⟨ReachableContext.initial,
    convert_wellFormed IterationOrder.increasing ConversionData.initial
      ReachableContext.initial smallNfaMachine⟩

/-- C4: no transition of the machine returned by a call of `convertNfaEpsilonToDfa` is labelled
with the epsilon character, in the initial conversion context and in every context left by
earlier calls. -/
theorem convert_no_epsilon (order : IterationOrder) (cd : ConversionData)
    (hcd : ReachableContext cd) (a : FiniteStateMachine) :
    ∃ d cd', convertNfaEpsilonToDfa order cd a = some (d, cd') ∧
      ∀ t ∈ d.transitions, t.transitionChar ≠ FiniteStateMachine.EPSILON := by
  obtain ⟨_, cd2, _, _, hconv, hidle, _⟩ := convertNfaEpsilonToDfa_idle order cd hcd.idleContext a
  exact ⟨_, _, hconv, fun t ht => (hidle.transitions t ht).2.2⟩

/-- An instance of `convert_no_epsilon`: the first call of a program run, on `smallNfaMachine`,
two of whose three transitions are epsilon transitions. -/
theorem convert_no_epsilon_witness :
    ReachableContext ConversionData.initial ∧
      ∃ d cd', convertNfaEpsilonToDfa IterationOrder.increasing ConversionData.initial
          smallNfaMachine = some (d, cd') ∧
        ∀ t ∈ d.transitions, t.transitionChar ≠ FiniteStateMachine.EPSILON :=
  ⟨ReachableContext.initial,
    convert_no_epsilon IterationOrder.increasing ConversionData.initial
      ReachableContext.initial smallNfaMachine⟩

/-- C5: node bound. For a well-formed machine with `n` nodes, the machine returned by
`convertNfaEpsilonToDfa`, run from the initial conversion context, has at most `2 ^ n` nodes. -/
theorem convert_node_bound (order : IterationOrder) (a : FiniteStateMachine)
    (hwf : a.WellFormed) :
    ∃ d cd, convertNfaEpsilonToDfa order ConversionData.initial a = some (d, cd) ∧
      d.nodes.card ≤ 2 ^ a.nodes.card := by
  obtain ⟨d, cd, hconv, _, r⟩ := convertNfaEpsilonToDfa_spec order a
  refine ⟨d, cd, hconv, ?_⟩
  have hsub : d.nodes ⊆ ((cd.mapSetToDfaNode.entries.map Prod.fst).toFinset).image
      (fun s => (cd.mapSetToDfaNode.lookup s).getD 0) := by
    intro i hi
    obtain ⟨s, hs⟩ := (r.nodes i).mp hi
    rw [Finset.mem_image]
    refine ⟨s, ?_, by rw [hs]; rfl⟩
    rw [List.mem_toFinset, List.mem_map]
    exact ⟨(s, i), (MapStatesToInt.mem_entries_iff _ _ _).mpr hs, rfl⟩
  have hkeys : (cd.mapSetToDfaNode.entries.map Prod.fst).toFinset ⊆ a.nodes.powerset := by
    intro s hs
    rw [List.mem_toFinset, List.mem_map] at hs
    obtain ⟨⟨s', i⟩, hmem, hfst⟩ := hs
    have hlook := (MapStatesToInt.mem_entries_iff _ _ _).mp hmem
    simp only at hfst
    subst hfst
    rw [Finset.mem_powerset]
    intro q hq
    have := (r.keyBound s' i hlook).2 hq
    rw [Finset.mem_insert] at this
    rcases this with h | h
    · rw [h]; exact hwf.1
    · unfold destinationSet at h
      rw [List.mem_toFinset, List.mem_map] at h
      obtain ⟨t, ht, hd⟩ := h
      rw [← hd]
      exact (hwf.2.2 t ht).2
  calc d.nodes.card
      ≤ (((cd.mapSetToDfaNode.entries.map Prod.fst).toFinset).image
          (fun s => (cd.mapSetToDfaNode.lookup s).getD 0)).card := Finset.card_le_card hsub
    _ ≤ ((cd.mapSetToDfaNode.entries.map Prod.fst).toFinset).card := Finset.card_image_le
    _ ≤ a.nodes.powerset.card := Finset.card_le_card hkeys
    _ = 2 ^ a.nodes.card := Finset.card_powerset _

/-- An instance of `convert_node_bound` on `smallNfaMachine`. -/
theorem convert_node_bound_witness :
    smallNfaMachine.WellFormed ∧
      ∃ d cd, convertNfaEpsilonToDfa IterationOrder.increasing ConversionData.initial
          smallNfaMachine = some (d, cd) ∧
        d.nodes.card ≤ 2 ^ smallNfaMachine.nodes.card :=
  ⟨by unfold FiniteStateMachine.WellFormed; decide,
    convert_node_bound IterationOrder.increasing smallNfaMachine
      (by unfold FiniteStateMachine.WellFormed; decide)⟩

theorem processPendingSets_fuel_mono (order : IterationOrder) (fuel : Nat) :
    ∀ (cd result : ConversionData) (extra : Nat),
      processPendingSets order fuel cd = some result →
        processPendingSets order (fuel + extra) cd = some result := by
  induction fuel with
  | zero => intro cd result extra h; cases h
  | succ fuel ih =>
    intro cd result extra h
    rw [Nat.add_right_comm]
    unfold processPendingSets at h ⊢
    by_cases hp : cd.pendingSetsOfNodes = []
    · rw [if_pos hp] at h ⊢
      exact h
    · rw [if_neg hp] at h ⊢
      cases hstep : processCurrentSetOfNodes order cd with
      | none => rw [hstep] at h; cases h
      | some cd1 =>
        rw [hstep] at h
        exact ih cd1 result extra h

/-- C6: the conversion terminates. In the initial conversion context and in every context left
by earlier calls, the work-queue loop of `convertNfaEpsilonToDfa` reaches an empty queue within
the bound `conversionFuel`, a larger bound gives the same final state, and the call returns. -/
theorem convert_terminates (order : IterationOrder) (cd : ConversionData)
    (hcd : ReachableContext cd) (a : FiniteStateMachine) :
    ∃ cd1 cd2, getStartNodeForDFA { cd with nfaEpsilon := a } = some cd1 ∧
      processPendingSets order (conversionFuel cd1) cd1 = some cd2 ∧
      cd2.pendingSetsOfNodes = [] ∧
      (∀ extra, processPendingSets order (conversionFuel cd1 + extra) cd1 = some cd2) ∧
      convertNfaEpsilonToDfa order cd a =
        some ((getGoalNodesForDFA cd2).dfa, getGoalNodesForDFA cd2) := by
  obtain ⟨cd1, cd2, h1, h2, hconv, hidle, _⟩ := convertNfaEpsilonToDfa_idle order cd hcd.idleContext a
  exact ⟨cd1, cd2, h1, h2, hidle.pendingEmpty,
    fun extra => processPendingSets_fuel_mono order _ cd1 cd2 extra h2, hconv⟩

/-- An instance of `convert_terminates`: the first call of a program run, on `smallNfaMachine`,
whose epsilon transitions form a cycle with its one labelled transition. -/
theorem convert_terminates_witness :
    ReachableContext ConversionData.initial ∧
      ∃ cd1 cd2,
        getStartNodeForDFA { ConversionData.initial with nfaEpsilon := smallNfaMachine } =
          some cd1 ∧
        processPendingSets IterationOrder.increasing (conversionFuel cd1) cd1 = some cd2 ∧
        cd2.pendingSetsOfNodes = [] ∧
        (∀ extra, processPendingSets IterationOrder.increasing (conversionFuel cd1 + extra)
          cd1 = some cd2) ∧
        convertNfaEpsilonToDfa IterationOrder.increasing ConversionData.initial
          smallNfaMachine = some ((getGoalNodesForDFA cd2).dfa, getGoalNodesForDFA cd2) :=
  ⟨ReachableContext.initial,
    convert_terminates IterationOrder.increasing ConversionData.initial
      ReachableContext.initial smallNfaMachine⟩

/-- C7 fails on the code: the global `conversionData` is not reset between calls. Converting
`unreachableGoalMachine` after `smallDfaMachine` returns `staleConvertedMachine`, which keeps the
nodes and the transition of the first conversion and accepts `"a"`; converting it from the
initial context returns `freshConvertedMachine`, which rejects `"a"` as the NFA-ε itself does. -/
theorem convert_second_call_depends_on_first :
    Returns (convertAfter IterationOrder.increasing smallDfaMachine unreachableGoalMachine)
        staleConvertedMachine ∧
      Returns (convertNfaEpsilonToDfa IterationOrder.increasing ConversionData.initial
        unreachableGoalMachine) freshConvertedMachine ∧
      staleConvertedMachine ≠ freshConvertedMachine ∧
      (CompiledDfa.new staleConvertedMachine).isRecognized ['a'] = true ∧
      (CompiledDfa.new freshConvertedMachine).isRecognized ['a'] = false ∧
      (CompiledNfaEpsilon.new unreachableGoalMachine).isRecognized ['a'] = false := by
  refine ⟨by decide, by decide, by decide, by decide, by decide, by decide⟩

/-! ## Empty sequence and epsilon closure -/

/-- C11: for every machine, `CompiledDfa::isRecognized` accepts the empty string iff the start
node is a goal node. -/
theorem dfa_accepts_empty_iff (m : FiniteStateMachine) :
    (CompiledDfa.new m).isRecognized [] = true ↔ m.startNode ∈ m.goalNodes := by
  show decide (m.startNode ∈ m.goalNodes) = true ↔ _
  exact decide_eq_true_iff

theorem insert_empty_eq_singleton (q : Int) : (insert q ∅ : Finset Int) = {q} :=
  LawfulSingleton.insert_emptyc_eq q

/-- C12: for every machine, `CompiledNfaEpsilon::isRecognized` accepts the empty string iff the
epsilon-closure of `{startNode}`, as the recognizer computes it and as the set of states
reachable from `startNode` by epsilon transitions, contains a goal node. -/
theorem nfa_accepts_empty_iff (m : FiniteStateMachine) :
    ((CompiledNfaEpsilon.new m).isRecognized [] = true ↔
        ∃ q ∈ (CompiledNfaEpsilon.new m).getEpsilonClosure {m.startNode}, q ∈ m.goalNodes) ∧
      ((CompiledNfaEpsilon.new m).isRecognized [] = true ↔
        ∃ q, EpsilonReach m.transitions {m.startNode} q ∧ q ∈ m.goalNodes) := by
  have h1 : (CompiledNfaEpsilon.new m).isRecognized [] = true ↔
      ∃ q ∈ (CompiledNfaEpsilon.new m).getEpsilonClosure {m.startNode}, q ∈ m.goalNodes := by
    rw [← insert_empty_eq_singleton]
    show decide (∃ q ∈ (CompiledNfaEpsilon.new m).getEpsilonClosure (insert m.startNode ∅),
      q ∈ m.goalNodes) = true ↔ _
    exact decide_eq_true_iff
  refine ⟨h1, h1.trans ?_⟩
  constructor
  · rintro ⟨q, hq, hg⟩
    exact ⟨q, nfa_mem_getEpsilonClosure.mp hq, hg⟩
  · rintro ⟨q, hq, hg⟩
    exact ⟨q, nfa_mem_getEpsilonClosure.mpr hq, hg⟩

theorem EpsilonReach.of_mem_imp {ts ts' : List Transition} {s : Finset Int} {q : Int}
    (h : EpsilonReach ts s q) (hts : ∀ t, t ∈ ts → t ∈ ts') : EpsilonReach ts' s q := by
  induction h with
  | base hq => exact EpsilonReach.base hq
  | step _ ht ih =>
    obtain ⟨t, ht, h1⟩ := ht
    exact EpsilonReach.step ih ⟨t, hts t ht, h1⟩

/-- The closure depends on the transition list only through its members. -/
theorem getEpsilonClosure_congr (s : Finset Int) (ts ts' : List Transition)
    (h : ∀ t, t ∈ ts ↔ t ∈ ts') : getEpsilonClosure s ts = getEpsilonClosure s ts' := by
  ext q
  rw [mem_getEpsilonClosure, mem_getEpsilonClosure]
  exact ⟨fun hq => hq.of_mem_imp (fun t => (h t).mp), fun hq => hq.of_mem_imp (fun t => (h t).mpr)⟩

theorem getEpsilonClosure_of_closed (s : Finset Int) (ts : List Transition)
    (h : EpsilonClosed ts s) : getEpsilonClosure s ts = s := by
  apply Finset.Subset.antisymm
  · intro q hq
    exact (mem_getEpsilonClosure.mp hq).mem_of_closed (Finset.Subset.refl _) h
  · exact subset_getEpsilonClosure s ts

theorem getEpsilonClosure_closed (s : Finset Int) (ts : List Transition) :
    EpsilonClosed ts (getEpsilonClosure s ts) :=
  (getEpsilonClosure_spec s ts).2.2.1

theorem nfa_visitStep_fold_subset (n : CompiledNfaEpsilon) (l : List Int) :
    ∀ acc : Finset Int × Nat, acc.1 ⊆ (l.foldl n.epsilonVisitStep acc).1 := by
  induction l with
  | nil => intro acc; exact Finset.Subset.refl _
  | cons p l ih =>
    intro acc
    rw [List.foldl_cons]
    refine Finset.Subset.trans ?_ (ih _)
    unfold CompiledNfaEpsilon.epsilonVisitStep
    split
    · exact Finset.subset_union_left
    · exact Finset.Subset.refl _

theorem nfa_visitStep_fold_card (n : CompiledNfaEpsilon) (l : List Int) :
    ∀ acc : Finset Int × Nat,
      (l.foldl n.epsilonVisitStep acc).1.card + acc.2 =
        acc.1.card + (l.foldl n.epsilonVisitStep acc).2 := by
  induction l with
  | nil => intro acc; simp
  | cons p l ih =>
    intro acc
    rw [List.foldl_cons]
    have h := ih (n.epsilonVisitStep acc p)
    unfold CompiledNfaEpsilon.epsilonVisitStep at h ⊢
    split at h
    · rename_i hc
      rw [if_pos hc]
      have hcard : (acc.1 ∪ n.destinationsOf (p, FiniteStateMachine.EPSILON)).card =
          acc.1.card + (n.destinationsOf (p, FiniteStateMachine.EPSILON) \ acc.1).card := by
        rw [← Finset.card_union_of_disjoint Finset.disjoint_sdiff, Finset.union_sdiff_self_eq_union]
      simp only at h ⊢
      omega
    · rename_i hc
      rw [if_neg hc]
      exact h

theorem nfa_visitStep_fold_reach (m : FiniteStateMachine) (s : Finset Int) (l : List Int) :
    ∀ acc : Finset Int × Nat, (∀ q ∈ acc.1, EpsilonReach m.transitions s q) →
      ∀ q ∈ (l.foldl (CompiledNfaEpsilon.new m).epsilonVisitStep acc).1,
        EpsilonReach m.transitions s q := by
  induction l with
  | nil => intro acc h; exact h
  | cons p l ih =>
    intro acc hacc
    rw [List.foldl_cons]
    apply ih
    unfold CompiledNfaEpsilon.epsilonVisitStep
    split
    · rename_i hc
      intro q hq
      rcases Finset.mem_union.mp hq with h1 | h1
      · exact hacc q h1
      · exact EpsilonReach.step (hacc p hc) ((nfa_mem_destinationsOf m p _ q).mp h1)
    · exact hacc

theorem nfa_visitStep_fold_closed (n : CompiledNfaEpsilon) (l : List Int) :
    ∀ acc : Finset Int × Nat, (l.foldl n.epsilonVisitStep acc).2 = acc.2 →
      ∀ p ∈ l, p ∈ acc.1 → n.destinationsOf (p, FiniteStateMachine.EPSILON) ⊆ acc.1 := by
  induction l with
  | nil => intro acc _ p hp; cases hp
  | cons p0 l ih =>
    intro acc h
    rw [List.foldl_cons] at h
    have hcard := nfa_visitStep_fold_card n l (n.epsilonVisitStep acc p0)
    have hsub := nfa_visitStep_fold_subset n l (n.epsilonVisitStep acc p0)
    have hle := Finset.card_le_card hsub
    have hstep1 : acc.1 ⊆ (n.epsilonVisitStep acc p0).1 := by
      unfold CompiledNfaEpsilon.epsilonVisitStep
      split
      · exact Finset.subset_union_left
      · exact Finset.Subset.refl _
    have hstepcard : (n.epsilonVisitStep acc p0).1.card + acc.2 =
        acc.1.card + (n.epsilonVisitStep acc p0).2 := by
      have := nfa_visitStep_fold_card n [p0] acc
      simpa using this
    have hle1 := Finset.card_le_card hstep1
    have hstep2 : (n.epsilonVisitStep acc p0).2 = acc.2 := by omega
    have hstepeq : (n.epsilonVisitStep acc p0).1 = acc.1 :=
      (Finset.eq_of_subset_of_card_le hstep1 (by omega)).symm
    have hacc : n.epsilonVisitStep acc p0 = acc := Prod.ext hstepeq hstep2
    intro p hp hpacc
    rcases List.mem_cons.mp hp with h1 | h1
    · subst h1
      have : (acc.1 ∪ n.destinationsOf (p, FiniteStateMachine.EPSILON),
          acc.2 + (n.destinationsOf (p, FiniteStateMachine.EPSILON) \ acc.1).card).1 = acc.1 := by
        have h2 := hstepeq
        unfold CompiledNfaEpsilon.epsilonVisitStep at h2
        rw [if_pos hpacc] at h2
        exact h2
      exact Finset.union_eq_left.mp this
    · rw [hacc] at h
      exact ih acc h p h1 hpacc

theorem nfa_epsilonPassVisiting_closurePass (m : FiniteStateMachine) (order : VisitOrder) :
    ClosurePass m.transitions ((CompiledNfaEpsilon.new m).epsilonPassVisiting order) where
  subset s := nfa_visitStep_fold_subset _ _ (s, 0)
  reach s := nfa_visitStep_fold_reach m s _ (s, 0) (fun _ h => EpsilonReach.base h)
  closed s h := by
    intro t ht hsrc hch
    have := nfa_visitStep_fold_closed (CompiledNfaEpsilon.new m) (order.visit s) (s, 0) h
      t.source (order.visitsPresent s _ hsrc) hsrc
    exact this ((nfa_mem_destinationsOf m _ _ _).mpr ⟨t, ht, rfl, hch, rfl⟩)
  fixed s h := by
    have hcard := nfa_visitStep_fold_card (CompiledNfaEpsilon.new m) (order.visit s) (s, 0)
    have hsub := nfa_visitStep_fold_subset (CompiledNfaEpsilon.new m) (order.visit s) (s, 0)
    unfold CompiledNfaEpsilon.epsilonPassVisiting at h ⊢
    simp only at hcard hsub h ⊢
    exact (Finset.eq_of_subset_of_card_le hsub (by omega)).symm
  grows s h := by
    have hcard := nfa_visitStep_fold_card (CompiledNfaEpsilon.new m) (order.visit s) (s, 0)
    unfold CompiledNfaEpsilon.epsilonPassVisiting at h ⊢
    simp only at hcard h ⊢
    by_contra hne
    push_neg at hne
    have : ((order.visit s).foldl (CompiledNfaEpsilon.new m).epsilonVisitStep (s, 0)).1 ⊆ s :=
      fun q hq => hne q hq
    have := Finset.card_le_card this
    omega

theorem nfa_getEpsilonClosureVisitingFuel_eq_closureIterate (n : CompiledNfaEpsilon)
    (order : VisitOrder) :
    ∀ (fuel : Nat) (s : Finset Int),
      n.getEpsilonClosureVisitingFuel order fuel s =
        closureIterate (n.epsilonPassVisiting order) fuel s := by
  intro fuel
  induction fuel with
  | zero => intro s; rfl
  | succ fuel ih =>
    intro s
    unfold CompiledNfaEpsilon.getEpsilonClosureVisitingFuel closureIterate
    simp only [ih]

/-- Whatever the order in which the passes visit the states, the recursion stops within the bound
and computes the epsilon-reachable states. -/
theorem nfa_getEpsilonClosureVisiting_spec (m : FiniteStateMachine) (order : VisitOrder)
    (s : Finset Int) :
    (CompiledNfaEpsilon.new m).getEpsilonClosureVisitingFuel order (m.transitions.length + 1) s =
        some ((CompiledNfaEpsilon.new m).getEpsilonClosureVisiting order s) ∧
      ∀ q, q ∈ (CompiledNfaEpsilon.new m).getEpsilonClosureVisiting order s ↔
        EpsilonReach m.transitions s q := by
  obtain ⟨r, hr, hsub, hcl, hreach⟩ :=
    closureIterate_spec (nfa_epsilonPassVisiting_closurePass m order)
      (m.transitions.length + 1) s (destinationSet_card_le m.transitions s)
  rw [← nfa_getEpsilonClosureVisitingFuel_eq_closureIterate] at hr
  have : (CompiledNfaEpsilon.new m).getEpsilonClosureVisiting order s = r := by
    show (Option.getD ((CompiledNfaEpsilon.new m).getEpsilonClosureVisitingFuel order
      (m.transitions.length + 1) s) s) = r
    rw [hr]
    rfl
  rw [this]
  exact ⟨hr, fun q => ⟨hreach q, fun h => h.mem_of_closed hsub hcl⟩⟩

/-- C13: epsilon-closure computes epsilon-reachability. For every transition list (the one of a
machine `m`) and every finite state-set, both `getEpsilonClosure` functions leave in the set
exactly the states reachable from a member of the original set by zero or more epsilon
transitions; the result contains the original set, is the same for every permutation of the
transition list, and is the same for every order in which the passes of the recognizer visit the
states. -/
theorem getEpsilonClosure_computes_reachability (m : FiniteStateMachine) (s : Finset Int) :
    (∀ q, q ∈ getEpsilonClosure s m.transitions ↔ EpsilonReach m.transitions s q) ∧
      (∀ q, q ∈ (CompiledNfaEpsilon.new m).getEpsilonClosure s ↔
        EpsilonReach m.transitions s q) ∧
      s ⊆ getEpsilonClosure s m.transitions ∧
      s ⊆ (CompiledNfaEpsilon.new m).getEpsilonClosure s ∧
      (∀ ts, ts.Perm m.transitions →
        getEpsilonClosure s ts = getEpsilonClosure s m.transitions ∧
        (CompiledNfaEpsilon.new { m with transitions := ts }).getEpsilonClosure s =
          (CompiledNfaEpsilon.new m).getEpsilonClosure s) ∧
      ∀ order : VisitOrder,
        (CompiledNfaEpsilon.new m).getEpsilonClosureVisiting order s =
          (CompiledNfaEpsilon.new m).getEpsilonClosure s := by
  refine ⟨fun q => mem_getEpsilonClosure, fun q => nfa_mem_getEpsilonClosure,
    subset_getEpsilonClosure _ _, (nfa_getEpsilonClosure_spec m s).2.1, ?_, ?_⟩
  · intro ts hts
    have h := getEpsilonClosure_congr s ts m.transitions (fun t => hts.mem_iff)
    refine ⟨h, ?_⟩
    rw [nfa_getEpsilonClosure_eq, nfa_getEpsilonClosure_eq]
    exact h
  · intro order
    ext q
    rw [(nfa_getEpsilonClosureVisiting_spec m order s).2, nfa_mem_getEpsilonClosure]

/-- C14: epsilon-closure is idempotent. For every transition list (the one of a machine `m`) and
every finite state-set, applying either `getEpsilonClosure` function to its own result yields the
result again. -/
theorem getEpsilonClosure_idempotent (m : FiniteStateMachine) (s : Finset Int) :
    getEpsilonClosure (getEpsilonClosure s m.transitions) m.transitions =
        getEpsilonClosure s m.transitions ∧
      (CompiledNfaEpsilon.new m).getEpsilonClosure ((CompiledNfaEpsilon.new m).getEpsilonClosure s) =
        (CompiledNfaEpsilon.new m).getEpsilonClosure s := by
  have h := getEpsilonClosure_of_closed _ _ (getEpsilonClosure_closed s m.transitions)
  refine ⟨h, ?_⟩
  rw [nfa_getEpsilonClosure_eq, nfa_getEpsilonClosure_eq]
  exact h

/-! ## Goal nodes and emitted transitions -/

/-- C15: goal nodes of the converted machine. After `convertNfaEpsilonToDfa` run from the initial
conversion context, every node of the output is the id of exactly one state-set, every goal node
is a node, and the id of a state-set is a goal node iff the state-set contains a goal node of the
input. -/
theorem convert_goal_nodes (order : IterationOrder) (a : FiniteStateMachine) :
    ∃ d cd, convertNfaEpsilonToDfa order ConversionData.initial a = some (d, cd) ∧
      (∀ i ∈ d.nodes, ∃ s, cd.mapSetToDfaNode.lookup s = some i ∧
        ∀ s', cd.mapSetToDfaNode.lookup s' = some i → s' = s) ∧
      d.goalNodes ⊆ d.nodes ∧
      ∀ s i, cd.mapSetToDfaNode.lookup s = some i →
        (i ∈ d.goalNodes ↔ ∃ q ∈ s, q ∈ a.goalNodes) := by
  obtain ⟨d, cd, hconv, _, r⟩ := convertNfaEpsilonToDfa_spec order a
  refine ⟨d, cd, hconv, ?_, ?_, ?_⟩
  · intro i hi
    obtain ⟨s, hs⟩ := (r.nodes i).mp hi
    exact ⟨s, hs, fun s' hs' => r.idInj s' s i hs' hs⟩
  · intro i hi
    obtain ⟨s, hs, _⟩ := (r.goals i).mp hi
    exact (r.nodes i).mpr ⟨s, hs⟩
  · intro s i hs
    rw [r.goals]
    constructor
    · rintro ⟨s', hs', h⟩
      rwa [r.idInj s' s i hs' hs] at h
    · intro h
      exact ⟨s, hs, h⟩

theorem mem_moveDestinations (a : FiniteStateMachine) (s : Finset Int) (c : Char) (q : Int) :
    q ∈ moveDestinations a s c ↔
      ∃ t ∈ a.transitions, t.source ∈ s ∧ t.transitionChar = c ∧ t.destination = q := by
  unfold moveDestinations
  rw [List.mem_toFinset, List.mem_map]
  constructor
  · rintro ⟨t, ht, hq⟩
    rw [List.mem_filter] at ht
    have h := of_decide_eq_true ht.2
    exact ⟨t, ht.1, h.1, h.2, hq⟩
  · rintro ⟨t, ht, hs, hc, hq⟩
    exact ⟨t, List.mem_filter.mpr ⟨ht, decide_eq_true ⟨hs, hc⟩⟩, hq⟩

/-- The subset-construction move is the epsilon-closure of the destinations on the symbol. -/
theorem subsetMove_eq_closure_moveDestinations (a : FiniteStateMachine) (s : Finset Int)
    (c : Char) :
    subsetMove a c s = getEpsilonClosure (moveDestinations a s c) a.transitions := by
  unfold subsetMove
  rw [nfa_processNextCharacter_eq]
  congr 1
  ext q
  rw [mem_moveDestinations, Finset.mem_biUnion]
  constructor
  · rintro ⟨p, hp, hq⟩
    obtain ⟨t, ht, hs, hc, hd⟩ := (nfa_mem_destinationsOf _ _ _ _).mp hq
    exact ⟨t, ht, hs ▸ hp, hc, hd⟩
  · rintro ⟨t, ht, hs, hc, hd⟩
    exact ⟨t.source, hs, (nfa_mem_destinationsOf _ _ _ _).mpr ⟨t, ht, rfl, hc, hd⟩⟩

/-- C18: the emitted transitions are exactly the subset-construction moves. After
`convertNfaEpsilonToDfa` run from the initial conversion context, for every discovered state-set
`s` and every non-epsilon symbol `c` labelling a transition of the input with source in `s`, the
epsilon-closure of the destinations on `c` from `s` is discovered and the triple of the two ids
and `c` is emitted (whether that closure was new or known); and every emitted transition is such
a triple. -/
theorem convert_transitions_are_moves (order : IterationOrder) (a : FiniteStateMachine) :
    ∃ d cd, convertNfaEpsilonToDfa order ConversionData.initial a = some (d, cd) ∧
      (∀ s i c, cd.mapSetToDfaNode.lookup s = some i → c ≠ FiniteStateMachine.EPSILON →
        (∃ t ∈ a.transitions, t.source ∈ s ∧ t.transitionChar = c) →
        ∃ j, cd.mapSetToDfaNode.lookup
            (getEpsilonClosure (moveDestinations a s c) a.transitions) = some j ∧
          { source := i, transitionChar := c, destination := j } ∈ d.transitions) ∧
      ∀ t ∈ d.transitions, ∃ s,
        cd.mapSetToDfaNode.lookup s = some t.source ∧
        t.transitionChar ≠ FiniteStateMachine.EPSILON ∧
        (∃ t0 ∈ a.transitions, t0.source ∈ s ∧ t0.transitionChar = t.transitionChar) ∧
        cd.mapSetToDfaNode.lookup
          (getEpsilonClosure (moveDestinations a s t.transitionChar) a.transitions) =
            some t.destination := by
  obtain ⟨d, cd, hconv, _, r⟩ := convertNfaEpsilonToDfa_spec order a
  refine ⟨d, cd, hconv, ?_, ?_⟩
  · intro s i c hs hc hsym
    rw [← subsetMove_eq_closure_moveDestinations]
    exact r.complete s i c hs ⟨hc, hsym⟩
  · intro t ht
    obtain ⟨s, hs, hsym, hmv⟩ := r.sound t ht
    rw [subsetMove_eq_closure_moveDestinations] at hmv
    exact ⟨s, hs, hsym.1, hsym.2, hmv⟩

/-! ## The control points of a conversion -/

theorem processNextSetOfNodes_some (cd cd' : ConversionData) (cur s' : Finset Int) (c : Char)
    (h : processNextSetOfNodes cd cur s' c = some cd') :
    ∃ i j, (registerNextSetOfNodes cd s').mapSetToDfaNode.lookup cur = some i ∧
      (registerNextSetOfNodes cd s').mapSetToDfaNode.lookup s' = some j ∧
      cd' = { registerNextSetOfNodes cd s' with
        dfa := { (registerNextSetOfNodes cd s').dfa with
          transitions :=
            { source := i, transitionChar := c, destination := j } ::
              (registerNextSetOfNodes cd s').dfa.transitions } } := by
  unfold processNextSetOfNodes at h
  cases hi : (registerNextSetOfNodes cd s').mapSetToDfaNode.lookup cur with
  | none => simp only [hi] at h; cases h
  | some i =>
    cases hj : (registerNextSetOfNodes cd s').mapSetToDfaNode.lookup s' with
    | none => simp only [hi, hj] at h; cases h
    | some j =>
      simp only [hi, hj] at h
      exact ⟨i, j, rfl, rfl, (Option.some.inj h).symm⟩

theorem registerNextSetOfNodes_lookup_cases (cd : ConversionData) (s' t : Finset Int) (i : Int)
    (h : (registerNextSetOfNodes cd s').mapSetToDfaNode.lookup t = some i) :
    cd.mapSetToDfaNode.lookup t = some i ∨
      (cd.mapSetToDfaNode.lookup s' = none ∧ t = s' ∧ i = cd.nodeNumber) := by
  by_cases hnone : cd.mapSetToDfaNode.lookup s' = none
  · rw [registerNextSetOfNodes_of_new cd s' hnone] at h
    have h' : (cd.mapSetToDfaNode.assign s' cd.nodeNumber).lookup t = some i := h
    rw [MapStatesToInt.lookup_assign] at h'
    split at h'
    · rename_i hts
      exact Or.inr ⟨hnone, hts, (Option.some.inj h').symm⟩
    · exact Or.inl h'
  · rw [registerNextSetOfNodes_of_known cd s' hnone] at h
    exact Or.inl h

theorem registerNextSetOfNodes_nodeNumber (cd : ConversionData) (s' : Finset Int) :
    (registerNextSetOfNodes cd s').nodeNumber =
      if cd.mapSetToDfaNode.lookup s' = none then cd.nodeNumber + 1 else cd.nodeNumber := by
  unfold registerNextSetOfNodes
  split <;> rfl

theorem registerNextSetOfNodes_nodes (cd : ConversionData) (s' : Finset Int) :
    (registerNextSetOfNodes cd s').dfa.nodes =
      if cd.mapSetToDfaNode.lookup s' = none then insert cd.nodeNumber cd.dfa.nodes
      else cd.dfa.nodes := by
  unfold registerNextSetOfNodes
  split <;> rfl

theorem ContextExtends.refl (cd : ConversionData) : ContextExtends cd cd :=
  ⟨le_refl _, fun _ _ h => h, fun _ _ h => Or.inl h⟩

theorem ContextExtends.trans {cd1 cd2 cd3 : ConversionData} (h12 : ContextExtends cd1 cd2)
    (h23 : ContextExtends cd2 cd3) : ContextExtends cd1 cd3 := by
  refine ⟨h12.1.trans h23.1, fun s i h => h23.2.1 s i (h12.2.1 s i h), ?_⟩
  intro s j h
  rcases h23.2.2 s j h with h1 | h1
  · exact h12.2.2 s j h1
  · exact Or.inr (h12.1.trans h1)

theorem registerNextSetOfNodes_extends (cd : ConversionData) (s' : Finset Int) :
    ContextExtends cd (registerNextSetOfNodes cd s') := by
  refine ⟨?_, registerNextSetOfNodes_lookup_mono cd s', ?_⟩
  · rw [registerNextSetOfNodes_nodeNumber]
    split <;> omega
  · intro s j h
    rcases registerNextSetOfNodes_lookup_cases cd s' s j h with h1 | ⟨_, _, h1⟩
    · exact Or.inl h1
    · exact Or.inr (by rw [h1])

theorem ConversionStep.contextExtends {order : IterationOrder} {p q : ConversionPoint}
    (h : ConversionStep order p q) : ContextExtends p.data q.data := by
  cases h with
  | dequeue _ => exact ContextExtends.refl _
  | next hstep =>
    obtain ⟨i, j, _, _, hcd⟩ := processNextSetOfNodes_some _ _ _ _ _ hstep
    rw [hcd]
    exact registerNextSetOfNodes_extends _ _

theorem conversionReaches_contextExtends {order : IterationOrder} {p q : ConversionPoint}
    (h : Relation.ReflTransGen (ConversionStep order) p q) : ContextExtends p.data q.data := by
  induction h with
  | refl => exact ContextExtends.refl _
  | tail _ hstep ih => exact ih.trans hstep.contextExtends

theorem ConversionStep.invariant {order : IterationOrder} {a : FiniteStateMachine}
    {p q : ConversionPoint} (h : ConversionStep order p q)
    (hinv : ConversionInvariant a p.data p.current p.todo) :
    ConversionInvariant a q.data q.current q.todo := by
  cases h with
  | dequeue hq => exact hinv.pop _ _ hq order
  | next hstep =>
    obtain ⟨cd'', h1, hinv'⟩ := hinv.nextSet
    rw [getNextSetOfNodes_eq, hinv.nfa, h1] at hstep
    rw [← Option.some.inj hstep]
    exact hinv'.1

theorem ConversionStep.nodesRange {order : IterationOrder} {p q : ConversionPoint}
    (h : ConversionStep order p q) (hcount : 1 ≤ p.data.nodeNumber)
    (hnodes : p.data.dfa.nodes = Finset.Icc 1 (p.data.nodeNumber - 1)) :
    q.data.dfa.nodes = Finset.Icc 1 (q.data.nodeNumber - 1) := by
  cases h with
  | dequeue _ => exact hnodes
  | next hstep =>
    obtain ⟨i, j, _, _, hcd⟩ := processNextSetOfNodes_some _ _ _ _ _ hstep
    rw [hcd]
    show (registerNextSetOfNodes _ _).dfa.nodes =
      Finset.Icc 1 ((registerNextSetOfNodes _ _).nodeNumber - 1)
    rw [registerNextSetOfNodes_nodes, registerNextSetOfNodes_nodeNumber]
    split
    · simp only at hnodes hcount
      rw [hnodes]
      ext k
      simp only [Finset.mem_insert, Finset.mem_Icc]
      omega
    · exact hnodes

theorem ConversionStep.subsetReach {order : IterationOrder} {a : FiniteStateMachine}
    {p q : ConversionPoint} (h : ConversionStep order p q)
    (hinv : ConversionInvariant a p.data p.current p.todo)
    (hreach : ∀ s i, p.data.mapSetToDfaNode.lookup s = some i → SubsetReach a s) :
    ∀ s i, q.data.mapSetToDfaNode.lookup s = some i → SubsetReach a s := by
  cases h with
  | dequeue _ => exact hreach
  | @next cd cd' cur c todo hstep =>
    obtain ⟨i, j, _, _, hcd⟩ := processNextSetOfNodes_some _ _ _ _ _ hstep
    intro s k hs
    rw [hcd] at hs
    rcases registerNextSetOfNodes_lookup_cases _ _ _ _ hs with h1 | ⟨_, h1, _⟩
    · exact hreach s k h1
    · rw [h1, getNextSetOfNodes_eq, hinv.nfa]
      obtain ⟨⟨i0, hi0⟩, _⟩ := hinv.currentKnown (List.cons_ne_nil _ _)
      exact SubsetReach.move (hreach cur i0 hi0) (hinv.todoSymbols c (List.mem_cons_self _ _))

theorem processTransitionCharactersList_reaches (order : IterationOrder) (cur : Finset Int)
    (todo : List Char) :
    ∀ cd cd' : ConversionData, processTransitionCharactersList cur todo cd = some cd' →
      Relation.ReflTransGen (ConversionStep order) ⟨cd, cur, todo⟩ ⟨cd', cur, []⟩ := by
  induction todo with
  | nil =>
    intro cd cd' h
    unfold processTransitionCharactersList at h
    rw [Option.some.inj h]
  | cons c todo ih =>
    intro cd cd' h
    unfold processTransitionCharactersList at h
    cases hstep : processNextSetOfNodes cd cur (getNextSetOfNodes cd ∅ cur c) c with
    | none => rw [hstep] at h; cases h
    | some cd1 =>
      rw [hstep] at h
      exact Relation.ReflTransGen.head (ConversionStep.next hstep) (ih cd1 cd' h)

theorem processCurrentSetOfNodes_reaches (order : IterationOrder) (cd cd' : ConversionData)
    (x : Finset Int) (h : processCurrentSetOfNodes order cd = some cd') :
    ∃ cur, Relation.ReflTransGen (ConversionStep order) ⟨cd, x, []⟩ ⟨cd', cur, []⟩ := by
  unfold processCurrentSetOfNodes at h
  cases hq : cd.pendingSetsOfNodes with
  | nil => rw [hq] at h; cases h
  | cons cur rest =>
    rw [hq] at h
    exact ⟨cur, Relation.ReflTransGen.head (ConversionStep.dequeue hq)
      (processTransitionCharactersList_reaches order cur _ _ _ h)⟩

theorem processPendingSets_reaches (order : IterationOrder) (fuel : Nat) :
    ∀ (cd cd' : ConversionData) (x : Finset Int), processPendingSets order fuel cd = some cd' →
      ∃ y, Relation.ReflTransGen (ConversionStep order) ⟨cd, x, []⟩ ⟨cd', y, []⟩ := by
  induction fuel with
  | zero => intro cd cd' x h; cases h
  | succ fuel ih =>
    intro cd cd' x h
    unfold processPendingSets at h
    by_cases hp : cd.pendingSetsOfNodes = []
    · rw [if_pos hp] at h
      rw [Option.some.inj h]
      exact ⟨x, Relation.ReflTransGen.refl⟩
    · rw [if_neg hp] at h
      cases hstep : processCurrentSetOfNodes order cd with
      | none => rw [hstep] at h; cases h
      | some cd1 =>
        rw [hstep] at h
        obtain ⟨cur, h1⟩ := processCurrentSetOfNodes_reaches order cd cd1 x hstep
        obtain ⟨y, h2⟩ := ih cd1 cd' cur h
        exact ⟨y, h1.trans h2⟩

/-- The value of the global after `getStartNodeForDFA`, from the initial context. -/
theorem getStartNodeForDFA_initial_eq (a : FiniteStateMachine) :
    getStartNodeForDFA { ConversionData.initial with nfaEpsilon := a } =
      some
        { dfa := { nodes := insert 1 ∅, startNode := 1, goalNodes := ∅, transitions := [] }
          nfaEpsilon := a
          mapSetToDfaNode := MapStatesToInt.empty.assign
            (getEpsilonClosure (insert a.startNode ∅) a.transitions) 1
          nodeNumber := 1 + 1
          pendingSetsOfNodes := [] ++ [getEpsilonClosure (insert a.startNode ∅) a.transitions]
          stateSet := getEpsilonClosure (insert a.startNode ∅) a.transitions } := by
  unfold getStartNodeForDFA
  simp only [ConversionData.initial, MapStatesToInt.lookup_assign_same]

/-- What holds at every control point of a conversion from the initial context. -/
theorem ConversionPointOf.facts {order : IterationOrder} {a : FiniteStateMachine}
    {p : ConversionPoint} (h : ConversionPointOf order a p) :
    ConversionInvariant a p.data p.current p.todo ∧
      p.data.dfa.nodes = Finset.Icc 1 (p.data.nodeNumber - 1) ∧
      (∀ s i, p.data.mapSetToDfaNode.lookup s = some i → SubsetReach a s) ∧
      p.data.mapSetToDfaNode.lookup (getEpsilonClosure (insert a.startNode ∅) a.transitions) =
        some 1 ∧
      p.data.dfa.startNode = 1 := by
  obtain ⟨cd1, hstart, hreach⟩ := h
  obtain ⟨cd1', hstart', hinv1, _⟩ := getStartNodeForDFA_initial a
  rw [hstart] at hstart'
  have hcd : cd1' = cd1 := (Option.some.inj hstart').symm
  subst hcd
  have hexp := getStartNodeForDFA_initial_eq a
  rw [hstart] at hexp
  have hcd1 := Option.some.inj hexp
  induction hreach with
  | refl =>
    refine ⟨hinv1, ?_, ?_, ?_, ?_⟩
    · rw [hcd1]
      rfl
    · intro s i hs
      rw [hcd1] at hs
      have hs' : (MapStatesToInt.empty.assign
          (getEpsilonClosure (insert a.startNode ∅) a.transitions) 1).lookup s = some i := hs
      rw [MapStatesToInt.lookup_assign, MapStatesToInt.lookup_empty] at hs'
      split at hs'
      · rename_i hss
        rw [hss]
        exact SubsetReach.start
      · cases hs'
    · rw [hcd1]
      exact MapStatesToInt.lookup_assign_same _ _ _
    · rw [hcd1]
  | tail _ hstep ih =>
    obtain ⟨hinv, hnodes, hsr, hone, hst⟩ := ih
    have hinv' := hstep.invariant hinv
    refine ⟨hinv', hstep.nodesRange hinv.counter hnodes, hstep.subsetReach hinv hsr,
      hstep.contextExtends.2.1 _ _ hone, ?_⟩
    have h1 := hinv'.start
    rw [hstep.contextExtends.2.1 _ _ hone] at h1
    exact (Option.some.inj h1).symm

/-- A conversion from the initial context goes through control points and returns the machine
completed by `getGoalNodesForDFA` at the control point where the queue is empty. -/
theorem convertNfaEpsilonToDfa_run (order : IterationOrder) (a : FiniteStateMachine) :
    ∃ cd2 x, ConversionPointOf order a ⟨cd2, x, []⟩ ∧ cd2.pendingSetsOfNodes = [] ∧
      convertNfaEpsilonToDfa order ConversionData.initial a =
        some ((getGoalNodesForDFA cd2).dfa, getGoalNodesForDFA cd2) := by
  obtain ⟨cd1, h1, hinv1, hm1⟩ := getStartNodeForDFA_initial a
  obtain ⟨cd2, h2, _, hp2⟩ :=
    ConversionInvariant.pendingSets order (conversionFuel cd1) cd1 hinv1 hm1
  obtain ⟨y, hreach⟩ := processPendingSets_reaches order _ cd1 cd2 ∅ h2
  refine ⟨cd2, y, ⟨cd1, h1, hreach⟩, hp2, ?_⟩
  unfold convertNfaEpsilonToDfa
  rw [h1]
  simp only [h2]

theorem MapStatesToInt.mem_keys (m : MapStatesToInt) (s : Finset Int) :
    s ∈ m.keys ↔ ∃ i, m.lookup s = some i := by
  unfold MapStatesToInt.keys
  rw [List.mem_toFinset, List.mem_map]
  constructor
  · rintro ⟨⟨s', i⟩, hmem, hfst⟩
    simp only at hfst
    subst hfst
    exact ⟨i, (m.mem_entries_iff _ _).mp hmem⟩
  · rintro ⟨i, hi⟩
    exact ⟨(s, i), (m.mem_entries_iff _ _).mpr hi, rfl⟩

theorem card_nodes_eq_card_keys (cd : ConversionData)
    (hinj : ∀ s s' i, cd.mapSetToDfaNode.lookup s = some i →
      cd.mapSetToDfaNode.lookup s' = some i → s = s')
    (himage : ∀ i, i ∈ cd.dfa.nodes ↔ ∃ s, cd.mapSetToDfaNode.lookup s = some i) :
    cd.dfa.nodes.card = cd.mapSetToDfaNode.keys.card := by
  symm
  apply Finset.card_bij (fun s _ => (cd.mapSetToDfaNode.lookup s).getD 0)
  · intro s hs
    obtain ⟨i, hi⟩ := (cd.mapSetToDfaNode.mem_keys s).mp hs
    rw [hi]
    exact (himage i).mpr ⟨s, hi⟩
  · intro s hs s' hs' heq
    obtain ⟨i, hi⟩ := (cd.mapSetToDfaNode.mem_keys s).mp hs
    obtain ⟨i', hi'⟩ := (cd.mapSetToDfaNode.mem_keys s').mp hs'
    rw [hi, hi'] at heq
    have : i = i' := heq
    rw [← this] at hi'
    exact hinj s s' i hi hi'
  · intro i hi
    obtain ⟨s, hs⟩ := (himage i).mp hi
    exact ⟨s, (cd.mapSetToDfaNode.mem_keys s).mpr ⟨i, hs⟩, by rw [hs]; rfl⟩

theorem ConversionPointOf.oneIdPerSet {order : IterationOrder} {a : FiniteStateMachine}
    {p : ConversionPoint} (h : ConversionPointOf order a p) : OneIdPerSet p.data :=
  ⟨h.facts.1.idInj, h.facts.1.nodes, card_nodes_eq_card_keys _ h.facts.1.idInj h.facts.1.nodes⟩

/-- The last two statements of `getStartNodeForDFA` take the context
`getStartNodeForDFAMapAssigned` to the context the function returns. -/
theorem getStartNodeForDFA_eq_mapAssigned (cd : ConversionData) :
    getStartNodeForDFA cd =
      match (getStartNodeForDFAMapAssigned cd).mapSetToDfaNode.lookup
          (getStartNodeForDFAMapAssigned cd).stateSet with
      | none => none
      | some startNode =>
        some { getStartNodeForDFAMapAssigned cd with
          dfa := { cd.dfa with nodes := insert cd.nodeNumber cd.dfa.nodes,
                               startNode := startNode }
          nodeNumber := cd.nodeNumber + 1 } :=
  rfl

/-- The claim of C19 fails at a point inside `getStartNodeForDFA`: in the conversion of
`smallNfaMachine` from the initial context, after `mapSetToDfaNode[stateSet] = nodeNumber` and
before `dfa.nodes.insert(nodeNumber++)`, the state-set `{0, 1}` has the id `1` while the node set
of the output is still empty, so the image of the map is not the node set. -/
theorem one_id_per_set_fails_before_node_insert :
    (getStartNodeForDFAMapAssigned
        { ConversionData.initial with nfaEpsilon := smallNfaMachine }).mapSetToDfaNode.lookup
        {0, 1} = some 1 ∧
      (getStartNodeForDFAMapAssigned
        { ConversionData.initial with nfaEpsilon := smallNfaMachine }).dfa.nodes = ∅ ∧
      ¬ OneIdPerSet (getStartNodeForDFAMapAssigned
        { ConversionData.initial with nfaEpsilon := smallNfaMachine }) := by
  have hlook : (getStartNodeForDFAMapAssigned
      { ConversionData.initial with nfaEpsilon := smallNfaMachine }).mapSetToDfaNode.lookup
      {0, 1} = some 1 := by decide
  refine ⟨hlook, rfl, fun h => ?_⟩
  have hmem := (h.2.1 1).mpr ⟨_, hlook⟩
  exact absurd hmem (Finset.not_mem_empty 1)

theorem oneIdPerSet_entry (a : FiniteStateMachine) :
    OneIdPerSet { ConversionData.initial with nfaEpsilon := a } := by
  refine ⟨fun s s' i hs _ => ?_, fun i => ?_, rfl⟩
  · rw [show ({ ConversionData.initial with nfaEpsilon := a } : ConversionData).mapSetToDfaNode
      = MapStatesToInt.empty from rfl, MapStatesToInt.lookup_empty] at hs
    cases hs
  · constructor
    · intro hi
      exact absurd hi (Finset.not_mem_empty i)
    · rintro ⟨s, hs⟩
      rw [show ({ ConversionData.initial with nfaEpsilon := a } : ConversionData).mapSetToDfaNode
        = MapStatesToInt.empty from rfl, MapStatesToInt.lookup_empty] at hs
      cases hs

/-- C19 (amended): one id per state-set. In a conversion started from the initial context, on
entry, at every control point between two calls of the helper functions (after
`getStartNodeForDFA` has returned, after every state-set taken from the queue and after every
call of `processNextSetOfNodes`) and in the context the call returns, the map from state-sets to
ids is injective, its image is the node set of the output, and the number of output nodes is the
number of state-sets with an entry. -/
theorem convert_one_id_per_set (order : IterationOrder) (a : FiniteStateMachine) :
    OneIdPerSet { ConversionData.initial with nfaEpsilon := a } ∧
      (∀ p, ConversionPointOf order a p → OneIdPerSet p.data) ∧
      ∃ d cd, convertNfaEpsilonToDfa order ConversionData.initial a = some (d, cd) ∧
        d = cd.dfa ∧ OneIdPerSet cd ∧ d.nodes.card = cd.mapSetToDfaNode.keys.card := by
  refine ⟨oneIdPerSet_entry a, fun p hp => hp.oneIdPerSet, ?_⟩
  obtain ⟨cd2, x, hpoint, _, hconv⟩ := convertNfaEpsilonToDfa_run order a
  have h := hpoint.oneIdPerSet
  exact ⟨_, _, hconv, rfl, h, h.2.2⟩

/-- An instance of `convert_one_id_per_set`: the conversion of `insertionHistoryMachine`, with
the characters of every state-set visited in the reverse of the order of their insertion, returns
in a context with one id per state-set, reached through its control points. -/
theorem convert_one_id_per_set_witness :
    ∃ p, ConversionPointOf IterationOrder.reverseInsertion insertionHistoryMachine p ∧
      OneIdPerSet p.data :=
  (convertNfaEpsilonToDfa_run IterationOrder.reverseInsertion insertionHistoryMachine).elim
    fun cd2 h => h.elim fun x hx =>
      ⟨⟨cd2, x, []⟩, hx.1,
        (convert_one_id_per_set IterationOrder.reverseInsertion insertionHistoryMachine).2.1
          _ hx.1⟩

/-- C20: ids are minted consecutively from `1`. For a conversion started from the initial context
that discovers `k` state-sets, the nodes of the output are exactly `1, …, k`, the start node of
the output is `1` and is the id of the epsilon-closure of the input's start node, and a state-set
that has an entry at a control point has a smaller id than a state-set that gets its entry
later. -/
theorem convert_ids_consecutive (order : IterationOrder) (a : FiniteStateMachine) :
    (∃ d cd, convertNfaEpsilonToDfa order ConversionData.initial a = some (d, cd) ∧
        d.nodes = Finset.Icc 1 (cd.mapSetToDfaNode.keys.card : Int) ∧
        d.startNode = 1 ∧
        cd.mapSetToDfaNode.lookup (getEpsilonClosure {a.startNode} a.transitions) = some 1) ∧
      ∀ p q, ConversionPointOf order a p → Relation.ReflTransGen (ConversionStep order) p q →
        ∀ s s' i j, p.data.mapSetToDfaNode.lookup s = some i →
          p.data.mapSetToDfaNode.lookup s' = none →
          q.data.mapSetToDfaNode.lookup s' = some j →
          q.data.mapSetToDfaNode.lookup s = some i ∧ i < j := by
  constructor
  · obtain ⟨cd2, x, hpoint, _, hconv⟩ := convertNfaEpsilonToDfa_run order a
    obtain ⟨hinv, hnodes, _, hone, hst⟩ := hpoint.facts
    refine ⟨_, _, hconv, ?_, hst, ?_⟩
    · show cd2.dfa.nodes = Finset.Icc 1 (cd2.mapSetToDfaNode.keys.card : Int)
      have hcard := card_nodes_eq_card_keys cd2 hinv.idInj hinv.nodes
      have hcount := hinv.counter
      simp only at hnodes hcount
      rw [← hcard, hnodes, Int.card_Icc, Int.toNat_of_nonneg (by omega)]
      congr 1
      omega
    · rw [← insert_empty_eq_singleton]
      exact hone
  · intro p q hp hpq s s' i j hs hs' hj
    have hext := conversionReaches_contextExtends hpq
    refine ⟨hext.2.1 s i hs, ?_⟩
    have hrange := hp.facts.1.idRange s i hs
    rcases hext.2.2 s' j hj with h1 | h1
    · rw [hs'] at h1
      cases h1
    · omega

/-! ## Independence of the processing order -/

theorem hasSymbol_congr {a a' : FiniteStateMachine}
    (hmem : ∀ t, t ∈ a'.transitions ↔ t ∈ a.transitions) (s : Finset Int) (c : Char) :
    HasSymbol a' s c ↔ HasSymbol a s c := by
  unfold HasSymbol
  constructor
  · rintro ⟨hc, t, ht, h⟩
    exact ⟨hc, t, (hmem t).mp ht, h⟩
  · rintro ⟨hc, t, ht, h⟩
    exact ⟨hc, t, (hmem t).mpr ht, h⟩

theorem subsetMove_congr {a a' : FiniteStateMachine}
    (hmem : ∀ t, t ∈ a'.transitions ↔ t ∈ a.transitions) (s : Finset Int) (c : Char) :
    subsetMove a' c s = subsetMove a c s := by
  rw [subsetMove_eq_closure_moveDestinations, subsetMove_eq_closure_moveDestinations,
    getEpsilonClosure_congr _ a'.transitions a.transitions hmem]
  congr 1
  ext q
  rw [mem_moveDestinations, mem_moveDestinations]
  constructor
  · rintro ⟨t, ht, h⟩
    exact ⟨t, (hmem t).mp ht, h⟩
  · rintro ⟨t, ht, h⟩
    exact ⟨t, (hmem t).mpr ht, h⟩

theorem subsetReach_congr (a a' : FiniteStateMachine) (hstart : a'.startNode = a.startNode)
    (hmem : ∀ t, t ∈ a'.transitions ↔ t ∈ a.transitions) {s : Finset Int}
    (h : SubsetReach a' s) : SubsetReach a s := by
  induction h with
  | start =>
    rw [hstart, getEpsilonClosure_congr _ a'.transitions a.transitions hmem]
    exact SubsetReach.start
  | move _ hsym ih =>
    rw [subsetMove_congr hmem]
    exact SubsetReach.move ih ((hasSymbol_congr hmem _ _).mp hsym)

theorem ConversionResult.known_of_subsetReach {a d : FiniteStateMachine} {m : MapStatesToInt}
    (r : ConversionResult a d m) {s : Finset Int} (h : SubsetReach a s) :
    ∃ i, m.lookup s = some i := by
  induction h with
  | start => exact ⟨_, r.start⟩
  | move _ hsym ih =>
    obtain ⟨i, hi⟩ := ih
    obtain ⟨j, hj, _⟩ := r.complete _ i _ hi hsym
    exact ⟨j, hj⟩

/-- The conversion from the initial context returns the subset construction, and the state-sets
with an entry in the final map are the ones the construction can discover. -/
theorem convertNfaEpsilonToDfa_spec_reach (order : IterationOrder) (a : FiniteStateMachine) :
    ∃ d cd, convertNfaEpsilonToDfa order ConversionData.initial a = some (d, cd) ∧
      ConversionResult a d cd.mapSetToDfaNode ∧
      ∀ s, (∃ i, cd.mapSetToDfaNode.lookup s = some i) ↔ SubsetReach a s := by
  obtain ⟨d, cd, hconv, _, r⟩ := convertNfaEpsilonToDfa_spec order a
  obtain ⟨cd2, x, hpoint, _, hconv'⟩ := convertNfaEpsilonToDfa_run order a
  rw [hconv] at hconv'
  have hcd : cd = getGoalNodesForDFA cd2 := (Prod.mk.inj (Option.some.inj hconv')).2
  refine ⟨d, cd, hconv, r, fun s => ⟨?_, fun h => r.known_of_subsetReach h⟩⟩
  rintro ⟨i, hi⟩
  rw [hcd] at hi
  exact hpoint.facts.2.2.1 s i hi

theorem renameNode_eq (m m' : MapStatesToInt)
    (hinj : ∀ s s' i, m.lookup s = some i → m.lookup s' = some i → s = s')
    (s : Finset Int) (i i' : Int) (hs : m.lookup s = some i) (hs' : m'.lookup s = some i') :
    renameNode m m' i = i' := by
  unfold renameNode
  cases hfind : m.entries.find? (fun entry => entry.2 = i) with
  | none =>
    exfalso
    have hmem := (m.mem_entries_iff s i).mpr hs
    have := List.find?_eq_none.mp hfind (s, i) hmem
    simp at this
  | some entry =>
    have hp : entry.2 = i := by simpa using List.find?_some hfind
    have hmem : entry ∈ m.entries := List.mem_of_find?_eq_some hfind
    have hlook : m.lookup entry.1 = some i := by
      rw [← hp]
      exact (m.mem_entries_iff entry.1 entry.2).mp hmem
    have : entry.1 = s := hinj _ _ i hlook hs
    simp only [this, hs']
    rfl

/-- Two finished conversions of machines with the same start node, goal nodes and transitions (as
a set) are equal up to the renaming of node ids through the state-sets. -/
theorem ConversionResult.isomorphic {a a' d d' : FiniteStateMachine} {m m' : MapStatesToInt}
    (r : ConversionResult a d m) (r' : ConversionResult a' d' m')
    (hstart : a'.startNode = a.startNode) (hgoal : a'.goalNodes = a.goalNodes)
    (hmem : ∀ t, t ∈ a'.transitions ↔ t ∈ a.transitions)
    (hkeys : ∀ s, (∃ i, m.lookup s = some i) ↔ ∃ i', m'.lookup s = some i') :
    Set.BijOn (renameNode m m') ↑d.nodes ↑d'.nodes ∧
      renameNode m m' d.startNode = d'.startNode ∧
      d.goalNodes.image (renameNode m m') = d'.goalNodes ∧
      ∀ t, t ∈ d'.transitions ↔ ∃ t0 ∈ d.transitions,
        t = { source := renameNode m m' t0.source, transitionChar := t0.transitionChar,
              destination := renameNode m m' t0.destination } := by
  have hren := renameNode_eq m m' r.idInj
  refine ⟨⟨?_, ?_, ?_⟩, ?_, ?_, ?_⟩
  · intro i hi
    obtain ⟨s, hs⟩ := (r.nodes i).mp (Finset.mem_coe.mp hi)
    obtain ⟨i', hs'⟩ := (hkeys s).mp ⟨i, hs⟩
    rw [hren s i i' hs hs']
    exact Finset.mem_coe.mpr ((r'.nodes i').mpr ⟨s, hs'⟩)
  · intro i hi j hj heq
    obtain ⟨s, hs⟩ := (r.nodes i).mp (Finset.mem_coe.mp hi)
    obtain ⟨t, ht⟩ := (r.nodes j).mp (Finset.mem_coe.mp hj)
    obtain ⟨i', hs'⟩ := (hkeys s).mp ⟨i, hs⟩
    obtain ⟨j', ht'⟩ := (hkeys t).mp ⟨j, ht⟩
    rw [hren s i i' hs hs', hren t j j' ht ht'] at heq
    rw [heq] at hs'
    have hst : s = t := r'.idInj s t j' hs' ht'
    rw [hst, ht] at hs
    exact (Option.some.inj hs).symm
  · intro i' hi'
    obtain ⟨s, hs'⟩ := (r'.nodes i').mp (Finset.mem_coe.mp hi')
    obtain ⟨i, hs⟩ := (hkeys s).mpr ⟨i', hs'⟩
    exact ⟨i, Finset.mem_coe.mpr ((r.nodes i).mpr ⟨s, hs⟩), hren s i i' hs hs'⟩
  · have h1 := r.start
    have h2 := r'.start
    rw [hstart, getEpsilonClosure_congr _ a'.transitions a.transitions hmem] at h2
    exact hren _ _ _ h1 h2
  · ext i'
    rw [Finset.mem_image]
    constructor
    · rintro ⟨i, hi, hrn⟩
      obtain ⟨s, hs, hq⟩ := (r.goals i).mp hi
      obtain ⟨j', hs'⟩ := (hkeys s).mp ⟨i, hs⟩
      rw [hren s i j' hs hs'] at hrn
      rw [← hrn]
      exact (r'.goals j').mpr ⟨s, hs', by rw [hgoal]; exact hq⟩
    · intro hi'
      obtain ⟨s, hs', hq⟩ := (r'.goals i').mp hi'
      obtain ⟨i, hs⟩ := (hkeys s).mpr ⟨i', hs'⟩
      rw [hgoal] at hq
      exact ⟨i, (r.goals i).mpr ⟨s, hs, hq⟩, hren s i i' hs hs'⟩
  · intro t
    constructor
    · intro ht
      obtain ⟨s, hs', hsym', hmv'⟩ := r'.sound t ht
      obtain ⟨i, hs⟩ := (hkeys s).mpr ⟨_, hs'⟩
      have hsym := (hasSymbol_congr hmem _ _).mp hsym'
      obtain ⟨j, hj, hmemt⟩ := r.complete s i _ hs hsym
      rw [subsetMove_congr hmem] at hmv'
      refine ⟨_, hmemt, ?_⟩
      simp only [hren s i _ hs hs', hren _ j _ hj hmv']
    · rintro ⟨t0, ht0, rfl⟩
      obtain ⟨s, hs, hsym, hmv⟩ := r.sound t0 ht0
      obtain ⟨i', hs'⟩ := (hkeys s).mp ⟨_, hs⟩
      have hsym' := (hasSymbol_congr hmem _ _).mpr hsym
      obtain ⟨j', hj', hmemt⟩ := r'.complete s i' _ hs' hsym'
      rw [subsetMove_congr hmem] at hj'
      rw [hren s _ i' hs hs', hren _ _ j' hmv hj']
      exact hmemt

/-- C17: the processing order affects only the labelling. For every machine, every permutation
of its transition list and every two iteration orders of the character sets, the two conversions
(each run from the initial conversion context) return machines that are equal up to a renaming
of node ids that is a bijection between the node sets and maps start node to start node, the
goal nodes onto the goal nodes and the transitions onto the transitions. -/
theorem convert_permutation_isomorphic (order order' : IterationOrder)
    (a : FiniteStateMachine) (ts' : List Transition) (hperm : ts'.Perm a.transitions) :
    ∃ d cd d' cd',
      convertNfaEpsilonToDfa order ConversionData.initial a = some (d, cd) ∧
      convertNfaEpsilonToDfa order' ConversionData.initial { a with transitions := ts' } =
        some (d', cd') ∧
      ∃ rename : Int → Int,
        Set.BijOn rename ↑d.nodes ↑d'.nodes ∧
        rename d.startNode = d'.startNode ∧
        d.goalNodes.image rename = d'.goalNodes ∧
        ∀ t, t ∈ d'.transitions ↔ ∃ t0 ∈ d.transitions,
          t = { source := rename t0.source, transitionChar := t0.transitionChar,
                destination := rename t0.destination } := by
  obtain ⟨d, cd, hconv, r, hreach⟩ := convertNfaEpsilonToDfa_spec_reach order a
  obtain ⟨d', cd', hconv', r', hreach'⟩ :=
    convertNfaEpsilonToDfa_spec_reach order' { a with transitions := ts' }
  have hmem : ∀ t, t ∈ ({ a with transitions := ts' } : FiniteStateMachine).transitions ↔
      t ∈ a.transitions := fun t => hperm.mem_iff
  refine ⟨d, cd, d', cd', hconv, hconv', renameNode cd.mapSetToDfaNode cd'.mapSetToDfaNode,
    r.isomorphic r' rfl rfl hmem ?_⟩
  intro s
  rw [hreach, hreach']
  exact ⟨fun h => subsetReach_congr { a with transitions := ts' } a rfl
      (fun t => (hmem t).symm) h,
    fun h => subsetReach_congr a { a with transitions := ts' } rfl hmem h⟩

/-! ## The scenario of `main` -/

theorem ConversionResult.recognizers_agree {a d : FiniteStateMachine} {m : MapStatesToInt}
    (r : ConversionResult a d m) (s : List Char) (hs : FiniteStateMachine.EPSILON ∉ s) :
    (CompiledDfa.new d).isRecognized s = (CompiledNfaEpsilon.new a).isRecognized s := by
  unfold CompiledNfaEpsilon.isRecognized CompiledDfa.isRecognized
  show (CompiledDfa.new d).isRecognizedFrom s d.startNode =
    (CompiledNfaEpsilon.new a).isRecognizedFrom s
      ((CompiledNfaEpsilon.new a).getEpsilonClosure (insert a.startNode ∅))
  rw [nfa_getEpsilonClosure_eq]
  exact r.simulation s hs _ _ r.start

/-- With the character sets iterated in increasing order, the conversion of `regexMachine` from
the initial context returns `regexConvertedMachine`, which accepts the positive and rejects the
negative cases. -/
theorem regexMachine_converted :
    Returns (convertNfaEpsilonToDfa IterationOrder.increasing ConversionData.initial
        regexMachine) regexConvertedMachine ∧
      (∀ s ∈ positiveStrings, (CompiledDfa.new regexConvertedMachine).isRecognized s = true) ∧
      ∀ s ∈ negativeStrings, (CompiledDfa.new regexConvertedMachine).isRecognized s = false := by
  refine ⟨by decide, by decide, by decide⟩

/-- C16: the scenario of `main` for `(ab*|b*c|a*c*)`. Whatever the iteration order of the
character sets, the conversion of `regexMachine` from the initial context returns a machine, and
`CompiledNfaEpsilon` on `regexMachine` and `CompiledDfa` on the returned machine both accept each
positive case and both reject each negative case. -/
theorem regex_scenario (order : IterationOrder) :
    ∃ d cd, convertNfaEpsilonToDfa order ConversionData.initial regexMachine = some (d, cd) ∧
      (∀ s ∈ positiveStrings,
        (CompiledNfaEpsilon.new regexMachine).isRecognized s = true ∧
          (CompiledDfa.new d).isRecognized s = true) ∧
      ∀ s ∈ negativeStrings,
        (CompiledNfaEpsilon.new regexMachine).isRecognized s = false ∧
          (CompiledDfa.new d).isRecognized s = false := by
  obtain ⟨d, cd, hconv, _, r⟩ := convertNfaEpsilonToDfa_spec order regexMachine
  have hpos : ∀ s ∈ positiveStrings,
      (CompiledNfaEpsilon.new regexMachine).isRecognized s = true := by decide
  have hneg : ∀ s ∈ negativeStrings,
      (CompiledNfaEpsilon.new regexMachine).isRecognized s = false := by decide
  have heps : ∀ s ∈ positiveStrings ++ negativeStrings, FiniteStateMachine.EPSILON ∉ s := by
    decide
  refine ⟨d, cd, hconv, fun s hs => ⟨hpos s hs, ?_⟩, fun s hs => ⟨hneg s hs, ?_⟩⟩
  · rw [r.recognizers_agree s (heps s (List.mem_append_left _ hs))]
    exact hpos s hs
  · rw [r.recognizers_agree s (heps s (List.mem_append_right _ hs))]
    exact hneg s hs

/-- An instance of `convert_permutation_isomorphic`: `regexMachine` against `regexMachine` with
its transition list reversed (the order of the assignments in `main`), both converted with the
characters of every state-set visited in the reverse of the order of their insertion, so that
the permutation of the list changes the order in which the characters are visited. -/
theorem convert_permutation_isomorphic_witness :
    regexMachine.transitions.reverse.Perm regexMachine.transitions ∧
      ∃ d cd d' cd',
        convertNfaEpsilonToDfa IterationOrder.reverseInsertion ConversionData.initial
          regexMachine = some (d, cd) ∧
        convertNfaEpsilonToDfa IterationOrder.reverseInsertion ConversionData.initial
          { regexMachine with transitions := regexMachine.transitions.reverse } =
            some (d', cd') ∧
        ∃ rename : Int → Int,
          Set.BijOn rename ↑d.nodes ↑d'.nodes ∧
          rename d.startNode = d'.startNode ∧
          d.goalNodes.image rename = d'.goalNodes ∧
          ∀ t, t ∈ d'.transitions ↔ ∃ t0 ∈ d.transitions,
            t = { source := rename t0.source, transitionChar := t0.transitionChar,
                  destination := rename t0.destination } :=
  ⟨List.reverse_perm _,
    convert_permutation_isomorphic IterationOrder.reverseInsertion
      IterationOrder.reverseInsertion regexMachine regexMachine.transitions.reverse
      (List.reverse_perm _)⟩

/-- An instance of the ordering part of `convert_ids_consecutive` on `smallNfaMachine`: the
epsilon-closure of the start node has its entry after `getStartNodeForDFA`, its successor on
`'a'` gets its entry later, and the first id is smaller than the second. -/
theorem convert_ids_consecutive_witness :
    ∃ p q s s' i j, ConversionPointOf IterationOrder.increasing smallNfaMachine p ∧
      Relation.ReflTransGen (ConversionStep IterationOrder.increasing) p q ∧
      p.data.mapSetToDfaNode.lookup s = some i ∧
      p.data.mapSetToDfaNode.lookup s' = none ∧
      q.data.mapSetToDfaNode.lookup s' = some j ∧ i < j := by
  obtain ⟨cd2, x, hpoint, hp2, _⟩ :=
    convertNfaEpsilonToDfa_run IterationOrder.increasing smallNfaMachine
  obtain ⟨cd1, hstart, hreach⟩ := hpoint
  have hp : ConversionPointOf IterationOrder.increasing smallNfaMachine ⟨cd1, ∅, []⟩ :=
    ⟨cd1, hstart, Relation.ReflTransGen.refl⟩
  have hq : ConversionPointOf IterationOrder.increasing smallNfaMachine ⟨cd2, x, []⟩ :=
    ⟨cd1, hstart, hreach⟩
  have hs1 := hp.facts.2.2.2.1
  have hsym : HasSymbol smallNfaMachine
      (getEpsilonClosure (insert smallNfaMachine.startNode ∅) smallNfaMachine.transitions)
      'a' := by
    unfold HasSymbol
    decide
  have hnb : ¬ Busy cd2 x []
      (getEpsilonClosure (insert smallNfaMachine.startNode ∅) smallNfaMachine.transitions)
      'a' := by
    rintro (hb | ⟨_, hb⟩)
    · rw [hp2] at hb; cases hb
    · cases hb
  obtain ⟨j, hj, _⟩ := hq.facts.1.complete _ 1 'a' hq.facts.2.2.2.1 hsym hnb
  have hnone : cd1.mapSetToDfaNode.lookup (subsetMove smallNfaMachine 'a'
      (getEpsilonClosure (insert smallNfaMachine.startNode ∅) smallNfaMachine.transitions)) =
        none := by
    have hexp := getStartNodeForDFA_initial_eq smallNfaMachine
    rw [hstart] at hexp
    rw [Option.some.inj hexp]
    show (MapStatesToInt.empty.assign _ 1).lookup _ = none
    rw [MapStatesToInt.lookup_assign, MapStatesToInt.lookup_empty, if_neg]
    unfold subsetMove
    decide
  exact ⟨_, _, _, _, 1, j, hp, hreach, hs1, hnone, hj,
    ((convert_ids_consecutive IterationOrder.increasing smallNfaMachine).2 _ _ hp hreach
      _ _ 1 j hs1 hnone hj).2⟩

/-! ## Termination and agreement of the two epsilon closures -/

/-- C24: the two epsilon-closure implementations agree. For every transition list (the one of a
machine `m`) and every finite state-set, the list-scanning `getEpsilonClosure` of the converter
yields the same set as `CompiledNfaEpsilon::getEpsilonClosure` on the table compiled from the
list by `addTransitionToGraph`, whatever the order in which its passes visit the states. -/
theorem closure_implementations_agree (m : FiniteStateMachine) (s : Finset Int) :
    getEpsilonClosure s m.transitions = (CompiledNfaEpsilon.new m).getEpsilonClosure s ∧
      ∀ order : VisitOrder, getEpsilonClosure s m.transitions =
        (CompiledNfaEpsilon.new m).getEpsilonClosureVisiting order s := by
  refine ⟨(nfa_getEpsilonClosure_eq m s).symm, fun order => ?_⟩
  ext q
  rw [(nfa_getEpsilonClosureVisiting_spec m order s).2, mem_getEpsilonClosure]

theorem closureIterate_eq_closure {ts : List Transition}
    {pass : Finset Int → Finset Int × Nat} (hp : ClosurePass ts pass) (fuel : Nat)
    (s : Finset Int) (hfuel : (destinationSet ts \ s).card < fuel) :
    closureIterate pass fuel s = some (getEpsilonClosure s ts) := by
  obtain ⟨r, hr, hsub, hcl, hreach⟩ := closureIterate_spec hp fuel s hfuel
  rw [hr]
  congr 1
  ext q
  rw [mem_getEpsilonClosure]
  exact ⟨hreach q, fun h => h.mem_of_closed hsub hcl⟩

theorem closurePass_grows {ts : List Transition} {pass : Finset Int → Finset Int × Nat}
    (hp : ClosurePass ts pass) (s : Finset Int) (h : 0 < (pass s).2) :
    s ⊂ (pass s).1 ∧ (pass s).1 ⊆ s ∪ destinationSet ts := by
  refine ⟨Finset.ssubset_iff_subset_ne.mpr ⟨hp.subset s, ?_⟩, ?_⟩
  · intro heq
    obtain ⟨q, hq, hqs⟩ := hp.grows s h
    rw [← heq] at hq
    exact hqs hq
  · intro q hq
    rw [Finset.mem_union]
    exact (hp.reach s q hq).mem_or_destination

/-- C21: epsilon-closure terminates. For every transition list (the one of a machine `m`,
epsilon cycles and self-loops included) and every finite state-set, both recursive
`getEpsilonClosure` functions return within a recursion depth of one more than the number of
transition destinations missing from the set, hence within one more than the number of
transitions; and a pass that is followed by a recursive call has strictly enlarged the set by
transition destinations. -/
theorem getEpsilonClosure_terminates (m : FiniteStateMachine) (s : Finset Int) :
    (∀ fuel, (destinationSet m.transitions \ s).card < fuel →
        getEpsilonClosureFuel fuel s m.transitions = some (getEpsilonClosure s m.transitions)) ∧
      (∀ fuel, (destinationSet m.transitions \ s).card < fuel →
        (CompiledNfaEpsilon.new m).getEpsilonClosureFuel fuel s =
          some ((CompiledNfaEpsilon.new m).getEpsilonClosure s)) ∧
      (destinationSet m.transitions \ s).card < m.transitions.length + 1 ∧
      (0 < (epsilonScan s m.transitions).2 →
        s ⊂ (epsilonScan s m.transitions).1 ∧
          (epsilonScan s m.transitions).1 ⊆ s ∪ destinationSet m.transitions) ∧
      (0 < ((CompiledNfaEpsilon.new m).epsilonPass s).2 →
        s ⊂ ((CompiledNfaEpsilon.new m).epsilonPass s).1 ∧
          ((CompiledNfaEpsilon.new m).epsilonPass s).1 ⊆ s ∪ destinationSet m.transitions) := by
  refine ⟨fun fuel hfuel => ?_, fun fuel hfuel => ?_, destinationSet_card_le _ _,
    closurePass_grows (epsilonScan_closurePass m.transitions) s,
    closurePass_grows (nfa_epsilonPass_closurePass m) s⟩
  · rw [getEpsilonClosureFuel_eq_closureIterate]
    exact closureIterate_eq_closure (epsilonScan_closurePass m.transitions) fuel s hfuel
  · rw [nfa_getEpsilonClosureFuel_eq_closureIterate, nfa_getEpsilonClosure_eq]
    exact closureIterate_eq_closure (nfa_epsilonPass_closurePass m) fuel s hfuel

/-- On `epsilonCycleMachine` both closures of `{0}` return `{0, 1}` at recursion depth two: the
first pass inserts `1`, the second pass inserts nothing. -/
theorem epsilonCycleMachine_closure :
    (getEpsilonClosureFuel 2 {0} epsilonCycleMachine.transitions).isSome = true ∧
      ((CompiledNfaEpsilon.new epsilonCycleMachine).getEpsilonClosureFuel 2 {0}).isSome = true ∧
      (getEpsilonClosureFuel 1 {0} epsilonCycleMachine.transitions).isSome = false ∧
      getEpsilonClosure {0} epsilonCycleMachine.transitions = {0, 1} ∧
      (CompiledNfaEpsilon.new epsilonCycleMachine).getEpsilonClosure {0} = {0, 1} := by
  refine ⟨by decide, by decide, by decide, by decide, by decide⟩

/-- An instance of `getEpsilonClosure_terminates` on `epsilonCycleMachine`, which has an epsilon
cycle and an epsilon self-loop: one destination is missing from `{0}`, and both functions
return at recursion depth two. -/
theorem getEpsilonClosure_terminates_witness :
    (destinationSet epsilonCycleMachine.transitions \ {0}).card < 2 ∧
      getEpsilonClosureFuel 2 {0} epsilonCycleMachine.transitions =
        some (getEpsilonClosure {0} epsilonCycleMachine.transitions) ∧
      (CompiledNfaEpsilon.new epsilonCycleMachine).getEpsilonClosureFuel 2 {0} =
        some ((CompiledNfaEpsilon.new epsilonCycleMachine).getEpsilonClosure {0}) :=
  ⟨by decide, (getEpsilonClosure_terminates epsilonCycleMachine {0}).1 2 (by decide),
    (getEpsilonClosure_terminates epsilonCycleMachine {0}).2.1 2 (by decide)⟩

/-! ## Duplicate pairs in the deterministic table -/

/-- C27: duplicate (source, symbol) pairs are resolved silently. When the transition list given
to `CompiledDfa` holds several transitions with the same pair, the table built by the
constructor maps the pair to the destination of the transition occurring last in the list. -/
theorem dfaGraph_last_wins (m : FiniteStateMachine) (before after : List Transition)
    (t : Transition) (hlist : m.transitions = before ++ t :: after)
    (hlast : ∀ t' ∈ after, t'.pair ≠ t.pair) :
    (CompiledDfa.new m).dfaGraph t.pair = some t.destination := by
  show m.transitions.foldl CompiledDfa.addTransitionToGraph (fun _ => none) t.pair =
    some t.destination
  rw [hlist, List.foldl_append, List.foldl_cons, dfa_fold_of_not_mem after t.pair _ hlast]
  unfold CompiledDfa.addTransitionToGraph
  exact Function.update_same _ _ _

/-- An instance of `dfaGraph_last_wins` on `duplicatePairMachine`: the pair `(0, 'a')` is mapped
to `2`, the destination of the second transition. -/
theorem dfaGraph_last_wins_witness :
    duplicatePairMachine.transitions =
        [{ source := 0, transitionChar := 'a', destination := 1 }] ++
          { source := 0, transitionChar := 'a', destination := 2 } :: [] ∧
      (CompiledDfa.new duplicatePairMachine).dfaGraph (0, 'a') = some 2 :=
  ⟨rfl, dfaGraph_last_wins duplicatePairMachine
    [{ source := 0, transitionChar := 'a', destination := 1 }] []
    { source := 0, transitionChar := 'a', destination := 2 } rfl (fun _ h => by cases h)⟩

/-! ## Shape of the discovered state-sets and reachability of the nodes -/

theorem SubsetReach.closed_nonempty {a : FiniteStateMachine} {s : Finset Int}
    (h : SubsetReach a s) : EpsilonClosed a.transitions s ∧ s.Nonempty := by
  cases h with
  | start =>
    exact ⟨getEpsilonClosure_closed _ _,
      ⟨a.startNode, subset_getEpsilonClosure _ _ (Finset.mem_insert_self _ _)⟩⟩
  | move _ hsym =>
    refine ⟨?_, subsetMove_nonempty a _ _ hsym⟩
    rw [subsetMove_eq_closure_moveDestinations]
    exact getEpsilonClosure_closed _ _

theorem SubsetReach.fixed {a : FiniteStateMachine} {s : Finset Int} (h : SubsetReach a s) :
    s.Nonempty ∧ getEpsilonClosure s a.transitions = s ∧
      (CompiledNfaEpsilon.new a).getEpsilonClosure s = s := by
  have hc := h.closed_nonempty
  refine ⟨hc.2, getEpsilonClosure_of_closed _ _ hc.1, ?_⟩
  rw [nfa_getEpsilonClosure_eq]
  exact getEpsilonClosure_of_closed _ _ hc.1

/-- C25: every discovered state-set is non-empty and epsilon-closed. At every control point of a
conversion started from the initial context, and in the context the call returns, each key of
the map from state-sets to ids contains a state and is a fixed point of both `getEpsilonClosure`
functions; the empty set has no entry, so no node of the output stands for it. -/
theorem convert_keys_nonempty_closed (order : IterationOrder) (a : FiniteStateMachine) :
    (∀ p, ConversionPointOf order a p → ∀ s i, p.data.mapSetToDfaNode.lookup s = some i →
        s.Nonempty ∧ getEpsilonClosure s a.transitions = s ∧
          (CompiledNfaEpsilon.new a).getEpsilonClosure s = s) ∧
      ∃ d cd, convertNfaEpsilonToDfa order ConversionData.initial a = some (d, cd) ∧
        (∀ s i, cd.mapSetToDfaNode.lookup s = some i →
          s.Nonempty ∧ getEpsilonClosure s a.transitions = s ∧
            (CompiledNfaEpsilon.new a).getEpsilonClosure s = s) ∧
        cd.mapSetToDfaNode.lookup ∅ = none ∧
        ∀ i ∈ d.nodes, ∃ s, cd.mapSetToDfaNode.lookup s = some i ∧ s.Nonempty := by
  refine ⟨fun p hp s i hs => (hp.facts.2.2.1 s i hs).fixed, ?_⟩
  obtain ⟨d, cd, hconv, r, hreach⟩ := convertNfaEpsilonToDfa_spec_reach order a
  refine ⟨d, cd, hconv, fun s i hs => ((hreach s).mp ⟨i, hs⟩).fixed, ?_, ?_⟩
  · cases hlook : cd.mapSetToDfaNode.lookup ∅ with
    | none => rfl
    | some i =>
      exfalso
      have := ((hreach ∅).mp ⟨i, hlook⟩).closed_nonempty.2
      simp at this
  · intro i hi
    obtain ⟨s, hs⟩ := (r.nodes i).mp hi
    exact ⟨s, hs, ((hreach s).mp ⟨i, hs⟩).closed_nonempty.2⟩

/-- An instance of `convert_keys_nonempty_closed`: the keys at the control point where the
conversion of `smallNfaMachine` leaves the loop. -/
theorem convert_keys_nonempty_closed_witness :
    ∃ p, ConversionPointOf IterationOrder.increasing smallNfaMachine p ∧
      ∀ s i, p.data.mapSetToDfaNode.lookup s = some i →
        s.Nonempty ∧ getEpsilonClosure s smallNfaMachine.transitions = s ∧
          (CompiledNfaEpsilon.new smallNfaMachine).getEpsilonClosure s = s :=
  (convertNfaEpsilonToDfa_run IterationOrder.increasing smallNfaMachine).elim
    fun cd2 h => h.elim fun x hx =>
      ⟨⟨cd2, x, []⟩, hx.1,
        (convert_keys_nonempty_closed IterationOrder.increasing smallNfaMachine).1 _ hx.1⟩

theorem tableWalk_snoc {ts : List Transition} {p q r : Int} {str : List Char} {c : Char}
    (hw : TableWalk ts p str q)
    (ht : ∃ t ∈ ts, t.source = q ∧ t.transitionChar = c ∧ t.destination = r) :
    TableWalk ts p (str ++ [c]) r := by
  induction hw with
  | nil p => exact TableWalk.cons ht (TableWalk.nil r)
  | cons h0 _ ih => exact TableWalk.cons h0 (ih ht)

theorem ConversionResult.walk_of_subsetReach {a d : FiniteStateMachine} {m : MapStatesToInt}
    (r : ConversionResult a d m) {s : Finset Int} (h : SubsetReach a s) :
    ∀ i, m.lookup s = some i → ∃ str, TableWalk d.transitions d.startNode str i := by
  induction h with
  | start =>
    intro i hi
    rw [r.start] at hi
    rw [← Option.some.inj hi]
    exact ⟨[], TableWalk.nil _⟩
  | @move s0 c h0 hsym ih =>
    intro i hi
    obtain ⟨i0, hi0⟩ := r.known_of_subsetReach h0
    obtain ⟨str, hw⟩ := ih i0 hi0
    obtain ⟨j, hj, hmem⟩ := r.complete s0 i0 c hi0 hsym
    rw [hj] at hi
    rw [← Option.some.inj hi]
    exact ⟨str ++ [c], tableWalk_snoc hw ⟨_, hmem, rfl, rfl, rfl⟩⟩

/-- C26: every node of the converted machine is reachable. In the output of
`convertNfaEpsilonToDfa` run from the initial conversion context, every node other than the start
node is the destination of an emitted transition, and every node is reached from the start node
by following emitted transitions. -/
theorem convert_nodes_reachable (order : IterationOrder) (a : FiniteStateMachine) :
    ∃ d cd, convertNfaEpsilonToDfa order ConversionData.initial a = some (d, cd) ∧
      (∀ i ∈ d.nodes, i ≠ d.startNode → ∃ t ∈ d.transitions, t.destination = i) ∧
      ∀ i ∈ d.nodes, ∃ str, TableWalk d.transitions d.startNode str i := by
  obtain ⟨d, cd, hconv, r, hreach⟩ := convertNfaEpsilonToDfa_spec_reach order a
  refine ⟨d, cd, hconv, ?_, ?_⟩
  · intro i hi hne
    obtain ⟨s, hs⟩ := (r.nodes i).mp hi
    have hsr := (hreach s).mp ⟨i, hs⟩
    cases hsr with
    | start =>
      rw [r.start] at hs
      exact absurd (Option.some.inj hs).symm hne
    | @move s0 c h0 hsym =>
      obtain ⟨i0, hi0⟩ := r.known_of_subsetReach h0
      obtain ⟨j, hj, hmem⟩ := r.complete s0 i0 c hi0 hsym
      rw [hj] at hs
      exact ⟨_, hmem, Option.some.inj hs⟩
  · intro i hi
    obtain ⟨s, hs⟩ := (r.nodes i).mp hi
    exact r.walk_of_subsetReach ((hreach s).mp ⟨i, hs⟩) i hs

/-! ## The epsilon character as an input character -/

theorem moveDestinations_epsilon_subset (a : FiniteStateMachine) (f : Finset Int)
    (hf : EpsilonClosed a.transitions f) :
    moveDestinations a f FiniteStateMachine.EPSILON ⊆ f := by
  intro q hq
  obtain ⟨t, ht, hs, hc, hd⟩ := (mem_moveDestinations _ _ _ _).mp hq
  rw [← hd]
  exact hf t ht hs hc

theorem ConversionResult.graph_epsilon_none {a d : FiniteStateMachine} {m : MapStatesToInt}
    (r : ConversionResult a d m) (q : Int) :
    (CompiledDfa.new d).dfaGraph (q, FiniteStateMachine.EPSILON) = none := by
  apply dfaGraph_none
  intro t ht hpair
  obtain ⟨_, _, hsym, _⟩ := r.sound t ht
  exact hsym.1 (Prod.mk.inj hpair).2

theorem ConversionResult.rejects_epsilon {a d : FiniteStateMachine} {m : MapStatesToInt}
    (r : ConversionResult a d m) (s : List Char) (hs : FiniteStateMachine.EPSILON ∈ s) :
    (CompiledDfa.new d).isRecognized s = false := by
  obtain ⟨before, after, hsplit⟩ := List.append_of_mem hs
  rw [hsplit]
  unfold CompiledDfa.isRecognized
  rcases dfa_isRecognizedFrom_append (CompiledDfa.new d) before
    (CompiledDfa.new d).internalFiniteStateMachine.startNode
    (FiniteStateMachine.EPSILON :: after) with h | h
  · exact h
  · rw [h, dfa_isRecognizedFrom_cons]
    split
    · rfl
    · rw [dfa_processNextCharacter_none _ _ _ (r.graph_epsilon_none _)]
      exact dfa_isRecognizedFrom_dead _ after (Or.inl r.dead_not_goal)

/-- C28: the epsilon character as an input character is simulated by the non-deterministic
recognizer and rejected by the converted machine. For every machine and every epsilon-closed
frontier, `processNextCharacter` on the epsilon character replaces the frontier by the
epsilon-closure of its epsilon-successors, a subset of the frontier; and `CompiledDfa` on the
machine returned by `convertNfaEpsilonToDfa`, run from the initial conversion context, returns
false for every string that contains the epsilon character. -/
theorem epsilon_character_simulated (order : IterationOrder) (a : FiniteStateMachine)
    (f : Finset Int) (hf : EpsilonClosed a.transitions f) :
    (CompiledNfaEpsilon.new a).processNextCharacter FiniteStateMachine.EPSILON f =
        (CompiledNfaEpsilon.new a).getEpsilonClosure
          (moveDestinations a f FiniteStateMachine.EPSILON) ∧
      (CompiledNfaEpsilon.new a).processNextCharacter FiniteStateMachine.EPSILON f ⊆ f ∧
      ∃ d cd, convertNfaEpsilonToDfa order ConversionData.initial a = some (d, cd) ∧
        ∀ s, FiniteStateMachine.EPSILON ∈ s → (CompiledDfa.new d).isRecognized s = false := by
  have h1 : (CompiledNfaEpsilon.new a).processNextCharacter FiniteStateMachine.EPSILON f =
      getEpsilonClosure (moveDestinations a f FiniteStateMachine.EPSILON) a.transitions :=
    subsetMove_eq_closure_moveDestinations a f FiniteStateMachine.EPSILON
  refine ⟨?_, ?_, ?_⟩
  · rw [h1, nfa_getEpsilonClosure_eq]
  · rw [h1]
    intro q hq
    exact (mem_getEpsilonClosure.mp hq).mem_of_closed (moveDestinations_epsilon_subset a f hf) hf
  · obtain ⟨d, cd, hconv, _, r⟩ := convertNfaEpsilonToDfa_spec order a
    exact ⟨d, cd, hconv, fun s hs => r.rejects_epsilon s hs⟩

/-- An instance of `epsilon_character_simulated` on `smallNfaMachine` and the epsilon-closed
frontier `{0, 1, 2}`; the non-deterministic recognizer accepts the string `'a'`, epsilon
character, `'a'`, which the converted machine rejects. -/
theorem epsilon_character_simulated_witness :
    EpsilonClosed smallNfaMachine.transitions {0, 1, 2} ∧
      (CompiledNfaEpsilon.new smallNfaMachine).isRecognized
        ['a', FiniteStateMachine.EPSILON, 'a'] = true ∧
      (CompiledNfaEpsilon.new smallNfaMachine).processNextCharacter
          FiniteStateMachine.EPSILON {0, 1, 2} =
        (CompiledNfaEpsilon.new smallNfaMachine).getEpsilonClosure
          (moveDestinations smallNfaMachine {0, 1, 2} FiniteStateMachine.EPSILON) ∧
      (CompiledNfaEpsilon.new smallNfaMachine).processNextCharacter
          FiniteStateMachine.EPSILON {0, 1, 2} ⊆ {0, 1, 2} ∧
      ∃ d cd, convertNfaEpsilonToDfa IterationOrder.increasing ConversionData.initial
          smallNfaMachine = some (d, cd) ∧
        ∀ s, FiniteStateMachine.EPSILON ∈ s → (CompiledDfa.new d).isRecognized s = false :=
  ⟨by decide, by decide,
    epsilon_character_simulated IterationOrder.increasing smallNfaMachine {0, 1, 2}
      (by decide)⟩

/-! ## The two recognizers on a deterministic machine -/

theorem epsilonClosed_of_no_epsilon (ts : List Transition) (s : Finset Int)
    (h : ∀ t ∈ ts, t.transitionChar ≠ FiniteStateMachine.EPSILON) : EpsilonClosed ts s :=
  fun t ht _ hc => absurd hc (h t ht)

theorem nfa_processNextCharacter_singleton (m : FiniteStateMachine)
    (hne : ∀ t ∈ m.transitions, t.transitionChar ≠ FiniteStateMachine.EPSILON)
    (hd : DistinctPairs m.transitions) (c : Char) (cur : Int) :
    (CompiledNfaEpsilon.new m).processNextCharacter c {cur} =
      match (CompiledDfa.new m).dfaGraph (cur, c) with
      | some d => {d}
      | none => ∅ := by
  have h1 : (CompiledNfaEpsilon.new m).processNextCharacter c {cur} =
      moveDestinations m {cur} c := by
    show subsetMove m c {cur} = _
    rw [subsetMove_eq_closure_moveDestinations]
    exact getEpsilonClosure_of_closed _ _ (epsilonClosed_of_no_epsilon _ _ hne)
  rw [h1]
  cases hg : (CompiledDfa.new m).dfaGraph (cur, c) with
  | none =>
    show moveDestinations m {cur} c = ∅
    apply Finset.eq_empty_of_forall_not_mem
    intro q hq
    obtain ⟨t, ht, hs, hc, _⟩ := (mem_moveDestinations _ _ _ _).mp hq
    have hp : t.pair = (cur, c) := by
      unfold Transition.pair
      rw [Finset.mem_singleton.mp hs, hc]
    have := dfaGraph_of_mem m hd t ht
    rw [hp, hg] at this
    cases this
  | some d =>
    show moveDestinations m {cur} c = {d}
    ext q
    rw [mem_moveDestinations, Finset.mem_singleton]
    constructor
    · rintro ⟨t, ht, hs, hc, hq⟩
      have hp : t.pair = (cur, c) := by
        unfold Transition.pair
        rw [Finset.mem_singleton.mp hs, hc]
      have := dfaGraph_of_mem m hd t ht
      rw [hp, hg] at this
      rw [← hq]
      exact (Option.some.inj this).symm
    · intro hq
      obtain ⟨t, ht, hp, hdest⟩ := dfaGraph_some m _ _ hg
      have hp' := Prod.mk.inj hp
      exact ⟨t, ht, Finset.mem_singleton.mpr hp'.1, hp'.2, hdest.trans hq.symm⟩

theorem recognizers_agree_from (m : FiniteStateMachine)
    (hne : ∀ t ∈ m.transitions, t.transitionChar ≠ FiniteStateMachine.EPSILON)
    (hd : DistinctPairs m.transitions) (hgoal : (-1 : Int) ∉ m.goalNodes)
    (hdest : ∀ t ∈ m.transitions, t.destination ≠ -1) (s : List Char) :
    ∀ cur : Int, cur ≠ -1 →
      (CompiledNfaEpsilon.new m).isRecognizedFrom s {cur} =
        (CompiledDfa.new m).isRecognizedFrom s cur := by
  induction s with
  | nil =>
    intro cur _
    show decide (∃ state ∈ ({cur} : Finset Int), state ∈ m.goalNodes) =
      decide (cur ∈ m.goalNodes)
    apply decide_eq_decide.mpr
    simp
  | cons c rest ih =>
    intro cur hcur
    rw [nfa_isRecognizedFrom_cons, dfa_isRecognizedFrom_cons, if_neg hcur,
      if_neg (Finset.singleton_ne_empty cur), nfa_processNextCharacter_singleton m hne hd]
    cases hg : (CompiledDfa.new m).dfaGraph (cur, c) with
    | none =>
      rw [dfa_processNextCharacter_none _ _ _ hg]
      show (CompiledNfaEpsilon.new m).isRecognizedFrom rest ∅ = _
      rw [nfa_isRecognizedFrom_empty]
      exact (dfa_isRecognizedFrom_dead _ rest (Or.inl hgoal)).symm
    | some d =>
      rw [dfa_processNextCharacter_some _ _ _ _ hg]
      obtain ⟨t, ht, _, hdt⟩ := dfaGraph_some m _ _ hg
      exact ih d (hdt ▸ hdest t ht)

/-- C23: the two recognizers agree on deterministic machines. For every machine with no
epsilon transition, pairwise distinct (source, symbol) pairs over its transitions and no state
identifier equal to `-1`, `CompiledNfaEpsilon::isRecognized` and `CompiledDfa::isRecognized`
return the same value on every string, the strings containing the epsilon character
included. -/
theorem recognizers_agree_on_deterministic (m : FiniteStateMachine)
    (hne : ∀ t ∈ m.transitions, t.transitionChar ≠ FiniteStateMachine.EPSILON)
    (hd : DistinctPairs m.transitions) (hid : NoDeadIdentifier m) (s : List Char) :
    (CompiledNfaEpsilon.new m).isRecognized s = (CompiledDfa.new m).isRecognized s := by
  obtain ⟨_, hstart, hgoal, hends⟩ := hid
  have hclosure : (CompiledNfaEpsilon.new m).getEpsilonClosure (insert m.startNode ∅) =
      {m.startNode} := by
    rw [nfa_getEpsilonClosure_eq, insert_empty_eq_singleton]
    exact getEpsilonClosure_of_closed _ _ (epsilonClosed_of_no_epsilon _ _ hne)
  show (CompiledNfaEpsilon.new m).isRecognizedFrom s
      ((CompiledNfaEpsilon.new m).getEpsilonClosure (insert m.startNode ∅)) =
    (CompiledDfa.new m).isRecognizedFrom s m.startNode
  rw [hclosure]
  exact recognizers_agree_from m hne hd hgoal (fun t ht => (hends t ht).2) s m.startNode hstart

/-- An instance of `recognizers_agree_on_deterministic` on `twoStepDfaMachine`: the hypotheses
hold, both recognizers accept `"aba"` and both reject `"ab"`, `"b"` and the string of `'a'`
followed by the epsilon character. -/
theorem recognizers_agree_on_deterministic_witness :
    (∀ t ∈ twoStepDfaMachine.transitions, t.transitionChar ≠ FiniteStateMachine.EPSILON) ∧
      DistinctPairs twoStepDfaMachine.transitions ∧ NoDeadIdentifier twoStepDfaMachine ∧
      (CompiledDfa.new twoStepDfaMachine).isRecognized ['a', 'b', 'a'] = true ∧
      (CompiledDfa.new twoStepDfaMachine).isRecognized ['a', 'b'] = false ∧
      (CompiledDfa.new twoStepDfaMachine).isRecognized ['b'] = false ∧
      (CompiledDfa.new twoStepDfaMachine).isRecognized ['a', FiniteStateMachine.EPSILON] =
        false ∧
      ∀ s, (CompiledNfaEpsilon.new twoStepDfaMachine).isRecognized s =
        (CompiledDfa.new twoStepDfaMachine).isRecognized s :=
  ⟨by decide, by decide, by decide, by decide, by decide, by decide, by decide,
    fun s => recognizers_agree_on_deterministic twoStepDfaMachine (by decide) (by decide)
      (by decide) s⟩

/-! ## Path semantics of the non-deterministic recognizer -/

theorem isPath_append {p r q : Int} (l1 l2 : List Transition) :
    IsPath p l1 r → IsPath r l2 q → IsPath p (l1 ++ l2) q := by
  induction l1 generalizing p with
  | nil =>
    intro h1 h2
    have h1 : p = r := h1
    rw [List.nil_append, h1]
    exact h2
  | cons t rest ih =>
    intro h1 h2
    have h1 : t.source = p ∧ IsPath t.destination rest r := h1
    exact ⟨h1.1, ih h1.2 h2⟩

theorem pathLabels_append (l1 l2 : List Transition) :
    pathLabels (l1 ++ l2) = pathLabels l1 ++ pathLabels l2 := by
  unfold pathLabels
  rw [List.map_append, List.filter_append]

theorem pathLabels_cons_epsilon (t : Transition) (rest : List Transition)
    (h : t.transitionChar = FiniteStateMachine.EPSILON) :
    pathLabels (t :: rest) = pathLabels rest := by
  unfold pathLabels
  rw [List.map_cons, List.filter_cons_of_neg]
  simp [h]

theorem pathLabels_cons_symbol (t : Transition) (rest : List Transition)
    (h : t.transitionChar ≠ FiniteStateMachine.EPSILON) :
    pathLabels (t :: rest) = t.transitionChar :: pathLabels rest := by
  unfold pathLabels
  rw [List.map_cons, List.filter_cons_of_pos]
  simp [h]

/-- An epsilon-reachable state is the end of a path of epsilon transitions. -/
theorem EpsilonReach.path {ts : List Transition} {f : Finset Int} {q : Int}
    (h : EpsilonReach ts f q) :
    ∃ p ∈ f, ∃ path : List Transition, (∀ t ∈ path, t ∈ ts) ∧ IsPath p path q ∧
      pathLabels path = [] := by
  induction h with
  | base hq => exact ⟨_, hq, [], fun t ht => absurd ht (List.not_mem_nil t), rfl, rfl⟩
  | step _ hstep ih =>
    obtain ⟨p, hp, path, hmem, hpath, hlab⟩ := ih
    obtain ⟨t, ht, hs, hc, hd⟩ := hstep
    refine ⟨p, hp, path ++ [t], ?_, ?_, ?_⟩
    · intro t' ht'
      rcases List.mem_append.mp ht' with h | h
      · exact hmem t' h
      · rw [List.mem_singleton.mp h]; exact ht
    · exact isPath_append path [t] hpath ⟨hs, hd⟩
    · rw [pathLabels_append, hlab, pathLabels_cons_epsilon t [] hc]
      rfl

/-- A path from a member of an epsilon-closed frontier ends in the frontier the recognizer
reaches on the labels of the path. -/
theorem nfa_frontier_of_path (a : FiniteStateMachine) (q : Int) (path : List Transition) :
    ∀ (p : Int) (f : Finset Int), EpsilonClosed a.transitions f → p ∈ f →
      (∀ t ∈ path, t ∈ a.transitions) → IsPath p path q →
      q ∈ (pathLabels path).foldl
        (fun f c => (CompiledNfaEpsilon.new a).processNextCharacter c f) f := by
  induction path with
  | nil =>
    intro p f _ hp _ hpath
    have hpath : p = q := hpath
    rw [← hpath]
    exact hp
  | cons t rest ih =>
    intro p f hf hp hmem hpath
    have hpath : t.source = p ∧ IsPath t.destination rest q := hpath
    have ht : t ∈ a.transitions := hmem t (List.mem_cons_self _ _)
    have hrest : ∀ t' ∈ rest, t' ∈ a.transitions :=
      fun t' ht' => hmem t' (List.mem_cons_of_mem _ ht')
    by_cases hc : t.transitionChar = FiniteStateMachine.EPSILON
    · rw [pathLabels_cons_epsilon t rest hc]
      exact ih t.destination f hf (hf t ht (hpath.1 ▸ hp) hc) hrest hpath.2
    · rw [pathLabels_cons_symbol t rest hc, List.foldl_cons]
      have hstep : (CompiledNfaEpsilon.new a).processNextCharacter t.transitionChar f =
          getEpsilonClosure (moveDestinations a f t.transitionChar) a.transitions :=
        subsetMove_eq_closure_moveDestinations a f t.transitionChar
      rw [hstep]
      refine ih t.destination _ (getEpsilonClosure_closed _ _) ?_ hrest hpath.2
      apply subset_getEpsilonClosure
      exact (mem_moveDestinations _ _ _ _).mpr ⟨t, ht, hpath.1 ▸ hp, rfl, rfl⟩

/-- Every state of the frontier the recognizer reaches on a string without the epsilon
character is the end of a path from the initial frontier whose labels spell the string. -/
theorem nfa_path_of_frontier (a : FiniteStateMachine) (q : Int) (s : List Char) :
    FiniteStateMachine.EPSILON ∉ s → ∀ f : Finset Int,
      q ∈ s.foldl (fun f c => (CompiledNfaEpsilon.new a).processNextCharacter c f) f →
      ∃ p ∈ f, ∃ path : List Transition, (∀ t ∈ path, t ∈ a.transitions) ∧ IsPath p path q ∧
        pathLabels path = s := by
  induction s with
  | nil =>
    intro _ f hq
    exact ⟨q, hq, [], fun t ht => absurd ht (List.not_mem_nil t), rfl, rfl⟩
  | cons c rest ih =>
    intro hs f hq
    have hc : c ≠ FiniteStateMachine.EPSILON := fun h => hs (h ▸ List.mem_cons_self _ _)
    have hrest : FiniteStateMachine.EPSILON ∉ rest := fun h => hs (List.mem_cons_of_mem _ h)
    rw [List.foldl_cons] at hq
    obtain ⟨p1, hp1, path1, hmem1, hpath1, hlab1⟩ := ih hrest _ hq
    have hstep : (CompiledNfaEpsilon.new a).processNextCharacter c f =
        getEpsilonClosure (moveDestinations a f c) a.transitions :=
      subsetMove_eq_closure_moveDestinations a f c
    rw [hstep] at hp1
    obtain ⟨p2, hp2, path2, hmem2, hpath2, hlab2⟩ := (mem_getEpsilonClosure.mp hp1).path
    obtain ⟨t, ht, hsrc, hch, hdst⟩ := (mem_moveDestinations _ _ _ _).mp hp2
    refine ⟨t.source, hsrc, t :: (path2 ++ path1), ?_, ?_, ?_⟩
    · intro t' ht'
      rcases List.mem_cons.mp ht' with h | h
      · rw [h]; exact ht
      · rcases List.mem_append.mp h with h | h
        · exact hmem2 t' h
        · exact hmem1 t' h
    · exact ⟨rfl, isPath_append path2 path1 (hdst ▸ hpath2) hpath1⟩
    · rw [pathLabels_cons_symbol t _ (hch ▸ hc), pathLabels_append, hlab2, hlab1, hch]
      rfl

/-- C22: path semantics of non-deterministic recognition. For every machine and every string
without the epsilon character, `CompiledNfaEpsilon::isRecognized` returns true iff there is a
sequence of transitions of the machine forming a path from `startNode` to a goal node whose
labels, with the epsilon labels deleted, spell exactly the string. -/
theorem nfa_isRecognized_iff_path (a : FiniteStateMachine) (s : List Char)
    (hs : FiniteStateMachine.EPSILON ∉ s) :
    (CompiledNfaEpsilon.new a).isRecognized s = true ↔
      ∃ path : List Transition, ∃ q ∈ a.goalNodes, (∀ t ∈ path, t ∈ a.transitions) ∧
        IsPath a.startNode path q ∧ pathLabels path = s := by
  rw [nfa_isRecognized_eq]
  unfold CompiledNfaEpsilon.frontierAfter
  have hstart : (CompiledNfaEpsilon.new a).getEpsilonClosure
      (insert (CompiledNfaEpsilon.new a).internalFiniteStateMachine.startNode ∅) =
      getEpsilonClosure {a.startNode} a.transitions := by
    rw [nfa_getEpsilonClosure_eq, insert_empty_eq_singleton]
    rfl
  rw [hstart]
  show decide (∃ state ∈ _, state ∈ a.goalNodes) = true ↔ _
  rw [decide_eq_true_iff]
  constructor
  · rintro ⟨q, hq, hgoal⟩
    obtain ⟨p, hp, path1, hmem1, hpath1, hlab1⟩ := nfa_path_of_frontier a q s hs _ hq
    obtain ⟨p0, hp0, path0, hmem0, hpath0, hlab0⟩ := (mem_getEpsilonClosure.mp hp).path
    rw [Finset.mem_singleton.mp hp0] at hpath0
    refine ⟨path0 ++ path1, q, hgoal, ?_, isPath_append path0 path1 hpath0 hpath1, ?_⟩
    · intro t ht
      rcases List.mem_append.mp ht with h | h
      · exact hmem0 t h
      · exact hmem1 t h
    · rw [pathLabels_append, hlab0, hlab1]
      rfl
  · rintro ⟨path, q, hgoal, hmem, hpath, hlab⟩
    refine ⟨q, ?_, hgoal⟩
    rw [← hlab]
    exact nfa_frontier_of_path a q path a.startNode _ (getEpsilonClosure_closed _ _)
      (subset_getEpsilonClosure _ _ (Finset.mem_singleton_self _)) hmem hpath

/-- An instance of `nfa_isRecognized_iff_path` on `smallNfaMachine` and the string `"aa"`,
which is accepted: a path that spells it goes `0 -ε-> 1 -a-> 2 -ε-> 0 -ε-> 1 -a-> 2`. -/
theorem nfa_isRecognized_iff_path_witness :
    FiniteStateMachine.EPSILON ∉ ['a', 'a'] ∧
      (CompiledNfaEpsilon.new smallNfaMachine).isRecognized ['a', 'a'] = true ∧
      ((CompiledNfaEpsilon.new smallNfaMachine).isRecognized ['a', 'a'] = true ↔
        ∃ path : List Transition, ∃ q ∈ smallNfaMachine.goalNodes,
          (∀ t ∈ path, t ∈ smallNfaMachine.transitions) ∧
          IsPath smallNfaMachine.startNode path q ∧ pathLabels path = ['a', 'a']) :=
  ⟨by decide, by decide, nfa_isRecognized_iff_path smallNfaMachine ['a', 'a'] (by decide)⟩

/-! ## Iteration orders that follow the insertions -/

/-- On `insertionHistoryMachine` the state-sets `{0}` and `{1}` have the same characters,
inserted in different orders; visited last inserted first they are enumerated as `'b'`, `'a'` for
`{0}` and as `'a'`, `'b'` for `{1}`. The conversion then returns
`insertionHistoryConvertedMachine`, which neither the increasing nor the decreasing order
returns. -/
theorem insertionHistoryMachine_converted :
    IterationOrder.reverseInsertion.enumerate
        { ConversionData.initial with nfaEpsilon := insertionHistoryMachine } {0} {'a', 'b'} =
        ['b', 'a'] ∧
      IterationOrder.reverseInsertion.enumerate
        { ConversionData.initial with nfaEpsilon := insertionHistoryMachine } {1} {'a', 'b'} =
        ['a', 'b'] ∧
      Returns (convertNfaEpsilonToDfa IterationOrder.reverseInsertion ConversionData.initial
        insertionHistoryMachine) insertionHistoryConvertedMachine ∧
      ¬ Returns (convertNfaEpsilonToDfa IterationOrder.increasing ConversionData.initial
        insertionHistoryMachine) insertionHistoryConvertedMachine ∧
      ¬ Returns (convertNfaEpsilonToDfa IterationOrder.decreasing ConversionData.initial
        insertionHistoryMachine) insertionHistoryConvertedMachine := by
  refine ⟨by decide, by decide, by decide, by decide, by decide⟩

/-- With the characters of every state-set visited last inserted first, the conversion of
`regexMachine` returns `regexReverseInsertionMachine` and the conversion of `regexMachine` with
its transition list reversed returns `regexReversedListMachine`; both accept the positive and
reject the negative cases of `main`. -/
theorem regexMachine_reverseInsertion :
    Returns (convertNfaEpsilonToDfa IterationOrder.reverseInsertion ConversionData.initial
        regexMachine) regexReverseInsertionMachine ∧
      Returns (convertNfaEpsilonToDfa IterationOrder.reverseInsertion ConversionData.initial
        { regexMachine with transitions := regexMachine.transitions.reverse })
        regexReversedListMachine ∧
      (∀ s ∈ positiveStrings,
        (CompiledDfa.new regexReverseInsertionMachine).isRecognized s = true ∧
          (CompiledDfa.new regexReversedListMachine).isRecognized s = true) ∧
      ∀ s ∈ negativeStrings,
        (CompiledDfa.new regexReverseInsertionMachine).isRecognized s = false ∧
          (CompiledDfa.new regexReversedListMachine).isRecognized s = false := by
  refine ⟨by decide, by decide, by decide, by decide⟩
